import Mathlib

/-!
# HyperPlot: the histogram layer over hierarchical binnings

A shallow embedding of `src/src/HyperHistogram.cpp` and
`src/src/HyperBinningHistogram.cpp`.

* C++ `double` is modelled by `ℚ` (exact arithmetic), `int` indices of bin-graph
  nodes by `Int`, bin numbers and dimension numbers by `Nat`.
* A member function that mutates `*this` becomes a function returning the new
  object; a `const` member function becomes a plain function of the object.
* `ERROR_LOG << ...` becomes an entry of a returned list of messages.
* The classes `HyperPoint`, `HyperCuboid`, `HyperVolume`, `HistogramBase`,
  `HyperFunction` and the binning classes are used by the two source files but
  are not part of them.  Their parts used here are modelled from the
  specification; each such definition says so in its doc comment.
-/

namespace HyperPlot

/-! ## Geometric primitives -/

/-- Modelled from the spec: `HyperPoint` is not under src/.  A Point is an ordered
sequence of real coordinates plus zero or more ordered weight scalars. -/
structure HyperPoint where
  coords : List ℚ
  weights : List ℚ
deriving DecidableEq

/-- Modelled from the spec: `HyperPoint(int dim)`, the point with `dim` zero
coordinates and no weight. -/
def HyperPoint.zero (dim : Nat) : HyperPoint :=
  { coords := List.replicate dim 0, weights := [] }

/-- Modelled from the spec: `point.at(i) = v`, the write access used by `slice`.
An index beyond the point leaves the model unchanged (C++ `at` would throw). -/
def HyperPoint.setAt (p : HyperPoint) (i : Nat) (v : ℚ) : HyperPoint :=
  { p with coords := p.coords.set i v }

/-- The per-dimension range test `rt low high x` of a box: whether coordinate `x`
lies in the side `[low, high]` of the box.  Which edges are inclusive is left
open by the spec (section 9), so the embedding takes the test as a parameter. -/
abbrev RangeTest := ℚ → ℚ → ℚ → Bool

/-- Modelled from the spec: the convention "low-inclusive, high-exclusive" of
`Box.contains` (without the exception the spec makes for the highest box of the
domain), used where a concrete range test is needed. -/
def halfOpen : RangeTest := fun low high x => decide (low ≤ x) && decide (x < high)

/-- Modelled from the spec: `HyperCuboid` is not under src/.  A Box is two corner
points of equal dimension. -/
structure HyperCuboid where
  lowCorner : List ℚ
  highCorner : List ℚ
deriving DecidableEq

/-- Modelled from the spec: `HyperCuboid::getDimension`, the number of coordinates of the
low corner. -/
def HyperCuboid.getDimension (c : HyperCuboid) : Nat := c.lowCorner.length

/-- Modelled from the spec: `Box.contains(point)`, the per-dimension range test over
every dimension of the box.  A missing coordinate reads as 0. -/
def HyperCuboid.inVolume (rt : RangeTest) (c : HyperCuboid) (p : List ℚ) : Bool :=
  (List.range c.getDimension).all fun i =>
    rt (c.lowCorner.getD i 0) (c.highCorner.getD i 0) (p.getD i 0)

/-- Modelled from the spec: `Box.contains` of a point restricted to the dimensions
`dims` (the test `Region.slice` makes on each box). -/
def HyperCuboid.inVolumeDims (rt : RangeTest) (c : HyperCuboid) (p : List ℚ)
    (dims : List Nat) : Bool :=
  dims.all fun i => rt (c.lowCorner.getD i 0) (c.highCorner.getD i 0) (p.getD i 0)

/-- The dimensions among `0 .. dim-1` that are not in `dims`, in increasing order. -/
def remainingDims (dim : Nat) (dims : List Nat) : List Nat :=
  (List.range dim).filter fun i => !dims.contains i

/-- Modelled from the spec: the box's bounds in the remaining dimensions, as a
lower-dimensional box. -/
def HyperCuboid.project (c : HyperCuboid) (keep : List Nat) : HyperCuboid :=
  { lowCorner := keep.map fun i => c.lowCorner.getD i 0
    highCorner := keep.map fun i => c.highCorner.getD i 0 }

/-- Modelled from the spec: `HyperVolume` is not under src/.  A Region is an ordered
list of boxes of one dimension; the dimension is kept explicitly since a Region
may hold no box. -/
structure HyperVolume where
  dimension : Nat
  hyperCuboids : List HyperCuboid
deriving DecidableEq

/-- Modelled from the spec: `HyperVolume(int dim)`, the empty region. -/
def HyperVolume.empty (dim : Nat) : HyperVolume := { dimension := dim, hyperCuboids := [] }

/-- Modelled from the spec: `HyperVolume::size`, the number of boxes of the region. -/
def HyperVolume.size (v : HyperVolume) : Nat := v.hyperCuboids.length

/-- Modelled from the spec: `HyperVolume::push_back`, appending a box. -/
def HyperVolume.push_back (v : HyperVolume) (c : HyperCuboid) : HyperVolume :=
  { v with hyperCuboids := v.hyperCuboids ++ [c] }

/-- Modelled from the spec: `Region.contains(point)`, true when some box of the
region contains the point. -/
def HyperVolume.inVolume (rt : RangeTest) (v : HyperVolume) (p : List ℚ) : Bool :=
  v.hyperCuboids.any fun c => c.inVolume rt p

/-- Modelled from the spec: `Region.slice(point, fixedDims)`.  A box that does not
contain the point restricted to `fixedDims` is discarded; a box that does is
kept as its bounds in the remaining dimensions.  Retained boxes stay distinct;
the result has no box when none survives. -/
def HyperVolume.slice (rt : RangeTest) (v : HyperVolume) (p : HyperPoint)
    (dims : List Nat) : HyperVolume :=
  { dimension := (remainingDims v.dimension dims).length
    hyperCuboids :=
      (v.hyperCuboids.filter fun c => c.inVolumeDims rt p.coords dims).map
        fun c => c.project (remainingDims v.dimension dims) }

/-- Smallest of a list of numbers, 0 for the empty list. -/
def minOfList : List ℚ → ℚ
  | [] => 0
  | x :: xs => xs.foldl min x

/-- Largest of a list of numbers, 0 for the empty list. -/
def maxOfList : List ℚ → ℚ
  | [] => 0
  | x :: xs => xs.foldl max x

/-- Modelled from the spec: the bounding box of a list of boxes in dimension `dim`
(`getLimits`).  The limits of no box at all are not specified; they are modelled
as the all-zero box of dimension `dim`. -/
def boundingBox (dim : Nat) (cs : List HyperCuboid) : HyperCuboid :=
  { lowCorner := (List.range dim).map fun i => minOfList (cs.map fun c => c.lowCorner.getD i 0)
    highCorner := (List.range dim).map fun i => maxOfList (cs.map fun c => c.highCorner.getD i 0) }

/-- Modelled from the spec: `HyperVolume::getLimits`, the bounding box of a region. -/
def HyperVolume.getLimits (v : HyperVolume) : HyperCuboid :=
  boundingBox v.dimension v.hyperCuboids

/-! ## The bin graph -/

/-- Modelled from the spec: a bin-graph node owns one Region and has zero or more
linked child-node indices (C++ `int`, so `Int` here). -/
structure BinNode where
  volume : HyperVolume
  links : List Int
deriving DecidableEq

/-- A node with no linked node is a leaf, that is, a bin. -/
def BinNode.isLeaf (n : BinNode) : Bool := n.links.isEmpty

/-- Modelled from the spec: the Hierarchical Binning (`HyperBinning`, with its
memory resident form `HyperBinningMemRes`), not under src/.  An arena of nodes
addressed by index, the list of primary node numbers, the dimension and the
axis names.  A dimension of 0 stands for "not set yet". -/
structure HyperBinning where
  dimension : Nat
  nodes : List BinNode
  primaryVolumeNumbers : List Int
  names : List String
deriving DecidableEq

/-- Modelled from the spec: `HyperVolumeBinning`, the binning class of
`HyperBinningHistogram.cpp`, is the same hierarchical binning. -/
abbrev HyperVolumeBinning := HyperBinning

namespace HyperBinning

/-- Modelled from the spec: the default constructor `HyperBinningMemRes()`: no node,
no primary, no name, dimension not set. -/
def new : HyperBinning :=
  { dimension := 0, nodes := [], primaryVolumeNumbers := [], names := [] }

/-- Modelled from the spec: the constructor `HyperVolumeBinning(int dim)`: no node, the
given dimension. -/
def ofDim (dim : Nat) : HyperBinning :=
  { dimension := dim, nodes := [], primaryVolumeNumbers := [], names := [] }

/-- Modelled from the spec: `getDimension`, the dimension of the binning. -/
def getDimension (b : HyperBinning) : Nat := b.dimension

/-- Modelled from the spec: `getNumHyperVolumes`, the number of nodes of the bin graph. -/
def getNumHyperVolumes (b : HyperBinning) : Nat := b.nodes.length

/-- Node number `i`, when there is one. -/
def getNode (b : HyperBinning) (i : Int) : Option BinNode :=
  if i < 0 then none else b.nodes.get? i.toNat

/-- Modelled from the spec: `getLinkedHyperVolumes(i)`, the link list of node `i`; empty
for a number that names no node. -/
def getLinkedHyperVolumes (b : HyperBinning) (i : Int) : List Int :=
  match b.getNode i with
  | some n => n.links
  | none => []

/-- Modelled from the spec: `getHyperVolume(i)`, the Region of node `i`; the empty region
for a number that names no node. -/
def getHyperVolume (b : HyperBinning) (i : Int) : HyperVolume :=
  match b.getNode i with
  | some n => n.volume
  | none => HyperVolume.empty b.dimension

/-- Modelled from the spec: a leaf corresponds 1:1 to one bin index; the bins are the
leaves in increasing node order.  `getNumBins` is the number of leaves. -/
def getNumBins (b : HyperBinning) : Nat := b.nodes.countP BinNode.isLeaf

/-- Modelled from the spec: `getBinNum(int volumeNumber)`, the bin number of a node:
its rank among the leaves, or -1 for a node that is not a leaf (the source tests
the result against -1 in `saveToTxtFile`). -/
def getBinNumOfVolume (b : HyperBinning) (v : Int) : Int :=
  match b.getNode v with
  | some n => if n.isLeaf then ((b.nodes.take v.toNat).countP BinNode.isLeaf : Nat) else -1
  | none => -1

/-- Regions of the bins, in bin order. -/
def binVolumes (b : HyperBinning) : List HyperVolume :=
  (b.nodes.filter BinNode.isLeaf).map BinNode.volume

/-- Modelled from the spec: `getBinHyperVolume(bin)`, the region of bin number `bin`. -/
def getBinHyperVolume (b : HyperBinning) (bin : Nat) : HyperVolume :=
  b.binVolumes.getD bin (HyperVolume.empty b.dimension)

/-- Modelled from the spec: `addHyperVolume(volume, links)` appends a node.  A binning
whose dimension is not set yet takes the dimension of the region. -/
def addHyperVolume (b : HyperBinning) (vol : HyperVolume) (links : List Int) : HyperBinning :=
  { b with
    dimension := if b.dimension = 0 then vol.dimension else b.dimension
    nodes := b.nodes ++ [{ volume := vol, links := links }] }

/-- Modelled from the spec: `addPrimaryVolumeNumber` appends a primary node number. -/
def addPrimaryVolumeNumber (b : HyperBinning) (v : Int) : HyperBinning :=
  { b with primaryVolumeNumbers := b.primaryVolumeNumbers ++ [v] }

/-- Modelled from the spec: `setNames` replaces the axis names. -/
def setNames (b : HyperBinning) (names : List String) : HyperBinning :=
  { b with names := names }

/-- Modelled from the spec: `getLimits`, the union bounding box of all primary nodes. -/
def getLimits (b : HyperBinning) : HyperCuboid :=
  boundingBox b.dimension
    (b.primaryVolumeNumbers.flatMap fun v => (b.getHyperVolume v).hyperCuboids)

/-- Outcome of a spatial descent from one node. -/
inductive Descent where
  /-- The descent stopped at the leaf with this node number. -/
  | leaf (volumeNumber : Int)
  /-- A node on the path has no linked node containing the point. -/
  | miss
  /-- The links were followed more often than there are nodes: a link cycle,
  on which the C++ recursion does not return. -/
  | cycle
deriving DecidableEq

/-- Modelled from the spec: the descent of the lookup.  At a leaf, stop; at an internal
node, test each child's Region in link order and recurse into the first child
containing the point.  `fuel` bounds the number of nodes visited. -/
def followBinLinks (rt : RangeTest) (b : HyperBinning) (p : List ℚ) :
    Nat → Int → Descent
  | 0, _ => Descent.cycle
  | fuel + 1, v =>
    if (b.getLinkedHyperVolumes v).isEmpty then Descent.leaf v
    else
      match (b.getLinkedHyperVolumes v).find? fun c => (b.getHyperVolume c).inVolume rt p with
      | some c => followBinLinks rt b p fuel c
      | none => Descent.miss

/-- Modelled from the spec: the lookup outcome for a point.  Starting from each primary
node in turn, test its Region; on the first primary containing the point,
descend.  A path without a cycle visits at most `nodes.length` nodes. -/
def descend (rt : RangeTest) (b : HyperBinning) (p : List ℚ) : Descent :=
  match b.primaryVolumeNumbers.find? fun v => (b.getHyperVolume v).inVolume rt p with
  | some v => followBinLinks rt b p b.nodes.length v
  | none => Descent.miss

/-- Modelled from the spec: `getBinNum(point)`.  The bin index of the leaf the descent
stops at, or the overflow index `getNumBins` when no primary contains the point
or the point is inside no leaf.  (On a link cycle the model also answers the
overflow index.) -/
def getBinNum (rt : RangeTest) (b : HyperBinning) (p : HyperPoint) : Nat :=
  match b.descend rt p.coords with
  | Descent.leaf v =>
    match b.getNode v with
    | some _ => (b.nodes.take v.toNat).countP BinNode.isLeaf
    | none => b.getNumBins
  | _ => b.getNumBins

end HyperBinning

/-! ## The content store and the histogram classes -/

/-- Modelled from the spec: `HistogramBase`, the Content Store, is not under src/.  Two
dense arrays `binContents[0..nBins]` and `sumW2[0..nBins]`, the slot `nBins`
being the overflow slot (the names `_nBins`, `_binContents`, `_sumW2` are those
`printFull` reads), and the display range `min`, `max` (`none` when not set). -/
structure HistogramBase where
  nBins : Nat
  binContents : List ℚ
  sumW2 : List ℚ
  min : Option ℚ
  max : Option ℚ
deriving DecidableEq

namespace HistogramBase

/-- Modelled from the spec: the constructor `HistogramBase(nBins)`: a store of `nBins`
bins and the overflow slot, all zero. -/
def new (nBins : Nat) : HistogramBase :=
  { nBins := nBins
    binContents := List.replicate (nBins + 1) 0
    sumW2 := List.replicate (nBins + 1) 0
    min := none
    max := none }

/-- Both arrays have one slot per bin and the overflow slot. -/
def WellSized (h : HistogramBase) : Prop :=
  h.binContents.length = h.nBins + 1 ∧ h.sumW2.length = h.nBins + 1

instance (h : HistogramBase) : Decidable h.WellSized := by
  unfold WellSized; infer_instance

/-- Modelled from the spec: `getNBins`, the bin count of the store. -/
def getNBins (h : HistogramBase) : Nat := h.nBins

/-- Modelled from the spec: `getBinContent(bin)` reads `content[bin]`. -/
def getBinContent (h : HistogramBase) (bin : Nat) : ℚ := h.binContents.getD bin 0

/-- Sum of squared weights of a bin, `sumSquaredWeight[bin]`. -/
def getSumW2 (h : HistogramBase) (bin : Nat) : ℚ := h.sumW2.getD bin 0

/-- Modelled from the spec: `fillBase(bin, weight)`: `content[bin] += weight`,
`sumSquaredWeight[bin] += weight²`. -/
def fillBase (h : HistogramBase) (bin : Nat) (weight : ℚ) : HistogramBase :=
  { h with
    binContents := h.binContents.set bin (h.binContents.getD bin 0 + weight)
    sumW2 := h.sumW2.set bin (h.sumW2.getD bin 0 + weight * weight) }

/-- Modelled from the spec: `setBinContent(bin, val)` overwrites `content[bin]`. -/
def setBinContent (h : HistogramBase) (bin : Nat) (val : ℚ) : HistogramBase :=
  { h with binContents := h.binContents.set bin val }

end HistogramBase

/-- The class `HyperHistogram`: the `HistogramBase` part, the `HyperFunction` part (its
domain limits) and the owned binning `_binning`.  An object whose `_binning` is
still null is not a value of this type. -/
structure HyperHistogram where
  base : HistogramBase
  funcLimits : HyperCuboid
  binning : HyperBinning
deriving DecidableEq

/-- The class `HyperBinningHistogram`: the `HistogramBase` part, the `HyperFunction`
part and the binning `_binning`, held by value. -/
structure HyperBinningHistogram where
  base : HistogramBase
  funcLimits : HyperCuboid
  binning : HyperVolumeBinning
deriving DecidableEq

/-- Modelled from the spec: the default `HyperFunction()` has limits of dimension 0. -/
def HyperCuboid.none : HyperCuboid := { lowCorner := [], highCorner := [] }

namespace HyperHistogram

/-- `HyperHistogram(const BinningBase& binning)`: a store of `binning.getNumBins()`
bins, a clone of the binning, and the function limits set to the binning's
limits. -/
def ofBinning (binning : HyperBinning) : HyperHistogram :=
  { base := HistogramBase.new binning.getNumBins
    funcLimits := binning.getLimits
    binning := binning }

/-- The store is sized to the binning: the arrays hold `nBins + 1` slots and
`nBins` is the binning's bin count. -/
def WellFormed (h : HyperHistogram) : Prop :=
  h.base.WellSized ∧ h.base.nBins = h.binning.getNumBins

instance (h : HyperHistogram) : Decidable h.WellFormed := by
  unfold WellFormed; infer_instance

/-- `HyperHistogram::fill(const HyperPoint& coords, double weight)`. -/
def fill (rt : RangeTest) (h : HyperHistogram) (coords : HyperPoint) (weight : ℚ) :
    HyperHistogram × Nat :=
  let binNumber := h.binning.getBinNum rt coords
  ({ h with base := h.base.fillBase binNumber weight }, binNumber)

/-- `HyperHistogram::getVal(const HyperPoint& point)`. -/
def getVal (rt : RangeTest) (h : HyperHistogram) (point : HyperPoint) : ℚ :=
  let binNumber := h.binning.getBinNum rt point
  h.base.getBinContent binNumber

/-- `HyperHistogram::getLimits`. -/
def getLimits (h : HyperHistogram) : HyperCuboid := h.binning.getLimits

/-- `HyperHistogram::getDimension` (for a histogram with a binning). -/
def getDimension (h : HyperHistogram) : Nat := h.binning.getDimension

end HyperHistogram

namespace HyperBinningHistogram

/-- `HyperBinningHistogram(const HyperVolumeBinning& binning)`: a store of
`binning.getNumBins()` bins and a copy of the binning. -/
def ofBinning (binning : HyperVolumeBinning) : HyperBinningHistogram :=
  { base := HistogramBase.new binning.getNumBins
    funcLimits := HyperCuboid.none
    binning := binning }

/-- The store is sized to the binning. -/
def WellFormed (h : HyperBinningHistogram) : Prop :=
  h.base.WellSized ∧ h.base.nBins = h.binning.getNumBins

instance (h : HyperBinningHistogram) : Decidable h.WellFormed := by
  unfold WellFormed; infer_instance

/-- `HyperBinningHistogram::fill(const HyperPoint& coords, double weight)`. -/
def fill (rt : RangeTest) (h : HyperBinningHistogram) (coords : HyperPoint) (weight : ℚ) :
    HyperBinningHistogram × Nat :=
  let binNumber := h.binning.getBinNum rt coords
  ({ h with base := h.base.fillBase binNumber weight }, binNumber)

/-- `HyperBinningHistogram::getVal(const HyperPoint& point)`. -/
def getVal (rt : RangeTest) (h : HyperBinningHistogram) (point : HyperPoint) : ℚ :=
  let binNumber := h.binning.getBinNum rt point
  h.base.getBinContent binNumber

end HyperBinningHistogram

/-! ## Example data: the 2-dimensional domain split in four quadrants -/

/-- The box `[x0,x1] x [y0,y1]` as a one-box region of dimension 2. -/
def rect (x0 y0 x1 y1 : ℚ) : HyperVolume :=
  { dimension := 2, hyperCuboids := [{ lowCorner := [x0, y0], highCorner := [x1, y1] }] }

/-- The domain `[0,0]-[10,10]` as one primary node linked to its four quadrants,
numbered by increasing x, then y. -/
def quadBinning : HyperBinning :=
  { dimension := 2
    nodes :=
      [ { volume := rect 0 0 10 10, links := [1, 2, 3, 4] },
        { volume := rect 0 0 5 5, links := [] },
        { volume := rect 0 5 5 10, links := [] },
        { volume := rect 5 0 10 5, links := [] },
        { volume := rect 5 5 10 10, links := [] } ]
    primaryVolumeNumbers := [0]
    names := ["x", "y"] }

/-- A point of dimension 2 without weight. -/
def pt (x y : ℚ) : HyperPoint := { coords := [x, y], weights := [] }

/-- Contents of the bins `0 .. nBins-1`, without the overflow slot. -/
def HistogramBase.binContentsList (h : HistogramBase) : List ℚ :=
  (List.range h.nBins).map h.getBinContent

/-- Total content, summed over all bins (the overflow slot is not a bin). -/
def HistogramBase.total (h : HistogramBase) : ℚ := h.binContentsList.sum

/-- The quadrant histogram after the three fills of the scenario: `(1,1)` with weight
2, `(9,9)` with weight 3, `(1,9)` with weight 1. -/
def quadFilled : HyperHistogram :=
  ((((HyperHistogram.ofBinning quadBinning).fill halfOpen (pt 1 1) 2).1.fill
    halfOpen (pt 9 9) 3).1.fill halfOpen (pt 1 9) 1).1

/-- The same three fills on a `HyperBinningHistogram` over the quadrants. -/
def quadFilledOld : HyperBinningHistogram :=
  ((((HyperBinningHistogram.ofBinning quadBinning).fill halfOpen (pt 1 1) 2).1.fill
    halfOpen (pt 9 9) 3).1.fill halfOpen (pt 1 9) 1).1

/-! ## Merging -/

/-- A node with all of its link numbers increased by `k`. -/
def BinNode.offset (k : Nat) (n : BinNode) : BinNode :=
  { volume := n.volume, links := n.links.map fun l => l + (k : Int) }

/-- Modelled from the spec: `mergeBinnings(other)` of the hierarchical binning.  It
requires the same dimension and fails otherwise, leaving the binning unchanged
and reporting an error; a binning whose dimension is not set yet accepts any
(the constructor of a histogram from a list of files merges into an empty
binning).  On success the other bin graph is appended, all of its node numbers
(links and primaries) offset by the number of nodes already present; nothing is
reconciled geometrically. -/
def HyperBinning.mergeBinnings (b other : HyperBinning) : HyperBinning × List String :=
  if b.dimension = 0 ∨ b.dimension = other.dimension then
    ({ dimension := if b.dimension = 0 then other.dimension else b.dimension
       nodes := b.nodes ++ other.nodes.map (BinNode.offset b.nodes.length)
       primaryVolumeNumbers := b.primaryVolumeNumbers ++
         other.primaryVolumeNumbers.map fun v => v + (b.nodes.length : Int)
       names := b.names }, [])
  else (b, ["mergeBinnings: the binnings do not have the same dimension"])

/-- The slots `0 .. nBins-1` of a store array. -/
def binSlots (nBins : Nat) (a : List ℚ) : List ℚ := (List.range nBins).map fun i => a.getD i 0

/-- A store array of `nBins` bins resized to `n` bins: the bins keep their indices,
the new bins are 0, the overflow slot moves to index `n`. -/
def resizeStore (nBins : Nat) (a : List ℚ) (n : Nat) : List ℚ :=
  binSlots nBins a ++ List.replicate (n - nBins) 0 ++ [a.getD nBins 0]

/-- A store array of `nBins` bins renumbered by `offset`, inside a store of
`offset + nBins` bins: the bins move up by `offset`, the overflow slot moves to
the end. -/
def renumberStore (nBins : Nat) (a : List ℚ) (offset : Nat) : List ℚ :=
  List.replicate offset 0 ++ binSlots nBins a ++ [a.getD nBins 0]

/-- Modelled from the spec: `HistogramBase::merge(other)`, not under src/.  The two
Content Stores are added element-wise after resizing to the combined bin count:
the left-hand store keeps its indices, the right-hand entries are renumbered by
the left-hand bin count, as the bins of the merged binning are. -/
def HistogramBase.merge (h other : HistogramBase) : HistogramBase :=
  { nBins := h.nBins + other.nBins
    binContents := List.zipWith (· + ·)
      (resizeStore h.nBins h.binContents (h.nBins + other.nBins))
      (renumberStore other.nBins other.binContents h.nBins)
    sumW2 := List.zipWith (· + ·)
      (resizeStore h.nBins h.sumW2 (h.nBins + other.nBins))
      (renumberStore other.nBins other.sumW2 h.nBins)
    min := h.min
    max := h.max }

/-- The argument `const HistogramBase& other` of `merge`, by its dynamic type: a
`HyperHistogram`, a `HyperBinningHistogram`, or any other kind of histogram, of
which only the `HistogramBase` part is known. -/
inductive HistogramRef where
  | hyperHistogram (h : HyperHistogram)
  | hyperBinningHistogram (h : HyperBinningHistogram)
  | otherKind (h : HistogramBase)
deriving DecidableEq

/-- The `HistogramBase` part of the object referred to. -/
def HistogramRef.base : HistogramRef → HistogramBase
  | HistogramRef.hyperHistogram h => h.base
  | HistogramRef.hyperBinningHistogram h => h.base
  | HistogramRef.otherKind h => h

/-- Whether `dynamic_cast<const HyperHistogram*>` succeeds. -/
def HistogramRef.isHyperHistogram : HistogramRef → Bool
  | HistogramRef.hyperHistogram _ => true
  | _ => false

/-- Whether `dynamic_cast<const HyperBinningHistogram*>` succeeds. -/
def HistogramRef.isHyperBinningHistogram : HistogramRef → Bool
  | HistogramRef.hyperBinningHistogram _ => true
  | _ => false

/-- `HyperHistogram::merge(const HistogramBase& other)`.  Returns the histogram after
the call and the messages written to the error log.  `other` is a `const`
reference: the call has no way to change it. -/
def HyperHistogram.merge (h : HyperHistogram) (other : HistogramRef) :
    HyperHistogram × List String :=
  match other with
  | HistogramRef.hyperHistogram histOther =>
    let merged := h.binning.mergeBinnings histOther.binning
    let base := h.base.merge (HistogramRef.hyperHistogram histOther).base
    let a := h.funcLimits
    let b := histOther.funcLimits
    let vol := HyperVolume.empty merged.1.getDimension
    let vol := if a.getDimension ≠ 0 then vol.push_back a else vol
    let vol := if b.getDimension ≠ 0 then vol.push_back b else vol
    ({ base := base, funcLimits := vol.getLimits, binning := merged.1 }, merged.2)
  | _ =>
    (h, ["The object passed to HyperHistogram::merge is not of type " ++
         "HyperHistogram, so cannot merge"])

/-- `HyperBinningHistogram::merge(const HistogramBase& other)`. -/
def HyperBinningHistogram.merge (h : HyperBinningHistogram) (other : HistogramRef) :
    HyperBinningHistogram × List String :=
  match other with
  | HistogramRef.hyperBinningHistogram histOther =>
    let merged := h.binning.mergeBinnings histOther.binning
    let base := h.base.merge (HistogramRef.hyperBinningHistogram histOther).base
    ({ h with base := base, binning := merged.1 }, merged.2)
  | _ =>
    (h, ["The object passed to HyperBinningHistogram::merge is not of type " ++
         "HyperBinningHistogram, so cannot merge"])

/-- Every node number used by the bin graph, as a link or as a primary, names a node
of the graph (the arena of nodes is closed). -/
def HyperBinning.IndicesInRange (b : HyperBinning) : Prop :=
  (∀ n ∈ b.nodes, ∀ l ∈ n.links, 0 ≤ l ∧ l < (b.nodes.length : Int)) ∧
  (∀ v ∈ b.primaryVolumeNumbers, 0 ≤ v ∧ v < (b.nodes.length : Int))

instance (b : HyperBinning) : Decidable b.IndicesInRange := by
  unfold HyperBinning.IndicesInRange; infer_instance

/-- The quadrant binning moved to the domain `[20,20]-[30,30]`. -/
def farBinning : HyperBinning :=
  { dimension := 2
    nodes :=
      [ { volume := rect 20 20 30 30, links := [1, 2, 3, 4] },
        { volume := rect 20 20 25 25, links := [] },
        { volume := rect 20 25 25 30, links := [] },
        { volume := rect 25 20 30 25, links := [] },
        { volume := rect 25 25 30 30, links := [] } ]
    primaryVolumeNumbers := [0]
    names := ["x", "y"] }

/-- A binning of dimension 1 with the single bin `[0,1]`, which is primary. -/
def lineBinning : HyperBinning :=
  { dimension := 1
    nodes := [ { volume := { dimension := 1,
                             hyperCuboids := [{ lowCorner := [0], highCorner := [1] }] },
                 links := [] } ]
    primaryVolumeNumbers := [0]
    names := ["x"] }

/-- The quadrant histogram with content 1 in each bin. -/
def quadOnes : HyperHistogram :=
  { base := { nBins := 4, binContents := [1, 1, 1, 1, 0], sumW2 := [1, 1, 1, 1, 0],
              min := none, max := none }
    funcLimits := quadBinning.getLimits
    binning := quadBinning }

/-- A node number that names a node of the graph. -/
def HyperBinning.InRange (a : HyperBinning) (v : Int) : Prop :=
  0 ≤ v ∧ v < (a.nodes.length : Int)

/-! ## Slicing -/

/-- Modelled from the spec: the error of a bin.  The Content Store keeps the sum of
squared weights of each bin; the error of a bin is its square root
(`getBinError`).  The square root on the number model is the parameter `sqrt`. -/
def HistogramBase.getBinError (sqrt : ℚ → ℚ) (h : HistogramBase) (bin : Nat) : ℚ :=
  sqrt (h.sumW2.getD bin 0)

/-- Modelled from the spec: `setBinError(bin, err)` stores the square of the error as
the sum of squared weights of the bin. -/
def HistogramBase.setBinError (h : HistogramBase) (bin : Nat) (err : ℚ) : HistogramBase :=
  { h with sumW2 := h.sumW2.set bin (err * err) }

/-- The laws of the square root that the embedding relies on: it is never negative
and it undoes squaring on the non-negative numbers. -/
def IsSqrt (sqrt : ℚ → ℚ) : Prop :=
  (∀ x, 0 ≤ sqrt x) ∧ (∀ x, 0 ≤ x → sqrt (x * x) = x)

/-- One round of the first loop of `slice`: `point.at(sliceDims.at(i)) =
sliceVals.at(i)`; `none` when an `at` access is out of range. -/
def slicePointStep (sliceDims : List Nat) (sliceVals : List ℚ) (point : HyperPoint)
    (i : Nat) : Option HyperPoint :=
  match sliceDims.get? i, sliceVals.get? i with
  | some dim, some val =>
    if dim < point.coords.length then some (point.setAt dim val) else none
  | _, _ => none

/-- The point built at the start of `slice`: `HyperPoint point(nStartingDims)`, then
`point.at(sliceDims.at(i)) = sliceVals.at(i)` for `i < nSliceDims`.  `none` when
one of the `at` accesses is out of range (C++ throws). -/
def slicePoint (nStartingDims : Nat) (sliceDims : List Nat) (sliceVals : List ℚ) :
    Option HyperPoint :=
  (List.range sliceDims.length).foldlM (slicePointStep sliceDims sliceVals)
    (HyperPoint.zero nStartingDims)

/-- The state of the bin loop of `slice`: the binning `temp` and the vectors
`binContents` and `binErrors`. -/
structure SliceAcc where
  temp : HyperBinning
  binContents : List ℚ
  binErrors : List ℚ

/-- One round of the bin loop of `slice`, for bin `i`: slice the region of the bin;
when the sliced region has a box, add it to `temp` (with no links) and push the
content and the error of the bin. -/
def sliceStep (rt : RangeTest) (sqrt : ℚ → ℚ) (base : HistogramBase) (binning : HyperBinning)
    (point : HyperPoint) (sliceDims : List Nat) (acc : SliceAcc) (i : Nat) : SliceAcc :=
  let vol := binning.getBinHyperVolume i
  let slicedVol := vol.slice rt point sliceDims
  if slicedVol.size = 0 then acc
  else
    { temp := acc.temp.addHyperVolume slicedVol []
      binContents := acc.binContents ++ [base.getBinContent i]
      binErrors := acc.binErrors ++ [base.getBinError sqrt i] }

/-- The bin loop of `slice`: `for (int i = 0; i < getNBins(); i++)`. -/
def sliceLoop (rt : RangeTest) (sqrt : ℚ → ℚ) (base : HistogramBase) (binning : HyperBinning)
    (point : HyperPoint) (sliceDims : List Nat) (temp : HyperBinning) : SliceAcc :=
  (List.range base.getNBins).foldl (sliceStep rt sqrt base binning point sliceDims)
    { temp := temp, binContents := [], binErrors := [] }

/-- The loop of `slice` that copies contents and errors into the sliced histogram:
`setBinContent(i, binContents.at(i)); setBinError(i, binErrors.at(i))` for
`i < binContents.size()`. -/
def setSlicedContents (base : HistogramBase) (binContents binErrors : List ℚ) :
    HistogramBase :=
  (List.range binContents.length).foldl
    (fun b i => (b.setBinContent i (binContents.getD i 0)).setBinError i (binErrors.getD i 0))
    base

/-- One round of the name loop of `slice`, on the pair of `names` and `count`: when
dimension `i` is not among `sliceDims`, `names.at(count) = getNames().at(i);
count++`; `none` when an `at` access is out of range. -/
def sliceNamesStep (sliceDims : List Nat) (binningNames : List String)
    (st : List String × Nat) (i : Nat) : Option (List String × Nat) :=
  if sliceDims.contains i then some st
  else
    match binningNames.get? i with
    | some name => if st.2 < st.1.length then some (st.1.set st.2 name, st.2 + 1) else none
    | none => none

/-- The name loop of `slice`: `HyperName names(nEndDims)`, then for each dimension
`i` that is not in `sliceDims`, `names.at(count) = getNames().at(i); count++`.
`none` when an `at` access is out of range, or when `nEndDims` is negative (no
name list of negative length is built). -/
def sliceNames (nStartingDims : Nat) (sliceDims : List Nat) (binningNames : List String) :
    Option (List String) :=
  if nStartingDims < sliceDims.length then none
  else
    ((List.range nStartingDims).foldlM (sliceNamesStep sliceDims binningNames)
      (List.replicate (nStartingDims - sliceDims.length) "", 0)).map Prod.fst

/-- `HyperHistogram::slice(std::vector<int> sliceDims, std::vector<double> sliceVals)`.
The binning `temp` starts as the default `HyperBinningMemRes`.  `none` when an
`at` access throws. -/
def HyperHistogram.slice (rt : RangeTest) (sqrt : ℚ → ℚ) (h : HyperHistogram)
    (sliceDims : List Nat) (sliceVals : List ℚ) : Option HyperHistogram :=
  let nStartingDims := h.binning.getDimension
  match slicePoint nStartingDims sliceDims sliceVals with
  | none => none
  | some point =>
    let acc := sliceLoop rt sqrt h.base h.binning point sliceDims HyperBinning.new
    let slicedHist := HyperHistogram.ofBinning acc.temp
    let slicedHist :=
      { slicedHist with base := setSlicedContents slicedHist.base acc.binContents acc.binErrors }
    match sliceNames nStartingDims sliceDims h.binning.names with
    | none => none
    | some names =>
      some { slicedHist with
        binning := slicedHist.binning.setNames names
        base := { slicedHist.base with min := h.base.min, max := h.base.max } }

/-- `HyperBinningHistogram::slice(std::vector<int> sliceDims, std::vector<double>
sliceVals)`.  The binning `temp` starts as `HyperVolumeBinning temp(nEndDims)`.
`none` when an `at` access throws. -/
def HyperBinningHistogram.slice (rt : RangeTest) (sqrt : ℚ → ℚ) (h : HyperBinningHistogram)
    (sliceDims : List Nat) (sliceVals : List ℚ) : Option HyperBinningHistogram :=
  let nStartingDims := h.binning.getDimension
  let nEndDims := nStartingDims - sliceDims.length
  match slicePoint nStartingDims sliceDims sliceVals with
  | none => none
  | some point =>
    let acc := sliceLoop rt sqrt h.base h.binning point sliceDims (HyperBinning.ofDim nEndDims)
    let slicedHist := HyperBinningHistogram.ofBinning acc.temp
    let slicedHist :=
      { slicedHist with base := setSlicedContents slicedHist.base acc.binContents acc.binErrors }
    match sliceNames nStartingDims sliceDims h.binning.names with
    | none => none
    | some names => some { slicedHist with binning := slicedHist.binning.setNames names }

/-- `HyperBinningHistogram::getDimension`, the dimension of the binning. -/
def HyperBinningHistogram.getDimension (h : HyperBinningHistogram) : Nat :=
  h.binning.getDimension

/-- Whether the region `v` meets the hyperplane that fixes coordinate `dims[j]` to
`vals[j]` for every `j`: some box of the region has, in each fixed dimension,
the fixed value within its side. -/
def HyperVolume.meetsHyperplane (rt : RangeTest) (v : HyperVolume) (dims : List Nat)
    (vals : List ℚ) : Bool :=
  v.hyperCuboids.any fun c =>
    (List.range dims.length).all fun j =>
      rt (c.lowCorner.getD (dims.getD j 0) 0) (c.highCorner.getD (dims.getD j 0) 0)
        (vals.getD j 0)

/-- The bins of the histogram whose region meets the hyperplane of the slice
request, in increasing order. -/
def survivingBins (rt : RangeTest) (base : HistogramBase) (binning : HyperBinning)
    (dims : List Nat) (vals : List ℚ) : List Nat :=
  (List.range base.getNBins).filter fun i =>
    (binning.getBinHyperVolume i).meetsHyperplane rt dims vals

/-- A slice request the code can serve without an out-of-range access: a value for
every fixed dimension, fixed dimensions distinct and below the dimension of the
histogram, and a name for every dimension of the binning. -/
def SliceRequestValid (binning : HyperBinning) (dims : List Nat) (vals : List ℚ) : Prop :=
  dims.length ≤ vals.length ∧ (∀ x ∈ dims, x < binning.getDimension) ∧ dims.Nodup ∧
    binning.getDimension ≤ binning.names.length

instance (binning : HyperBinning) (dims : List Nat) (vals : List ℚ) :
    Decidable (SliceRequestValid binning dims vals) := by
  unfold SliceRequestValid; infer_instance

/-- The sliced region of bin `i`, as the bin loop of `slice` computes it. -/
def slicedVolume (rt : RangeTest) (binning : HyperBinning) (point : HyperPoint)
    (sliceDims : List Nat) (i : Nat) : HyperVolume :=
  (binning.getBinHyperVolume i).slice rt point sliceDims

/-- The bins whose sliced region has at least one box, in increasing order. -/
def nonEmptySliceBins (rt : RangeTest) (base : HistogramBase) (binning : HyperBinning)
    (point : HyperPoint) (sliceDims : List Nat) : List Nat :=
  (List.range base.getNBins).filter fun i =>
    (slicedVolume rt binning point sliceDims i).size != 0

/-- The histogram over the far quadrants with weight 5 filled at `(21,21)` and
weight 4 filled outside its domain, at `(0,0)`. -/
def farFilled : HyperHistogram :=
  (((HyperHistogram.ofBinning farBinning).fill halfOpen (pt 21 21) 5).1.fill
    halfOpen (pt 0 0) 4).1

/-- Modelled from the spec: the domain of a binning is the union of the Regions of its
primary nodes; a point is inside the domain when some primary Region contains
it. -/
def HyperBinning.inDomain (rt : RangeTest) (b : HyperBinning) (p : List ℚ) : Bool :=
  b.primaryVolumeNumbers.any fun v => (b.getHyperVolume v).inVolume rt p

/-- The invariant "the Region of an internal node is the union of its children's
Regions", at the point `p`: an internal node whose Region contains `p` has a
child whose Region contains `p`. -/
def HyperBinning.Covered (rt : RangeTest) (b : HyperBinning) (p : List ℚ) : Prop :=
  ∀ n ∈ b.nodes, n.links.isEmpty = false → n.volume.inVolume rt p = true →
    (n.links.any fun c => (b.getHyperVolume c).inVolume rt p) = true

instance (rt : RangeTest) (b : HyperBinning) (p : List ℚ) : Decidable (b.Covered rt p) := by
  unfold HyperBinning.Covered; infer_instance

/-! ## Contents from a function, and the one-argument fill -/

/-- Modelled from the spec: `Box.volume()`, the product over the dimensions of
`high[i] - low[i]`; zero for a degenerate box. -/
def HyperCuboid.volume (c : HyperCuboid) : ℚ :=
  ((List.range c.getDimension).map fun i => c.highCorner.getD i 0 - c.lowCorner.getD i 0).prod

/-- Modelled from the spec: the centre of a box, the midpoint of its corners. -/
def HyperCuboid.getCenter (c : HyperCuboid) : List ℚ :=
  (List.range c.getDimension).map fun i => (c.lowCorner.getD i 0 + c.highCorner.getD i 0) / 2

/-- Modelled from the spec: the volume of a Region, the sum of the volumes of its
boxes. -/
def HyperVolume.volume (v : HyperVolume) : ℚ :=
  (v.hyperCuboids.map HyperCuboid.volume).sum

/-- Modelled from the spec: `getAverageCenter`, the volume-weighted average centre of
the Region: the centres of its boxes, each weighted by the volume of the box,
divided by the volume of the Region (division by a zero volume gives 0 in the
number model). -/
def HyperVolume.getAverageCenter (v : HyperVolume) : HyperPoint :=
  { coords := (List.range v.dimension).map fun i =>
      (v.hyperCuboids.map fun c => c.volume * c.getCenter.getD i 0).sum / v.volume
    weights := [] }

/-- `HyperHistogram::setContentsFromFunc(const HyperFunction& func)`; the function is
given by its `getVal`. -/
def HyperHistogram.setContentsFromFunc (h : HyperHistogram) (func : HyperPoint → ℚ) :
    HyperHistogram :=
  { h with
    base := (List.range h.base.getNBins).foldl
      (fun b i =>
        let binCenter := (h.binning.getBinHyperVolume i).getAverageCenter
        let funcVal := func binCenter
        (b.setBinContent i funcVal).setBinError i 0)
      h.base }

/-- `HyperBinningHistogram::setContentsFromFunc(const HyperFunction& func)`. -/
def HyperBinningHistogram.setContentsFromFunc (h : HyperBinningHistogram)
    (func : HyperPoint → ℚ) : HyperBinningHistogram :=
  { h with
    base := (List.range h.base.getNBins).foldl
      (fun b i =>
        let binCenter := (h.binning.getBinHyperVolume i).getAverageCenter
        let funcVal := func binCenter
        (b.setBinContent i funcVal).setBinError i 0)
      h.base }

/-- Modelled from the spec: `getWeight(i)`, the `i`-th weight of a point.  A point that
does not carry that weight counts with weight 1 (the spec leaves this case
open). -/
def HyperPoint.getWeight (p : HyperPoint) (i : Nat) : ℚ := p.weights.getD i 1

/-- `HyperHistogram::fill(const HyperPoint& coords)`, the fill with the weight of the
point. -/
def HyperHistogram.fillPoint (rt : RangeTest) (h : HyperHistogram) (coords : HyperPoint) :
    HyperHistogram × Nat :=
  let binNumber := h.binning.getBinNum rt coords
  ({ h with base := h.base.fillBase binNumber (coords.getWeight 0) }, binNumber)

/-- `HyperBinningHistogram::fill(const HyperPoint& coords)`. -/
def HyperBinningHistogram.fillPoint (rt : RangeTest) (h : HyperBinningHistogram)
    (coords : HyperPoint) : HyperBinningHistogram × Nat :=
  let binNumber := h.binning.getBinNum rt coords
  ({ h with base := h.base.fillBase binNumber (coords.getWeight 0) }, binNumber)

/-- A box on the line, as a one-box region of dimension 1. -/
def segment (x0 x1 : ℚ) : HyperVolume :=
  { dimension := 1, hyperCuboids := [{ lowCorner := [x0], highCorner := [x1] }] }

/-! ## Merging bins with the same content -/

/-- Modelled from the spec: `getBinContent(bin)` for an `int` bin number.  A negative
number names no bin and reads the overflow slot, the slot reserved for lookups
that fail. -/
def HistogramBase.getBinContentInt (h : HistogramBase) (bin : Int) : ℚ :=
  if bin < 0 then h.getBinContent h.nBins else h.getBinContent bin.toNat

/-- The loop of `mergeBinsWithSameContent` that sets `linksLeadToBins`: whether every
linked volume has itself no linked volume. -/
def linksLeadToBins (b : HyperBinning) (linkedVols : List Int) : Bool :=
  linkedVols.all fun volNum => (b.getLinkedHyperVolumes volNum).length == 0

/-- The loop of `mergeBinsWithSameContent` that sets `binsHaveSameContent`: whether the
bin of every linked volume has the content of the bin of the first one. -/
def binsHaveSameContent (h : HyperHistogram) (linkedVols : List Int) : Bool :=
  linkedVols.all fun volNum =>
    decide (h.base.getBinContentInt (h.binning.getBinNumOfVolume volNum)
      = h.base.getBinContentInt (h.binning.getBinNumOfVolume (linkedVols.headD 0)))

/-- One round of the first loop of `mergeBinsWithSameContent`, for volume `i`, on the
list of the volume numbers whose `volumeKept` entry has been set to `false`. -/
def markStep (h : HyperHistogram) (removed : List Int) (i : Nat) : List Int :=
  let linkedVols := h.binning.getLinkedHyperVolumes i
  if linkedVols.length = 0 then removed
  else if linksLeadToBins h.binning linkedVols = false then removed
  else if binsHaveSameContent h linkedVols = false then removed
  else removed ++ linkedVols

/-- The volume numbers marked for removal by the first loop of
`mergeBinsWithSameContent` (those with `volumeKept[volNum] == false`). -/
def removedVolumes (h : HyperHistogram) : List Int :=
  (List.range h.binning.getNumHyperVolumes).foldl (markStep h) []

/-- The state of the renumbering loop: the entries of `oldToNewVolumeNum` written so
far, in order of the old number, and the counter `newVolNum`. -/
structure RenumberAcc where
  table : List Int
  newVolNum : Nat

/-- One round of the renumbering loop, for the old volume number `i`. -/
def renumberStep (removed : List Int) (acc : RenumberAcc) (i : Nat) : RenumberAcc :=
  if removed.contains (i : Int) then
    { table := acc.table ++ [-1], newVolNum := acc.newVolNum }
  else
    { table := acc.table ++ [(acc.newVolNum : Int)], newVolNum := acc.newVolNum + 1 }

/-- The map `oldToNewVolumeNum` after the renumbering loop over `n` volumes, as the
list of its entries for the old numbers `0 .. n-1`. -/
def oldToNewTable (n : Nat) (removed : List Int) : List Int :=
  ((List.range n).foldl (renumberStep removed) { table := [], newVolNum := 0 }).table

/-- The read `oldToNewVolumeNum[v]`; the map is a `std::map<int,int>`, so a key that
was never written reads 0. -/
def oldToNewVolumeNum (table : List Int) (v : Int) : Int :=
  if v < 0 then 0 else table.getD v.toNat 0

/-- The state of the rebuild loop: the binning `binningNew`, the counter `count` and
the messages logged (the `ERROR_LOG` line and the conditional `INFO_LOG` line). -/
structure RebuildAcc where
  binningNew : HyperBinning
  count : Nat
  log : List String

/-- One round of the rebuild loop of `mergeBinsWithSameContent`, for the old volume
`i`. -/
def rebuildStep (b : HyperBinning) (table : List Int) (acc : RebuildAcc) (i : Nat) :
    RebuildAcc :=
  let vol := b.getHyperVolume i
  let newVolNum := oldToNewVolumeNum table i
  if newVolNum = -1 then acc
  else
    let log1 :=
      if newVolNum ≠ (acc.count : Int) then
        acc.log ++ ["Something has gone wrong in mergeBinsWithSameContent()"]
      else acc.log
    let linkedVols := b.getLinkedHyperVolumes i
    let newLinkedVols :=
      (linkedVols.map (oldToNewVolumeNum table)).filter fun newLinkVolNum =>
        decide (newLinkVolNum ≠ -1)
    let nLinked := newLinkedVols.length
    let log2 := if nLinked = 1 then log1 ++ ["This should never be one"] else log1
    { binningNew := acc.binningNew.addHyperVolume vol newLinkedVols
      count := acc.count + 1
      log := log2 }

/-- The binning `binningNew` of `mergeBinsWithSameContent` for a memory resident
binning, with the messages logged while it is built: the volumes that are kept,
with their links renumbered, then the primary volume numbers renumbered. -/
def rebuildBinning (b : HyperBinning) (table : List Int) : HyperBinning × List String :=
  let acc := (List.range b.getNumHyperVolumes).foldl (rebuildStep b table)
    { binningNew := HyperBinning.new, count := 0, log := [] }
  (b.primaryVolumeNumbers.foldl
    (fun bn oldVolNum => bn.addPrimaryVolumeNumber (oldToNewVolumeNum table oldVolNum))
    acc.binningNew, acc.log)

/-- One pass of `mergeBinsWithSameContent` on a memory resident hierarchical binning,
up to the recursive call: the histogram `newHist` over the rebuilt binning with
its contents set from the old histogram (`newHist.setContentsFromFunc(*this)`),
and the messages logged (the unconditional `INFO_LOG` lines are left out). -/
def mergePass (rt : RangeTest) (h : HyperHistogram) : HyperHistogram × List String :=
  let table := oldToNewTable h.binning.getNumHyperVolumes (removedVolumes h)
  let rebuilt := rebuildBinning h.binning table
  let newHist := HyperHistogram.ofBinning rebuilt.1
  (newHist.setContentsFromFunc (h.getVal rt), rebuilt.2)

/-- The recursion of `mergeBinsWithSameContent`: one pass, then the same on `newHist`
when `hyperBinning.getNumBins() - binningNew->getNumBins() > 0`; the value is
what `*this = newHist` assigns.  The binning of `newHist` is the rebuilt
`HyperBinningMemRes`, so the kind check of the recursive call passes.  `fuel`
bounds the number of passes; `none` when it runs out. -/
def mergeBinsLoop (rt : RangeTest) : Nat → HyperHistogram → Option (HyperHistogram × List String)
  | 0, _ => none
  | fuel + 1, h =>
    let pass := mergePass rt h
    if pass.1.binning.getNumBins < h.binning.getNumBins then
      match mergeBinsLoop rt fuel pass.1 with
      | some r => some (r.1, pass.2 ++ r.2)
      | none => none
    else some pass

/-- `HyperHistogram::mergeBinsWithSameContent()` for a memory resident binning.
`binningType` is what `_binning->getBinningType()` returns.  The recursion gets
one pass more than the binning has bins, which is enough (see
`mergeBinsLoop_isSome`); the histogram is returned unchanged in the branch
that is never taken. -/
def HyperHistogram.mergeBinsWithSameContent (rt : RangeTest) (binningType : String)
    (h : HyperHistogram) : HyperHistogram × List String :=
  if binningType ≠ "HyperBinning" then
    (h, ["It is only possible to merge bins when using HyperBinning. Doing nothing."])
  else
    match mergeBinsLoop rt (h.binning.getNumBins + 1) h with
    | some r => r
    | none => (h, [])

/-- No internal node has only leaves as linked volumes that all hold the same content:
the first loop of `mergeBinsWithSameContent` has nothing to mark. -/
def HyperHistogram.NothingToMerge (h : HyperHistogram) : Prop :=
  ∀ i ∈ List.range h.binning.getNumHyperVolumes,
    (h.binning.getLinkedHyperVolumes (i : Nat)).length ≠ 0 →
    linksLeadToBins h.binning (h.binning.getLinkedHyperVolumes (i : Nat)) = true →
    binsHaveSameContent h (h.binning.getLinkedHyperVolumes (i : Nat)) = false

instance (h : HyperHistogram) : Decidable h.NothingToMerge := by
  unfold HyperHistogram.NothingToMerge; infer_instance

/-- The lookup of the average centre of the region of every bin answers that bin. -/
def HyperHistogram.CentresOwn (rt : RangeTest) (h : HyperHistogram) : Prop :=
  ∀ i ∈ List.range h.base.getNBins,
    h.binning.getBinNum rt (h.binning.getBinHyperVolume i).getAverageCenter = i

instance (rt : RangeTest) (h : HyperHistogram) : Decidable (h.CentresOwn rt) := by
  unfold HyperHistogram.CentresOwn; infer_instance

/-- A chain on the line `[0,10]`: the primary node 0 is linked to node 1 alone, node 1
to the leaf 2 alone; the one bin holds content 5. -/
def chainHist : HyperHistogram :=
  { base := { nBins := 1, binContents := [5, 0], sumW2 := [0, 0], min := none, max := none }
    funcLimits := { lowCorner := [0], highCorner := [10] }
    binning :=
      { dimension := 1
        nodes :=
          [ { volume := segment 0 10, links := [1] },
            { volume := segment 0 10, links := [2] },
            { volume := segment 0 10, links := [] } ]
        primaryVolumeNumbers := [0]
        names := ["x"] } }

/-- The histogram `newHist` after `k` passes of `mergeBinsWithSameContent`, each on the
`newHist` of the pass before it. -/
def mergePasses (rt : RangeTest) : Nat → HyperHistogram → HyperHistogram
  | 0, h => h
  | k + 1, h => mergePasses rt k (mergePass rt h).1

/-! ## Projection onto a histogram with bins of equal width -/

/-- Modelled from the spec: the external histogram type with bins of one fixed width
(ROOT's `TH1D`, not part of this repository): `nbins` bins of equal width over
`[xlow, xup)`, numbered `1 .. nbins`; slot 0 is the underflow and slot
`nbins + 1` the overflow. -/
structure TH1D where
  nbins : Nat
  xlow : ℚ
  xup : ℚ
  contents : List ℚ
deriving DecidableEq

namespace TH1D

/-- Modelled from the spec: `TH1D(name, title, nbins, xlow, xup)`, all slots empty. -/
def new (nbins : Nat) (xlow xup : ℚ) : TH1D :=
  { nbins := nbins, xlow := xlow, xup := xup, contents := List.replicate (nbins + 2) 0 }

/-- Modelled from the spec: the width of a bin. -/
def binWidth (t : TH1D) : ℚ := (t.xup - t.xlow) / t.nbins

/-- Modelled from the spec: `GetXaxis()->FindFixBin(x)`: 0 below the axis, `nbins + 1`
at or above its upper end, else `1 + int(nbins * (x - xlow) / (xup - xlow))`. -/
def FindFixBin (t : TH1D) (x : ℚ) : Nat :=
  if x < t.xlow then 0
  else if ¬ x < t.xup then t.nbins + 1
  else 1 + ⌊(t.nbins : ℚ) * (x - t.xlow) / (t.xup - t.xlow)⌋.toNat

/-- Modelled from the spec: `GetXaxis()->GetBinLowEdge(bin)`. -/
def GetBinLowEdge (t : TH1D) (bin : Nat) : ℚ := t.xlow + ((bin : ℚ) - 1) * t.binWidth

/-- Modelled from the spec: `GetXaxis()->GetBinUpEdge(bin)`. -/
def GetBinUpEdge (t : TH1D) (bin : Nat) : ℚ := t.xlow + (bin : ℚ) * t.binWidth

/-- Modelled from the spec: `GetXaxis()->GetBinCenter(bin)`. -/
def GetBinCenter (t : TH1D) (bin : Nat) : ℚ := t.xlow + ((bin : ℚ) - 1 / 2) * t.binWidth

/-- Modelled from the spec: `GetBinContent(bin)`. -/
def GetBinContent (t : TH1D) (bin : Nat) : ℚ := t.contents.getD bin 0

/-- Modelled from the spec: `Fill(x, w)` adds `w` to the slot of the bin that holds `x`. -/
def Fill (t : TH1D) (x w : ℚ) : TH1D :=
  { t with contents := t.contents.set (t.FindFixBin x) (t.contents.getD (t.FindFixBin x) 0 + w) }

/-- The axis has a bin, a positive length, and a slot for every bin and for the
underflow and the overflow. -/
def WellFormed (t : TH1D) : Prop :=
  0 < t.nbins ∧ t.xlow < t.xup ∧ t.contents.length = t.nbins + 2

instance (t : TH1D) : Decidable t.WellFormed := by
  unfold WellFormed; infer_instance

/-- The length of the intersection of bin `bin` of the axis with `[low, high]`. -/
def overlapWidth (t : TH1D) (low high : ℚ) (bin : Nat) : ℚ :=
  max 0 (min high (t.GetBinUpEdge bin) - max low (t.GetBinLowEdge bin))

end TH1D

/-- `HyperHistogram::project(TH1D* histogram, const HyperCuboid& cuboid, double content,
int dimension)`.  Returns the external histogram after the call; `none` when an
`at` access throws. -/
def HyperHistogram.project (histogram : TH1D) (cuboid : HyperCuboid) (content : ℚ)
    (dimension : Nat) : Option TH1D :=
  match cuboid.lowCorner.get? dimension, cuboid.highCorner.get? dimension with
  | some hyperLowEdge, some hyperHighEdge =>
    let totWidth := hyperHighEdge - hyperLowEdge
    let lowBin := histogram.FindFixBin hyperLowEdge
    let highBin := histogram.FindFixBin hyperHighEdge
    if lowBin = highBin then some (histogram.Fill hyperLowEdge content)
    else
      let widthInLowBin := histogram.GetBinUpEdge lowBin - hyperLowEdge
      let widthInHighBin := hyperHighEdge - histogram.GetBinLowEdge highBin
      let eventsInLowBin := (widthInLowBin / totWidth) * content
      let eventsInHighBin := (widthInHighBin / totWidth) * content
      let histogram := histogram.Fill hyperLowEdge eventsInLowBin
      let histogram := histogram.Fill hyperHighEdge eventsInHighBin
      some ((List.range' (lowBin + 1) (highBin - 1 - lowBin)).foldl
        (fun hist bin =>
          let lowEdge := hist.GetBinLowEdge bin
          let highEdge := hist.GetBinUpEdge bin
          let events := ((highEdge - lowEdge) / totWidth) * content
          hist.Fill (hist.GetBinCenter bin) events)
        histogram)
  | _, _ => none

/-- `HyperBinningHistogram::project(TH1D* histogram, const HyperCuboid& cuboid, double
content, int dimension)`: the same code. -/
def HyperBinningHistogram.project (histogram : TH1D) (cuboid : HyperCuboid) (content : ℚ)
    (dimension : Nat) : Option TH1D :=
  match cuboid.lowCorner.get? dimension, cuboid.highCorner.get? dimension with
  | some hyperLowEdge, some hyperHighEdge =>
    let totWidth := hyperHighEdge - hyperLowEdge
    let lowBin := histogram.FindFixBin hyperLowEdge
    let highBin := histogram.FindFixBin hyperHighEdge
    if lowBin = highBin then some (histogram.Fill hyperLowEdge content)
    else
      let widthInLowBin := histogram.GetBinUpEdge lowBin - hyperLowEdge
      let widthInHighBin := hyperHighEdge - histogram.GetBinLowEdge highBin
      let eventsInLowBin := (widthInLowBin / totWidth) * content
      let eventsInHighBin := (widthInHighBin / totWidth) * content
      let histogram := histogram.Fill hyperLowEdge eventsInLowBin
      let histogram := histogram.Fill hyperHighEdge eventsInHighBin
      some ((List.range' (lowBin + 1) (highBin - 1 - lowBin)).foldl
        (fun hist bin =>
          let lowEdge := hist.GetBinLowEdge bin
          let highEdge := hist.GetBinUpEdge bin
          let events := ((highEdge - lowEdge) / totWidth) * content
          hist.Fill (hist.GetBinCenter bin) events)
        histogram)
  | _, _ => none

/-- The box `[low, high]` on the line. -/
def interval (low high : ℚ) : HyperCuboid := { lowCorner := [low], highCorner := [high] }

/-! ## Loading from a store -/

/-- Whether the characters `pat` stand at the start of `text`. -/
def startsWithChars : List Char → List Char → Bool
  | [], _ => true
  | _ :: _, [] => false
  | p :: ps, c :: cs => p == c && startsWithChars ps cs

/-- Whether the characters `pat` occur somewhere in `text`. -/
def containsChars (pat : List Char) : List Char → Bool
  | [] => pat.isEmpty
  | c :: cs => startsWithChars pat (c :: cs) || containsChars pat cs

/-- The test `s.Contains(pat)` of the string class `TString`: whether `pat` occurs in
`s`. -/
def TString.Contains (s pat : String) : Bool := containsChars pat.data s.data

/-- A persisted store (a file): its name and the names of the tables it holds. -/
structure Store where
  filename : String
  tables : List String
deriving DecidableEq

/-- The two concrete classes that `load` instantiates for `_binning`. -/
inductive BinningKind where
  | diskRes
  | memRes
deriving DecidableEq

/-- What `load` does, in order: messages written to the error log, the binning it
deletes and creates, and the calls `_binning->load(filename, mode)` (with the
object `_binning` points to, `none` for a null pointer) and
`loadBase(filename)`. -/
inductive LoadStep where
  | errorLog (msg : String)
  | deleteBinning
  | newBinning (kind : BinningKind)
  | binningLoad (target : Option BinningKind) (filename : String) (mode : String)
  | loadBase (filename : String)
deriving DecidableEq

/-- `HyperHistogram::getBinningType(TString filename)`: `"HyperBinning"` when the file
holds a table of that name, else the empty string (`new TFile` does not return a
null pointer, so the first branch of the source is never taken). -/
def HyperHistogram.getBinningType (file : Store) : String :=
  if "HyperBinning" ∈ file.tables then "HyperBinning" else ""

/-- `HyperHistogram::load(TString filename, TString option)`, on the pointer `_binning`
(`none` for a null pointer).  Returns `_binning` after the call and the steps
taken. -/
def HyperHistogram.load (binning : Option BinningKind) (file : Store) (option : String) :
    Option BinningKind × List LoadStep :=
  let binningType := HyperHistogram.getBinningType file
  let st : Option BinningKind × List LoadStep :=
    if TString.Contains binningType "HyperBinning" then
      let deleted := if binning ≠ none then [LoadStep.deleteBinning] else []
      if TString.Contains option "DISK" then
        (some BinningKind.diskRes, deleted ++ [LoadStep.newBinning BinningKind.diskRes])
      else
        (some BinningKind.memRes, deleted ++ [LoadStep.newBinning BinningKind.memRes])
    else (binning, [])
  let log :=
    if binningType = "" then
      [LoadStep.errorLog
        "HyperHistogram::load - I could not find any binning scheme in this file"]
    else []
  (st.1, st.2 ++ log ++
    [LoadStep.binningLoad st.1 file.filename "READ", LoadStep.loadBase file.filename])

/-- `HyperHistogram(TString filename, TString option)` for an option without `Empty`:
the object starts with no bin and a null `_binning`, and calls
`load(filename, option)`. -/
def HyperHistogram.ofFile (file : Store) (option : String) :
    Option BinningKind × List LoadStep :=
  HyperHistogram.load none file option

/-- A store that holds the table of the contents and no binning table. -/
def storeWithoutBinning : Store :=
  { filename := "hist.root", tables := ["HistogramBase"] }

/-- A store that holds the contents and a hierarchical binning. -/
def storeWithBinning : Store :=
  { filename := "hist.root", tables := ["HistogramBase", "HyperBinning"] }

/-- The entry `volumeKept[i]` after the first loop of `mergeBinsWithSameContent`. -/
def volumeKept (removed : List Int) (i : Nat) : Bool := !removed.contains (i : Int)

/-- The list `newLinkedVols` that the rebuild loop builds for the old volume `i`: the
new numbers of its linked volumes, without those that are -1. -/
def newLinkedVols (b : HyperBinning) (table : List Int) (i : Nat) : List Int :=
  ((b.getLinkedHyperVolumes i).map (oldToNewVolumeNum table)).filter fun newLinkVolNum =>
    decide (newLinkVolNum ≠ -1)

/-- A histogram on the line `[0,10]` with two levels: the primary node 0 is linked to
the nodes 1 (`[0,5]`) and 2 (`[5,10]`); node 1 is linked to the leaves 3
(`[0,5/2]`) and 4 (`[5/2,5]`).  The bins are the nodes 2, 3, 4 in this order,
with contents 3, 7, 7. -/
def twoLevelHist : HyperHistogram :=
  { base := { nBins := 3, binContents := [3, 7, 7, 0], sumW2 := [1, 1, 1, 0],
              min := none, max := none }
    funcLimits := { lowCorner := [0], highCorner := [10] }
    binning :=
      { dimension := 1
        nodes :=
          [ { volume := segment 0 10, links := [1, 2] },
            { volume := segment 0 5, links := [3, 4] },
            { volume := segment 5 10, links := [] },
            { volume := segment 0 (5 / 2), links := [] },
            { volume := segment (5 / 2) 5, links := [] } ]
        primaryVolumeNumbers := [0]
        names := ["x"] } }

/-! ## Projecting a region, filling a point set -/

/-- Modelled from the spec: `getHyperCuboid(i)`, box number `i` of the region; `none`
for a number that names no box. -/
def HyperVolume.getHyperCuboid (v : HyperVolume) (i : Nat) : Option HyperCuboid :=
  v.hyperCuboids.get? i

/-- `HyperHistogram::project(TH1D* histogram, const HyperVolume& hyperVolume, double
content, int dimension)`: every box of the region is projected with the content
`(content * cuboidVolume) / volume`.  `none` when an access is out of range. -/
def HyperHistogram.projectVolume (histogram : TH1D) (hyperVolume : HyperVolume)
    (content : ℚ) (dimension : Nat) : Option TH1D :=
  let volume := hyperVolume.volume
  (List.range hyperVolume.size).foldlM
    (fun hist i =>
      match hyperVolume.getHyperCuboid i with
      | some cuboid =>
        let cuboidVolume := cuboid.volume
        let cuboidContent := (content * cuboidVolume) / volume
        HyperHistogram.project hist cuboid cuboidContent dimension
      | none => none)
    histogram

/-- `HyperBinningHistogram::project(TH1D* histogram, const HyperVolume& hyperVolume,
double content, int dimension)`: the same code. -/
def HyperBinningHistogram.projectVolume (histogram : TH1D) (hyperVolume : HyperVolume)
    (content : ℚ) (dimension : Nat) : Option TH1D :=
  let volume := hyperVolume.volume
  (List.range hyperVolume.size).foldlM
    (fun hist i =>
      match hyperVolume.getHyperCuboid i with
      | some cuboid =>
        let cuboidVolume := cuboid.volume
        let cuboidContent := (content * cuboidVolume) / volume
        HyperBinningHistogram.project hist cuboid cuboidContent dimension
      | none => none)
    histogram

/-- `HyperHistogram::fill(const HyperPointSet& points)`: the loop over
`i < points.size()` of `fill(points.at(i), points.at(i).getWeight())`. -/
def HyperHistogram.fillSet (rt : RangeTest) (h : HyperHistogram) (points : List HyperPoint) :
    HyperHistogram :=
  (List.range points.length).foldl
    (fun hist i =>
      match points.get? i with
      | some p => (hist.fill rt p (p.getWeight 0)).1
      | none => hist)
    h

/-- `HyperBinningHistogram::fill(const HyperPointSet& points)`: the same loop. -/
def HyperBinningHistogram.fillSet (rt : RangeTest) (h : HyperBinningHistogram)
    (points : List HyperPoint) : HyperBinningHistogram :=
  (List.range points.length).foldl
    (fun hist i =>
      match points.get? i with
      | some p => (hist.fill rt p (p.getWeight 0)).1
      | none => hist)
    h

/-- The calls `fill(p_i, weight(p_i))` issued one after the other in the order of the
list, as the spec words it. -/
def HyperHistogram.fillInOrder (rt : RangeTest) :
    HyperHistogram → List HyperPoint → HyperHistogram
  | h, [] => h
  | h, p :: ps => HyperHistogram.fillInOrder rt (h.fill rt p (p.getWeight 0)).1 ps

/-- The calls `fill(p_i, weight(p_i))` issued one after the other, for
`HyperBinningHistogram`. -/
def HyperBinningHistogram.fillInOrder (rt : RangeTest) :
    HyperBinningHistogram → List HyperPoint → HyperBinningHistogram
  | h, [] => h
  | h, p :: ps => HyperBinningHistogram.fillInOrder rt (h.fill rt p (p.getWeight 0)).1 ps

/-- Total content over all bins and the overflow slot. -/
def HistogramBase.totalWithOverflow (h : HistogramBase) : ℚ :=
  ((List.range (h.nBins + 1)).map h.getBinContent).sum

/-- A region of the line with the two boxes `[0,1]` and `[2,4]`. -/
def twoBoxes : HyperVolume :=
  { dimension := 1, hyperCuboids := [interval 0 1, interval 2 4] }

/-! ## Shape of a bin graph -/

/-- Each node of the graph is linked from at most one node. -/
def HyperBinning.SingleParent (b : HyperBinning) : Prop :=
  ∀ u1 ∈ List.range b.getNumHyperVolumes, ∀ u2 ∈ List.range b.getNumHyperVolumes,
    ∀ c ∈ b.getLinkedHyperVolumes (u1 : Nat), c ∈ b.getLinkedHyperVolumes (u2 : Nat) → u1 = u2

instance (b : HyperBinning) : Decidable b.SingleParent := by
  unfold HyperBinning.SingleParent; infer_instance

/-- Every internal node of the graph has at least two linked volumes. -/
def HyperBinning.InternalHaveTwo (b : HyperBinning) : Prop :=
  ∀ u ∈ List.range b.getNumHyperVolumes,
    b.getLinkedHyperVolumes (u : Nat) ≠ [] → 2 ≤ (b.getLinkedHyperVolumes (u : Nat)).length

instance (b : HyperBinning) : Decidable b.InternalHaveTwo := by
  unfold HyperBinning.InternalHaveTwo; infer_instance

/-- No primary node is linked from a node of the graph. -/
def HyperBinning.PrimariesAreRoots (b : HyperBinning) : Prop :=
  ∀ p ∈ b.primaryVolumeNumbers, ∀ u ∈ List.range b.getNumHyperVolumes,
    p ∉ b.getLinkedHyperVolumes (u : Nat)

instance (b : HyperBinning) : Decidable b.PrimariesAreRoots := by
  unfold HyperBinning.PrimariesAreRoots; infer_instance

/-- A histogram on `[0,10]` whose primary list holds node 0 and also node 1, a leaf
linked from node 0; the leaves 1 and 2 both hold content 4. -/
def linkedPrimaryHist : HyperHistogram :=
  { base := { nBins := 2, binContents := [4, 4, 0], sumW2 := [0, 0, 0],
              min := none, max := none }
    funcLimits := { lowCorner := [0], highCorner := [10] }
    binning :=
      { dimension := 1
        nodes :=
          [ { volume := segment 0 10, links := [1, 2] },
            { volume := segment 0 5, links := [] },
            { volume := segment 5 10, links := [] } ]
        primaryVolumeNumbers := [0, 1]
        names := ["x"] } }


/-! ## Bin graphs that partition their domain -/

/-- Every link of the graph leads to a node with a higher number than the node it
starts from (linked volumes are appended after the node they divide). -/
def HyperBinning.LinksIncrease (b : HyperBinning) : Prop :=
  ∀ u ∈ List.range b.getNumHyperVolumes, ∀ c ∈ b.getLinkedHyperVolumes (u : Nat),
    ((u : Nat) : Int) < c

instance (b : HyperBinning) : Decidable b.LinksIncrease := by
  unfold HyperBinning.LinksIncrease; infer_instance

/-- The links of the graph are tree-shaped: each node is linked from at most one node,
no primary node is linked from a node, and links lead to higher node numbers. -/
def HyperBinning.TreeShaped (b : HyperBinning) : Prop :=
  b.SingleParent ∧ b.PrimariesAreRoots ∧ b.LinksIncrease

instance (b : HyperBinning) : Decidable b.TreeShaped := by
  unfold HyperBinning.TreeShaped; infer_instance

/-- At the point `p`, the region of every internal node is the union of the regions
of its linked volumes: an internal node that contains `p` has a linked volume
that contains `p`, and a linked volume that contains `p` lies in a node that
contains `p`. -/
def HyperBinning.UnionAt (rt : RangeTest) (b : HyperBinning) (p : List ℚ) : Prop :=
  (∀ u ∈ List.range b.getNumHyperVolumes, b.getLinkedHyperVolumes (u : Nat) ≠ [] →
    (b.getHyperVolume (u : Nat)).inVolume rt p = true →
    ∃ c ∈ b.getLinkedHyperVolumes (u : Nat), (b.getHyperVolume c).inVolume rt p = true) ∧
  (∀ u ∈ List.range b.getNumHyperVolumes, ∀ c ∈ b.getLinkedHyperVolumes (u : Nat),
    (b.getHyperVolume c).inVolume rt p = true →
    (b.getHyperVolume (u : Nat)).inVolume rt p = true)

/-- At the point `p`, the regions of the linked volumes of a node do not overlap, and
the regions of the primary nodes do not overlap. -/
def HyperBinning.DisjointAt (rt : RangeTest) (b : HyperBinning) (p : List ℚ) : Prop :=
  (∀ u ∈ List.range b.getNumHyperVolumes, ∀ c1 ∈ b.getLinkedHyperVolumes (u : Nat),
    ∀ c2 ∈ b.getLinkedHyperVolumes (u : Nat),
    (b.getHyperVolume c1).inVolume rt p = true → (b.getHyperVolume c2).inVolume rt p = true →
    c1 = c2) ∧
  (∀ c1 ∈ b.primaryVolumeNumbers, ∀ c2 ∈ b.primaryVolumeNumbers,
    (b.getHyperVolume c1).inVolume rt p = true → (b.getHyperVolume c2).inVolume rt p = true →
    c1 = c2)

/-- The average centre of the region of every node lies in that region. -/
def HyperBinning.CentresInside (rt : RangeTest) (b : HyperBinning) : Prop :=
  ∀ u ∈ List.range b.getNumHyperVolumes,
    (b.getHyperVolume (u : Nat)).inVolume rt
      (b.getHyperVolume (u : Nat)).getAverageCenter.coords = true

instance (rt : RangeTest) (b : HyperBinning) : Decidable (b.CentresInside rt) := by
  unfold HyperBinning.CentresInside; infer_instance

/-- The conditions under which `mergeBinsWithSameContent` keeps the value of the
histogram: node numbers name nodes, the links are tree-shaped, the regions of
the linked volumes of a node partition the region of the node, the primary
regions do not overlap, and every node's average centre lies in its region. -/
def HyperHistogram.Partitioned (rt : RangeTest) (h : HyperHistogram) : Prop :=
  h.binning.IndicesInRange ∧ h.binning.TreeShaped ∧
  (∀ p, h.binning.UnionAt rt p) ∧ (∀ p, h.binning.DisjointAt rt p) ∧
  h.binning.CentresInside rt

/-- The content a descent answers: the content of the bin of the leaf it stopped at,
the content of the overflow slot otherwise (this is `getVal` after the
descent). -/
def HyperHistogram.valueAt (h : HyperHistogram) : HyperBinning.Descent → ℚ
  | HyperBinning.Descent.leaf v =>
    match h.binning.getNode v with
    | some _ => h.base.getBinContent ((h.binning.nodes.take v.toNat).countP BinNode.isLeaf)
    | none => h.base.getBinContent h.binning.getNumBins
  | _ => h.base.getBinContent h.binning.getNumBins

/-- A histogram on `[0,10]` whose node 0 is linked to the leaf 1 (`[4,6]`, content 9)
and to node 2 (`[0,10]`), which is linked to the leaves 3 (`[0,5]`) and 4
(`[5,10]`), both with content 7: the regions of the nodes 1 and 2 overlap. -/
def overlapHist : HyperHistogram :=
  { base := { nBins := 3, binContents := [9, 7, 7, 0], sumW2 := [0, 0, 0, 0],
              min := none, max := none }
    funcLimits := { lowCorner := [0], highCorner := [10] }
    binning :=
      { dimension := 1
        nodes :=
          [ { volume := segment 0 10, links := [1, 2] },
            { volume := segment 4 6, links := [] },
            { volume := segment 0 10, links := [3, 4] },
            { volume := segment 0 5, links := [] },
            { volume := segment 5 10, links := [] } ]
        primaryVolumeNumbers := [0]
        names := ["x"] } }

end HyperPlot

namespace HyperPlot

/-! ## Auxiliary facts -/

theorem getD_set (l : List ℚ) (i j : Nat) (v : ℚ) :
    (l.set i v).getD j 0 = if j = i ∧ i < l.length then v else l.getD j 0 := by
  simp only [List.getD_eq_getElem?_getD, List.getElem?_set]
  by_cases hij : i = j
  · subst hij
    by_cases hlt : i < l.length
    · simp [hlt]
    · simp [hlt, List.getElem?_eq_none (Nat.le_of_not_lt hlt)]
  · have hji : ¬ j = i := fun h => hij h.symm
    simp [hij, hji]

theorem HyperBinning.getBinNum_le (rt : RangeTest) (b : HyperBinning) (p : HyperPoint) :
    b.getBinNum rt p ≤ b.getNumBins := by
  unfold HyperBinning.getBinNum
  split
  · split
    · exact (List.take_sublist _ _).countP_le _
    · exact Nat.le_refl _
  · exact Nat.le_refl _

theorem HistogramBase.fillBase_content (h : HistogramBase) (bin : Nat) (w : ℚ) (j : Nat) :
    (h.fillBase bin w).getBinContent j =
      if j = bin ∧ bin < h.binContents.length then h.getBinContent bin + w
      else h.getBinContent j := by
  simp only [HistogramBase.fillBase, HistogramBase.getBinContent, getD_set]

theorem HistogramBase.fillBase_sumW2 (h : HistogramBase) (bin : Nat) (w : ℚ) (j : Nat) :
    (h.fillBase bin w).getSumW2 j =
      if j = bin ∧ bin < h.sumW2.length then h.getSumW2 bin + w * w
      else h.getSumW2 j := by
  simp only [HistogramBase.fillBase, HistogramBase.getSumW2, getD_set]

theorem HistogramBase.fillBase_wellSized (h : HistogramBase) (bin : Nat) (w : ℚ)
    (hs : h.WellSized) : (h.fillBase bin w).WellSized := by
  unfold HistogramBase.WellSized at *
  simpa [HistogramBase.fillBase] using hs

/-! ## Filling and reading a histogram -/

/-- C1: for a histogram whose store is sized to its binning, `fill(p, w)` returns
`idx = binning.getBinNum(p)`, which is a slot of the store; it adds `w` to
`content[idx]` and `w*w` to `sumSquaredWeight[idx]`, leaves every other slot, the
binning and the function limits as they were; this holds for `HyperHistogram`
and for `HyperBinningHistogram`.  On the quadrant domain the three fills of the
scenario give the bin contents `2, 1, 0, 3`. -/
theorem fill_adds_weight_to_bin (rt : RangeTest) (h : HyperHistogram)
    (g : HyperBinningHistogram) (p : HyperPoint) (w : ℚ)
    (hh : h.WellFormed) (hg : g.WellFormed) :
    ((h.fill rt p w).2 = h.binning.getBinNum rt p ∧
      (h.fill rt p w).2 ≤ h.base.nBins ∧
      (h.fill rt p w).1.base.getBinContent (h.fill rt p w).2
        = h.base.getBinContent (h.fill rt p w).2 + w ∧
      (h.fill rt p w).1.base.getSumW2 (h.fill rt p w).2
        = h.base.getSumW2 (h.fill rt p w).2 + w * w ∧
      (∀ j, j ≠ (h.fill rt p w).2 →
        (h.fill rt p w).1.base.getBinContent j = h.base.getBinContent j ∧
        (h.fill rt p w).1.base.getSumW2 j = h.base.getSumW2 j) ∧
      (h.fill rt p w).1.binning = h.binning ∧
      (h.fill rt p w).1.funcLimits = h.funcLimits ∧
      (h.fill rt p w).1.base.nBins = h.base.nBins) ∧
    ((g.fill rt p w).2 = g.binning.getBinNum rt p ∧
      (g.fill rt p w).2 ≤ g.base.nBins ∧
      (g.fill rt p w).1.base.getBinContent (g.fill rt p w).2
        = g.base.getBinContent (g.fill rt p w).2 + w ∧
      (g.fill rt p w).1.base.getSumW2 (g.fill rt p w).2
        = g.base.getSumW2 (g.fill rt p w).2 + w * w ∧
      (∀ j, j ≠ (g.fill rt p w).2 →
        (g.fill rt p w).1.base.getBinContent j = g.base.getBinContent j ∧
        (g.fill rt p w).1.base.getSumW2 j = g.base.getSumW2 j) ∧
      (g.fill rt p w).1.binning = g.binning ∧
      (g.fill rt p w).1.funcLimits = g.funcLimits ∧
      (g.fill rt p w).1.base.nBins = g.base.nBins) ∧
    quadFilled.base.binContentsList = [2, 1, 0, 3] ∧
    quadFilledOld.base.binContentsList = [2, 1, 0, 3] := by
  have hle : h.binning.getBinNum rt p ≤ h.base.nBins := by
    rw [hh.2]; exact HyperBinning.getBinNum_le rt _ p
  have hle2 : g.binning.getBinNum rt p ≤ g.base.nBins := by
    rw [hg.2]; exact HyperBinning.getBinNum_le rt _ p
  have h1 : h.binning.getBinNum rt p < h.base.binContents.length := by
    rw [hh.1.1]; exact Nat.lt_succ_of_le hle
  have h2 : h.binning.getBinNum rt p < h.base.sumW2.length := by
    rw [hh.1.2]; exact Nat.lt_succ_of_le hle
  have g1 : g.binning.getBinNum rt p < g.base.binContents.length := by
    rw [hg.1.1]; exact Nat.lt_succ_of_le hle2
  have g2 : g.binning.getBinNum rt p < g.base.sumW2.length := by
    rw [hg.1.2]; exact Nat.lt_succ_of_le hle2
  refine ⟨⟨rfl, hle, ?_, ?_, ?_, rfl, rfl, rfl⟩, ⟨rfl, hle2, ?_, ?_, ?_, rfl, rfl, rfl⟩,
    by decide!, by decide!⟩
  · simp only [HyperHistogram.fill, HistogramBase.fillBase_content]
    simp [h1]
  · simp only [HyperHistogram.fill, HistogramBase.fillBase_sumW2]
    simp [h2]
  · intro j hj
    simp only [HyperHistogram.fill] at hj ⊢
    simp only [HistogramBase.fillBase_content, HistogramBase.fillBase_sumW2]
    simp [hj]
  · simp only [HyperBinningHistogram.fill, HistogramBase.fillBase_content]
    simp [g1]
  · simp only [HyperBinningHistogram.fill, HistogramBase.fillBase_sumW2]
    simp [g2]
  · intro j hj
    simp only [HyperBinningHistogram.fill] at hj ⊢
    simp only [HistogramBase.fillBase_content, HistogramBase.fillBase_sumW2]
    simp [hj]

/-- Witness for C1: the empty quadrant histogram, filled at `(1,1)` with weight 2,
goes to bin 0, which afterwards holds 2. -/
theorem fill_adds_weight_to_bin_witness :
    (HyperHistogram.ofBinning quadBinning).WellFormed ∧
    (HyperBinningHistogram.ofBinning quadBinning).WellFormed ∧
    ((HyperHistogram.ofBinning quadBinning).fill halfOpen (pt 1 1) 2).2 = 0 ∧
    ((HyperHistogram.ofBinning quadBinning).fill halfOpen (pt 1 1) 2).1.base.getBinContent 0
      = 2 :=
  ⟨by decide, by decide,
   by
    have h := (fill_adds_weight_to_bin halfOpen (HyperHistogram.ofBinning quadBinning)
      (HyperBinningHistogram.ofBinning quadBinning) (pt 1 1) 2 (by decide) (by decide)).1.1
    rw [h]; decide,
   by decide!⟩

/-- C2: for a histogram whose store is sized to its binning, `getVal(p)` is the value
held in slot `binning.getBinNum(p)` of the content array, and that slot exists.
`getVal` is a `const` member: it yields a value and no new histogram.  This
holds for `HyperHistogram` and for `HyperBinningHistogram`. -/
theorem getVal_reads_content (rt : RangeTest) (h : HyperHistogram)
    (g : HyperBinningHistogram) (p : HyperPoint)
    (hh : h.WellFormed) (hg : g.WellFormed) :
    h.base.binContents.get? (h.binning.getBinNum rt p) = some (h.getVal rt p) ∧
    g.base.binContents.get? (g.binning.getBinNum rt p) = some (g.getVal rt p) := by
  have h1 : h.binning.getBinNum rt p < h.base.binContents.length := by
    rw [hh.1.1, hh.2]; exact Nat.lt_succ_of_le (HyperBinning.getBinNum_le rt _ p)
  have g1 : g.binning.getBinNum rt p < g.base.binContents.length := by
    rw [hg.1.1, hg.2]; exact Nat.lt_succ_of_le (HyperBinning.getBinNum_le rt _ p)
  constructor
  · simp [HyperHistogram.getVal, HistogramBase.getBinContent, List.getD_eq_getElem?_getD,
      List.getElem?_eq_getElem h1]
  · simp [HyperBinningHistogram.getVal, HistogramBase.getBinContent,
      List.getD_eq_getElem?_getD, List.getElem?_eq_getElem g1]

/-- Witness for C2: on the filled quadrant histograms, `getVal((9,9))` reads slot 3,
which holds 3. -/
theorem getVal_reads_content_witness :
    quadFilled.WellFormed ∧ quadFilledOld.WellFormed ∧
    quadFilled.base.binContents.get? 3 = some (quadFilled.getVal halfOpen (pt 9 9)) ∧
    quadFilled.getVal halfOpen (pt 9 9) = 3 :=
  ⟨by decide!, by decide!,
   by
    have h := (getVal_reads_content halfOpen quadFilled quadFilledOld (pt 9 9)
      (by decide!) (by decide!)).1
    have e : quadFilled.binning.getBinNum halfOpen (pt 9 9) = 3 := by decide!
    rw [e] at h; exact h,
   by decide!⟩

/-- C3: when the lookup of `p` finds no containing leaf (no primary contains `p`, or a
node on the path has no child containing `p`), `fill(p, w)` on a histogram whose
store is sized to its binning returns the overflow index `nBins`, which is a
slot of both arrays (the fill does not fail); it adds `w` to `content[nBins]`
and leaves content and sum of squared weights of every bin below `nBins`
unchanged. -/
theorem fill_outside_goes_to_overflow (rt : RangeTest) (h : HyperHistogram)
    (p : HyperPoint) (w : ℚ) (hh : h.WellFormed)
    (hmiss : h.binning.descend rt p.coords = HyperBinning.Descent.miss) :
    (h.fill rt p w).2 = h.base.nBins ∧
    h.base.nBins < (h.fill rt p w).1.base.binContents.length ∧
    h.base.nBins < (h.fill rt p w).1.base.sumW2.length ∧
    (h.fill rt p w).1.base.getBinContent h.base.nBins
      = h.base.getBinContent h.base.nBins + w ∧
    (∀ i, i < h.base.nBins →
      (h.fill rt p w).1.base.getBinContent i = h.base.getBinContent i ∧
      (h.fill rt p w).1.base.getSumW2 i = h.base.getSumW2 i) ∧
    (h.fill rt p w).1.base.nBins = h.base.nBins := by
  have hidx : h.binning.getBinNum rt p = h.base.nBins := by
    rw [hh.2]; simp [HyperBinning.getBinNum, hmiss]
  have h1 : h.base.nBins < h.base.binContents.length := by rw [hh.1.1]; exact Nat.lt_succ_self _
  have h2 : h.base.nBins < h.base.sumW2.length := by rw [hh.1.2]; exact Nat.lt_succ_self _
  refine ⟨hidx, ?_, ?_, ?_, ?_, rfl⟩
  · simpa [HyperHistogram.fill, HistogramBase.fillBase] using h1
  · simpa [HyperHistogram.fill, HistogramBase.fillBase] using h2
  · simp only [HyperHistogram.fill, hidx, HistogramBase.fillBase_content]
    simp [h1]
  · intro i hi
    have hne : ¬ i = h.base.nBins := Nat.ne_of_lt hi
    simp only [HyperHistogram.fill, hidx, HistogramBase.fillBase_content,
      HistogramBase.fillBase_sumW2]
    simp [hne]

/-- Witness for C3: the point `(20,20)` lies outside the quadrant domain; filling it
with weight 7 returns the overflow index 4 and leaves the four bins as they
were. -/
theorem fill_outside_goes_to_overflow_witness :
    quadFilled.WellFormed ∧
    quadFilled.binning.descend halfOpen (pt 20 20).coords = HyperBinning.Descent.miss ∧
    (quadFilled.fill halfOpen (pt 20 20) 7).2 = 4 ∧
    (quadFilled.fill halfOpen (pt 20 20) 7).1.base.binContents = [2, 1, 0, 3, 7] :=
  ⟨by decide!, by decide!,
   (fill_outside_goes_to_overflow halfOpen quadFilled (pt 20 20) 7 (by decide!) (by decide!)).1,
   by decide!⟩

/-! ## Merging two histograms -/

/-- C4: when `other` is not a `HyperHistogram`, `HyperHistogram::merge(other)` writes an
error message and returns with the histogram (binning, content store, function
limits) exactly as it was; `HyperBinningHistogram::merge` does the same when
`other` is not a `HyperBinningHistogram`.  `other` is passed by `const`
reference and is not changed by either call. -/
theorem merge_of_other_kind_is_rejected (h : HyperHistogram) (g : HyperBinningHistogram)
    (other other2 : HistogramRef)
    (hk : other.isHyperHistogram = false) (hk2 : other2.isHyperBinningHistogram = false) :
    ((h.merge other).1 = h ∧ (h.merge other).2 ≠ []) ∧
    ((g.merge other2).1 = g ∧ (g.merge other2).2 ≠ []) := by
  constructor
  · cases other with
    | hyperHistogram o => simp [HistogramRef.isHyperHistogram] at hk
    | hyperBinningHistogram o => simp [HyperHistogram.merge]
    | otherKind o => simp [HyperHistogram.merge]
  · cases other2 with
    | hyperHistogram o => simp [HyperBinningHistogram.merge]
    | hyperBinningHistogram o => simp [HistogramRef.isHyperBinningHistogram] at hk2
    | otherKind o => simp [HyperBinningHistogram.merge]

/-- Witness for C4: merging a `HyperBinningHistogram` into the filled quadrant
`HyperHistogram`, and the reverse, is rejected with one message each. -/
theorem merge_of_other_kind_is_rejected_witness :
    (quadFilled.merge (HistogramRef.hyperBinningHistogram quadFilledOld)).1 = quadFilled ∧
    (quadFilled.merge (HistogramRef.hyperBinningHistogram quadFilledOld)).2.length = 1 ∧
    (quadFilledOld.merge (HistogramRef.hyperHistogram quadFilled)).1 = quadFilledOld :=
  ⟨(merge_of_other_kind_is_rejected quadFilled quadFilledOld
      (HistogramRef.hyperBinningHistogram quadFilledOld)
      (HistogramRef.hyperHistogram quadFilled) rfl rfl).1.1,
   rfl,
   (merge_of_other_kind_is_rejected quadFilled quadFilledOld
      (HistogramRef.hyperBinningHistogram quadFilledOld)
      (HistogramRef.hyperHistogram quadFilled) rfl rfl).2.1⟩

/-! ### The merged content store -/

theorem length_binSlots (n : Nat) (a : List ℚ) : (binSlots n a).length = n := by
  simp [binSlots]

theorem getD_binSlots (n : Nat) (a : List ℚ) (i : Nat) (hi : i < n) :
    (binSlots n a).getD i 0 = a.getD i 0 := by
  simp [binSlots, List.getD_eq_getElem?_getD, List.getElem?_map, List.getElem?_range hi]

theorem zipWith_add_replicate_right (xs : List ℚ) :
    List.zipWith (· + ·) xs (List.replicate xs.length 0) = xs := by
  induction xs with
  | nil => rfl
  | cons x xs ih => simp [List.replicate_succ, ih]

theorem zipWith_add_replicate_left (ys : List ℚ) :
    List.zipWith (· + ·) (List.replicate ys.length 0) ys = ys := by
  induction ys with
  | nil => rfl
  | cons y ys ih => simp [List.replicate_succ, ih]

theorem zipWith_resize_renumber (nA nB : Nat) (a b : List ℚ) :
    List.zipWith (· + ·) (resizeStore nA a (nA + nB)) (renumberStore nB b nA)
      = binSlots nA a ++ binSlots nB b ++ [a.getD nA 0 + b.getD nB 0] := by
  unfold resizeStore renumberStore
  rw [Nat.add_sub_cancel_left]
  rw [List.zipWith_append _ _ _ _ _ (by simp [length_binSlots])]
  rw [List.zipWith_append _ _ _ _ _ (by simp [length_binSlots])]
  have h1 := zipWith_add_replicate_right (binSlots nA a)
  have h2 := zipWith_add_replicate_left (binSlots nB b)
  rw [length_binSlots] at h1 h2
  rw [h1, h2]
  simp

theorem HistogramBase.merge_binContents (h other : HistogramBase) :
    (h.merge other).binContents = binSlots h.nBins h.binContents
      ++ binSlots other.nBins other.binContents
      ++ [h.binContents.getD h.nBins 0 + other.binContents.getD other.nBins 0] := by
  simp only [HistogramBase.merge, zipWith_resize_renumber]

theorem HistogramBase.merge_sumW2 (h other : HistogramBase) :
    (h.merge other).sumW2 = binSlots h.nBins h.sumW2
      ++ binSlots other.nBins other.sumW2
      ++ [h.sumW2.getD h.nBins 0 + other.sumW2.getD other.nBins 0] := by
  simp only [HistogramBase.merge, zipWith_resize_renumber]

theorem HistogramBase.merge_wellSized (h other : HistogramBase) :
    (h.merge other).WellSized := by
  unfold HistogramBase.WellSized
  rw [HistogramBase.merge_binContents, HistogramBase.merge_sumW2]
  simp [length_binSlots, HistogramBase.merge, Nat.add_assoc]

theorem getD_append_three_left (xs ys zs : List ℚ) (i : Nat) (hi : i < xs.length) :
    (xs ++ ys ++ zs).getD i 0 = xs.getD i 0 := by
  simp only [List.getD_eq_getElem?_getD, List.append_assoc]
  rw [List.getElem?_append_left hi]

theorem getD_append_three_mid (xs ys zs : List ℚ) (j : Nat) (hj : j < ys.length) :
    (xs ++ ys ++ zs).getD (xs.length + j) 0 = ys.getD j 0 := by
  simp only [List.getD_eq_getElem?_getD, List.append_assoc]
  rw [List.getElem?_append_right (Nat.le_add_right _ _), Nat.add_sub_cancel_left,
    List.getElem?_append_left hj]

theorem HistogramBase.merge_content_left (h other : HistogramBase) (i : Nat)
    (hi : i < h.nBins) :
    (h.merge other).getBinContent i = h.getBinContent i ∧
    (h.merge other).getSumW2 i = h.getSumW2 i := by
  unfold HistogramBase.getBinContent HistogramBase.getSumW2
  rw [HistogramBase.merge_binContents, HistogramBase.merge_sumW2]
  rw [getD_append_three_left _ _ _ _ (by simpa [length_binSlots] using hi),
    getD_append_three_left _ _ _ _ (by simpa [length_binSlots] using hi)]
  exact ⟨getD_binSlots _ _ _ hi, getD_binSlots _ _ _ hi⟩

theorem HistogramBase.merge_content_right (h other : HistogramBase) (j : Nat)
    (hj : j < other.nBins) :
    (h.merge other).getBinContent (h.nBins + j) = other.getBinContent j ∧
    (h.merge other).getSumW2 (h.nBins + j) = other.getSumW2 j := by
  unfold HistogramBase.getBinContent HistogramBase.getSumW2
  rw [HistogramBase.merge_binContents, HistogramBase.merge_sumW2]
  have e1 := getD_append_three_mid (binSlots h.nBins h.binContents)
    (binSlots other.nBins other.binContents)
    [h.binContents.getD h.nBins 0 + other.binContents.getD other.nBins 0] j
    (by simpa [length_binSlots] using hj)
  have e2 := getD_append_three_mid (binSlots h.nBins h.sumW2)
    (binSlots other.nBins other.sumW2)
    [h.sumW2.getD h.nBins 0 + other.sumW2.getD other.nBins 0] j
    (by simpa [length_binSlots] using hj)
  rw [length_binSlots] at e1 e2
  rw [e1, e2]
  exact ⟨getD_binSlots _ _ _ hj, getD_binSlots _ _ _ hj⟩

/-! ### The merged bin graph -/

theorem BinNode.isLeaf_offset (k : Nat) (n : BinNode) :
    (BinNode.offset k n).isLeaf = n.isLeaf := by
  cases n with
  | mk volume links => cases links <;> rfl

theorem countP_isLeaf_offset (k : Nat) (ns : List BinNode) :
    (ns.map (BinNode.offset k)).countP BinNode.isLeaf = ns.countP BinNode.isLeaf := by
  induction ns with
  | nil => rfl
  | cons n ns ih => simp [List.countP_cons, BinNode.isLeaf_offset, ih]

theorem binVolumes_offset (k : Nat) (ns : List BinNode) :
    ((ns.map (BinNode.offset k)).filter BinNode.isLeaf).map BinNode.volume
      = (ns.filter BinNode.isLeaf).map BinNode.volume := by
  induction ns with
  | nil => rfl
  | cons n ns ih =>
    have hv : (BinNode.offset k n).volume = n.volume := rfl
    by_cases hn : n.isLeaf = true
    · simp [List.filter_cons, BinNode.isLeaf_offset, hn, ih, hv]
    · simp [List.filter_cons, BinNode.isLeaf_offset, hn, ih]

theorem HyperBinning.length_binVolumes (b : HyperBinning) :
    b.binVolumes.length = b.getNumBins := by
  simp [HyperBinning.binVolumes, HyperBinning.getNumBins, List.countP_eq_length_filter]

theorem HyperBinning.mergeBinnings_nodes (b other : HyperBinning)
    (hdim : b.dimension = 0 ∨ b.dimension = other.dimension) :
    (b.mergeBinnings other).1.nodes
      = b.nodes ++ other.nodes.map (BinNode.offset b.nodes.length) ∧
    (b.mergeBinnings other).1.primaryVolumeNumbers
      = b.primaryVolumeNumbers ++
        other.primaryVolumeNumbers.map (fun v => v + (b.nodes.length : Int)) ∧
    (b.mergeBinnings other).2 = [] := by
  simp [HyperBinning.mergeBinnings, hdim]

theorem HyperBinning.mergeBinnings_fails (b other : HyperBinning)
    (hdim : ¬ (b.dimension = 0 ∨ b.dimension = other.dimension)) :
    (b.mergeBinnings other).1 = b ∧ (b.mergeBinnings other).2 ≠ [] := by
  simp [HyperBinning.mergeBinnings, hdim]

theorem HyperBinning.mergeBinnings_getNumBins (b other : HyperBinning)
    (hdim : b.dimension = 0 ∨ b.dimension = other.dimension) :
    (b.mergeBinnings other).1.getNumBins = b.getNumBins + other.getNumBins := by
  unfold HyperBinning.getNumBins
  rw [(HyperBinning.mergeBinnings_nodes b other hdim).1, List.countP_append,
    countP_isLeaf_offset]

theorem HyperBinning.mergeBinnings_binVolumes (b other : HyperBinning)
    (hdim : b.dimension = 0 ∨ b.dimension = other.dimension) :
    (b.mergeBinnings other).1.binVolumes = b.binVolumes ++ other.binVolumes := by
  unfold HyperBinning.binVolumes
  rw [(HyperBinning.mergeBinnings_nodes b other hdim).1, List.filter_append, List.map_append,
    binVolumes_offset]

theorem getD_of_lt {α : Type} (l : List α) (i : Nat) (d e : α) (hi : i < l.length) :
    l.getD i d = l.getD i e := by
  simp [List.getD_eq_getElem?_getD, List.getElem?_eq_getElem hi]

theorem HyperBinning.mergeBinnings_binVolume_left (b other : HyperBinning)
    (hdim : b.dimension = 0 ∨ b.dimension = other.dimension) (i : Nat)
    (hi : i < b.getNumBins) :
    (b.mergeBinnings other).1.getBinHyperVolume i = b.getBinHyperVolume i := by
  unfold HyperBinning.getBinHyperVolume
  rw [HyperBinning.mergeBinnings_binVolumes b other hdim]
  have hlen : i < b.binVolumes.length := by rw [HyperBinning.length_binVolumes]; exact hi
  rw [getD_of_lt b.binVolumes i (HyperVolume.empty b.dimension)
    (HyperVolume.empty (b.mergeBinnings other).1.dimension) hlen]
  simp [List.getD_eq_getElem?_getD, List.getElem?_append_left hlen]

theorem HyperBinning.mergeBinnings_binVolume_right (b other : HyperBinning)
    (hdim : b.dimension = 0 ∨ b.dimension = other.dimension) (j : Nat)
    (hj : j < other.getNumBins) :
    (b.mergeBinnings other).1.getBinHyperVolume (b.getNumBins + j)
      = other.getBinHyperVolume j := by
  unfold HyperBinning.getBinHyperVolume
  rw [HyperBinning.mergeBinnings_binVolumes b other hdim]
  have hlen : j < other.binVolumes.length := by
    rw [HyperBinning.length_binVolumes]; exact hj
  rw [getD_of_lt other.binVolumes j (HyperVolume.empty other.dimension)
    (HyperVolume.empty (b.mergeBinnings other).1.dimension) hlen]
  rw [← HyperBinning.length_binVolumes b]
  simp [List.getD_eq_getElem?_getD, List.getElem?_append_right (Nat.le_add_right _ _)]

/-- C5 (amended): for two `HyperHistogram`s `A` and `B` whose stores are sized to their
binnings and whose binnings have the same dimension (or `A` has no dimension
yet), after `A.merge(B)` the store and the binning of `A` both have `nA + nB`
bins and the store is still sized to the binning; every bin `i < nA` keeps its
index, content, sum of squared weights and region; bin `j` of `B` is found at
index `nA + j` with its content, sum of squared weights and region.  Two
quadrant histograms with contents `1,1,1,1` and `0,0,0,0` merge to 8 bins with
contents `1,1,1,1,0,0,0,0`. -/
theorem merge_appends_bins (A B : HyperHistogram) (hA : A.WellFormed) (hB : B.WellFormed)
    (hdim : A.binning.dimension = 0 ∨ A.binning.dimension = B.binning.dimension) :
    (A.merge (HistogramRef.hyperHistogram B)).1.base.nBins = A.base.nBins + B.base.nBins ∧
    (A.merge (HistogramRef.hyperHistogram B)).1.binning.getNumBins
      = A.base.nBins + B.base.nBins ∧
    (A.merge (HistogramRef.hyperHistogram B)).1.WellFormed ∧
    (A.merge (HistogramRef.hyperHistogram B)).2 = [] ∧
    (∀ i, i < A.base.nBins →
      (A.merge (HistogramRef.hyperHistogram B)).1.base.getBinContent i
        = A.base.getBinContent i ∧
      (A.merge (HistogramRef.hyperHistogram B)).1.base.getSumW2 i = A.base.getSumW2 i ∧
      (A.merge (HistogramRef.hyperHistogram B)).1.binning.getBinHyperVolume i
        = A.binning.getBinHyperVolume i) ∧
    (∀ j, j < B.base.nBins →
      (A.merge (HistogramRef.hyperHistogram B)).1.base.getBinContent (A.base.nBins + j)
        = B.base.getBinContent j ∧
      (A.merge (HistogramRef.hyperHistogram B)).1.base.getSumW2 (A.base.nBins + j)
        = B.base.getSumW2 j ∧
      (A.merge (HistogramRef.hyperHistogram B)).1.binning.getBinHyperVolume (A.base.nBins + j)
        = B.binning.getBinHyperVolume j) ∧
    (quadOnes.merge (HistogramRef.hyperHistogram
      (HyperHistogram.ofBinning quadBinning))).1.base.nBins = 8 ∧
    (quadOnes.merge (HistogramRef.hyperHistogram
      (HyperHistogram.ofBinning quadBinning))).1.base.binContentsList
        = [1, 1, 1, 1, 0, 0, 0, 0] := by
  have hbin : (A.merge (HistogramRef.hyperHistogram B)).1.binning
      = (A.binning.mergeBinnings B.binning).1 := rfl
  have hbase : (A.merge (HistogramRef.hyperHistogram B)).1.base = A.base.merge B.base := rfl
  have hn : (A.binning.mergeBinnings B.binning).1.getNumBins
      = A.base.nBins + B.base.nBins := by
    rw [HyperBinning.mergeBinnings_getNumBins _ _ hdim, hA.2, hB.2]
  refine ⟨rfl, by rw [hbin, hn], ⟨?_, ?_⟩, ?_, ?_, ?_, by decide!, by decide!⟩
  · rw [hbase]; exact HistogramBase.merge_wellSized _ _
  · rw [hbin, hn]; rfl
  · exact (HyperBinning.mergeBinnings_nodes _ _ hdim).2.2
  · intro i hi
    rw [hbase, hbin]
    exact ⟨(HistogramBase.merge_content_left _ _ i hi).1,
      (HistogramBase.merge_content_left _ _ i hi).2,
      HyperBinning.mergeBinnings_binVolume_left _ _ hdim i (by rw [← hA.2]; exact hi)⟩
  · intro j hj
    rw [hbase, hbin]
    refine ⟨(HistogramBase.merge_content_right _ _ j hj).1,
      (HistogramBase.merge_content_right _ _ j hj).2, ?_⟩
    rw [hA.2]
    exact HyperBinning.mergeBinnings_binVolume_right _ _ hdim j (by rw [← hB.2]; exact hj)

/-- Witness for C5 (amended): the quadrant histogram with contents `1,1,1,1` merged
with the empty quadrant histogram: bin 2 keeps content 1 and bin 4 + 3 holds
the content of bin 3 of the right-hand histogram. -/
theorem merge_appends_bins_witness :
    quadOnes.WellFormed ∧ (HyperHistogram.ofBinning quadBinning).WellFormed ∧
    (quadOnes.merge (HistogramRef.hyperHistogram
      (HyperHistogram.ofBinning quadBinning))).1.binning.getNumBins = 4 + 4 ∧
    (quadOnes.merge (HistogramRef.hyperHistogram
      (HyperHistogram.ofBinning quadBinning))).1.base.getBinContent 2 = 1 :=
  ⟨by decide, by decide,
   (merge_appends_bins quadOnes (HyperHistogram.ofBinning quadBinning)
      (by decide) (by decide) (Or.inr rfl)).2.1,
   by decide!⟩

/-- Counterexample for C5 as stated: the quadrant histogram (dimension 2, 4 bins)
merged with a histogram of the same kind over a binning of dimension 1 (1 bin).
`mergeBinnings` refuses the other dimension and leaves the bin graph with its 4
bins, `merge` goes on to `HistogramBase::merge`, and the store gets 5 bins: the
bin of the right-hand histogram is not appended to the bin graph. -/
theorem merge_of_other_dimension_keeps_bin_graph :
    (HyperHistogram.ofBinning quadBinning).WellFormed ∧
    (HyperHistogram.ofBinning lineBinning).WellFormed ∧
    ((HyperHistogram.ofBinning quadBinning).merge
      (HistogramRef.hyperHistogram (HyperHistogram.ofBinning lineBinning))).1.binning
        = quadBinning ∧
    ((HyperHistogram.ofBinning quadBinning).merge
      (HistogramRef.hyperHistogram (HyperHistogram.ofBinning lineBinning))).1.base.nBins
        = 5 ∧
    ¬ (((HyperHistogram.ofBinning quadBinning).merge
      (HistogramRef.hyperHistogram (HyperHistogram.ofBinning lineBinning))).1.binning.getNumBins
        = (HyperHistogram.ofBinning quadBinning).binning.getNumBins
          + (HyperHistogram.ofBinning lineBinning).binning.getNumBins) ∧
    ¬ (((HyperHistogram.ofBinning quadBinning).merge
      (HistogramRef.hyperHistogram (HyperHistogram.ofBinning lineBinning))).1.binning.getBinHyperVolume
        (4 + 0) = (HyperHistogram.ofBinning lineBinning).binning.getBinHyperVolume 0) := by
  refine ⟨by decide, by decide, by decide!, by decide!, by decide!, by decide!⟩

theorem HistogramBase.merge_binContentsList (h other : HistogramBase) :
    (h.merge other).binContentsList = h.binContentsList ++ other.binContentsList := by
  unfold HistogramBase.binContentsList
  have hn : (h.merge other).nBins = h.nBins + other.nBins := rfl
  rw [hn, List.range_add, List.map_append, List.map_map]
  congr 1
  · apply List.map_congr_left
    intro i hi
    exact (HistogramBase.merge_content_left h other i (List.mem_range.mp hi)).1
  · apply List.map_congr_left
    intro j hj
    exact (HistogramBase.merge_content_right h other j (List.mem_range.mp hj)).1

theorem HistogramBase.merge_total (h other : HistogramBase) :
    (h.merge other).total = h.total + other.total := by
  simp [HistogramBase.total, HistogramBase.merge_binContentsList]

/-- C7: for two `HyperHistogram`s `A` and `B`, `A.merge(B)` takes as binning the result
of `binning.mergeBinnings(B.binning)` and as content store the two stores
combined after resizing to the combined bin count `nA + nB` (the arrays then
hold `nA + nB + 1` slots); the total content over all bins of the merged
histogram is `total(A) + total(B)`, and it is the same when the operands are
exchanged. -/
theorem merge_adds_total_content (A B : HyperHistogram) :
    (A.merge (HistogramRef.hyperHistogram B)).1.binning
      = (A.binning.mergeBinnings B.binning).1 ∧
    (A.merge (HistogramRef.hyperHistogram B)).1.base = A.base.merge B.base ∧
    (A.merge (HistogramRef.hyperHistogram B)).1.base.nBins = A.base.nBins + B.base.nBins ∧
    (A.merge (HistogramRef.hyperHistogram B)).1.base.binContents.length
      = A.base.nBins + B.base.nBins + 1 ∧
    (A.merge (HistogramRef.hyperHistogram B)).1.base.sumW2.length
      = A.base.nBins + B.base.nBins + 1 ∧
    (A.merge (HistogramRef.hyperHistogram B)).1.base.total = A.base.total + B.base.total ∧
    (B.merge (HistogramRef.hyperHistogram A)).1.base.total
      = (A.merge (HistogramRef.hyperHistogram B)).1.base.total := by
  have hAB : (A.merge (HistogramRef.hyperHistogram B)).1.base = A.base.merge B.base := rfl
  have hBA : (B.merge (HistogramRef.hyperHistogram A)).1.base = B.base.merge A.base := rfl
  refine ⟨rfl, rfl, rfl, ?_, ?_, ?_, ?_⟩
  · rw [hAB]; exact (HistogramBase.merge_wellSized A.base B.base).1
  · rw [hAB]; exact (HistogramBase.merge_wellSized A.base B.base).2
  · rw [hAB]; exact HistogramBase.merge_total _ _
  · rw [hAB, hBA, HistogramBase.merge_total, HistogramBase.merge_total, add_comm]

/-! ### Lookup in an extended bin graph -/

theorem find?_congr_mem {α : Type} (l : List α) (p q : α → Bool)
    (h : ∀ x ∈ l, p x = q x) : l.find? p = l.find? q := by
  induction l with
  | nil => rfl
  | cons x xs ih =>
    have hx : p x = q x := h x (List.mem_cons_self _ _)
    have hxs : ∀ y ∈ xs, p y = q y := fun y hy => h y (List.mem_cons_of_mem _ hy)
    simp only [List.find?_cons, hx, ih hxs]

theorem countP_take_lt {α : Type} (p : α → Bool) (l : List α) (w : Nat) (x : α)
    (hx : l.get? w = some x) (hp : p x = true) :
    (l.take w).countP p < l.countP p := by
  induction l generalizing w with
  | nil => simp at hx
  | cons y ys ih =>
    cases w with
    | zero =>
      simp at hx
      subst hx
      simp [List.countP_cons, hp]
    | succ w =>
      simp at hx
      have := ih w (by simpa using hx)
      simp only [List.take_succ_cons, List.countP_cons]
      omega

theorem HyperBinning.getNode_of_inRange (a : HyperBinning) (v : Int) (hv : a.InRange v) :
    ∃ n, a.getNode v = some n ∧ n ∈ a.nodes := by
  have h0 : ¬ v < 0 := not_lt.mpr hv.1
  have hlt : v.toNat < a.nodes.length := by have := hv.2; omega
  refine ⟨a.nodes[v.toNat], ?_, List.getElem_mem _⟩
  simp [HyperBinning.getNode, h0, List.getElem?_eq_getElem hlt]

theorem HyperBinning.getNode_append (a m : HyperBinning) (extra : List BinNode)
    (hn : m.nodes = a.nodes ++ extra) (v : Int) (hv : a.InRange v) :
    m.getNode v = a.getNode v := by
  have h0 : ¬ v < 0 := not_lt.mpr hv.1
  have hlt : v.toNat < a.nodes.length := by have := hv.2; omega
  simp [HyperBinning.getNode, h0, hn, List.getElem?_append_left hlt]

theorem HyperBinning.links_inRange (a : HyperBinning) (hR : a.IndicesInRange) (v : Int)
    (hv : a.InRange v) : ∀ c ∈ a.getLinkedHyperVolumes v, a.InRange c := by
  obtain ⟨n, hn, hmem⟩ := a.getNode_of_inRange v hv
  intro c hc
  simp only [HyperBinning.getLinkedHyperVolumes, hn] at hc
  exact hR.1 n hmem c hc

theorem HyperBinning.getLinked_append (a m : HyperBinning) (extra : List BinNode)
    (hn : m.nodes = a.nodes ++ extra) (v : Int) (hv : a.InRange v) :
    m.getLinkedHyperVolumes v = a.getLinkedHyperVolumes v := by
  simp only [HyperBinning.getLinkedHyperVolumes, HyperBinning.getNode_append a m extra hn v hv]

theorem HyperBinning.getHyperVolume_append (a m : HyperBinning) (extra : List BinNode)
    (hn : m.nodes = a.nodes ++ extra) (v : Int) (hv : a.InRange v) :
    m.getHyperVolume v = a.getHyperVolume v := by
  obtain ⟨n, hsome, _⟩ := a.getNode_of_inRange v hv
  simp only [HyperBinning.getHyperVolume, HyperBinning.getNode_append a m extra hn v hv, hsome]

theorem HyperBinning.followBinLinks_append (rt : RangeTest) (a m : HyperBinning)
    (extra : List BinNode) (hn : m.nodes = a.nodes ++ extra) (hR : a.IndicesInRange)
    (p : List ℚ) (fuel : Nat) :
    ∀ v, a.InRange v → m.followBinLinks rt p fuel v = a.followBinLinks rt p fuel v := by
  induction fuel with
  | zero => intro v _; rfl
  | succ fuel ih =>
    intro v hv
    have hl := HyperBinning.getLinked_append a m extra hn v hv
    have hfind :
        (a.getLinkedHyperVolumes v).find? (fun c => (m.getHyperVolume c).inVolume rt p)
          = (a.getLinkedHyperVolumes v).find? (fun c => (a.getHyperVolume c).inVolume rt p) :=
      find?_congr_mem _ _ _ (fun c hc => by
        rw [HyperBinning.getHyperVolume_append a m extra hn c
          (HyperBinning.links_inRange a hR v hv c hc)])
    simp only [HyperBinning.followBinLinks, hl, hfind]
    split
    · rfl
    · split
      · rename_i c hc
        exact ih c (HyperBinning.links_inRange a hR v hv c (List.mem_of_find?_eq_some hc))
      · rfl

theorem HyperBinning.followBinLinks_mono (rt : RangeTest) (a : HyperBinning) (p : List ℚ)
    (k : Nat) (fuel : Nat) :
    ∀ v w, a.followBinLinks rt p fuel v = Descent.leaf w →
      a.followBinLinks rt p (fuel + k) v = Descent.leaf w := by
  induction fuel with
  | zero => intro v w h; simp [HyperBinning.followBinLinks] at h
  | succ fuel ih =>
    intro v w h
    rw [Nat.add_right_comm]
    simp only [HyperBinning.followBinLinks] at h ⊢
    split
    · rename_i hempty
      simpa [hempty] using h
    · rename_i hempty
      simp only [hempty] at h
      split
      · rename_i c hc
        simp only [hc] at h
        exact ih c w (by simpa using h)
      · rename_i hc
        simp [hc] at h

theorem HyperBinning.followBinLinks_leaf (rt : RangeTest) (a : HyperBinning)
    (hR : a.IndicesInRange) (p : List ℚ) (fuel : Nat) :
    ∀ v w, a.InRange v → a.followBinLinks rt p fuel v = Descent.leaf w →
      a.InRange w ∧ (a.getLinkedHyperVolumes w).isEmpty = true := by
  induction fuel with
  | zero => intro v w _ h; simp [HyperBinning.followBinLinks] at h
  | succ fuel ih =>
    intro v w hv h
    simp only [HyperBinning.followBinLinks] at h
    split at h
    · rename_i hempty
      have hvw : v = w := by simpa using h
      subst hvw
      exact ⟨hv, hempty⟩
    · split at h
      · rename_i c hc
        exact ih c w (HyperBinning.links_inRange a hR v hv c (List.mem_of_find?_eq_some hc)) h
      · simp at h

theorem HyperBinning.descend_append (rt : RangeTest) (a m : HyperBinning)
    (extra : List BinNode) (extraP : List Int) (hn : m.nodes = a.nodes ++ extra)
    (hp : m.primaryVolumeNumbers = a.primaryVolumeNumbers ++ extraP)
    (hR : a.IndicesInRange) (p : List ℚ) (w : Int)
    (h : a.descend rt p = Descent.leaf w) :
    m.descend rt p = Descent.leaf w ∧ a.InRange w ∧
      (a.getLinkedHyperVolumes w).isEmpty = true := by
  unfold HyperBinning.descend at h ⊢
  have hfind :
      a.primaryVolumeNumbers.find? (fun v => (m.getHyperVolume v).inVolume rt p)
        = a.primaryVolumeNumbers.find? (fun v => (a.getHyperVolume v).inVolume rt p) :=
    find?_congr_mem _ _ _ (fun v hv => by
      rw [HyperBinning.getHyperVolume_append a m extra hn v (hR.2 v hv)])
  split at h
  · rename_i v hv
    have hvr : a.InRange v := hR.2 v (List.mem_of_find?_eq_some hv)
    rw [hp, List.find?_append, hfind, hv]
    simp only [Option.or]
    rw [hn, List.length_append, HyperBinning.followBinLinks_append rt a m extra hn hR p _ v hvr]
    exact ⟨HyperBinning.followBinLinks_mono rt a p extra.length _ v w h,
      HyperBinning.followBinLinks_leaf rt a hR p _ v w hvr h⟩
  · simp at h

theorem HyperBinning.getBinNum_append (rt : RangeTest) (a m : HyperBinning)
    (extra : List BinNode) (extraP : List Int) (hn : m.nodes = a.nodes ++ extra)
    (hp : m.primaryVolumeNumbers = a.primaryVolumeNumbers ++ extraP)
    (hR : a.IndicesInRange) (p : HyperPoint)
    (hin : a.getBinNum rt p ≠ a.getNumBins) :
    m.getBinNum rt p = a.getBinNum rt p ∧ a.getBinNum rt p < a.getNumBins := by
  unfold HyperBinning.getBinNum at hin ⊢
  split at hin
  · rename_i w hw
    obtain ⟨hm, hwr, hleaf⟩ := HyperBinning.descend_append rt a m extra extraP hn hp hR _ w hw
    obtain ⟨n, hsome, _⟩ := a.getNode_of_inRange w hwr
    have hlt : w.toNat < a.nodes.length := by have := hwr.2; have := hwr.1; omega
    have hnleaf : n.isLeaf = true := by
      simpa [HyperBinning.getLinkedHyperVolumes, hsome, BinNode.isLeaf] using hleaf
    have hget : a.nodes.get? w.toNat = some n := by
      have h0 : ¬ w < 0 := not_lt.mpr hwr.1
      simpa [HyperBinning.getNode, h0] using hsome
    simp only [hm, HyperBinning.getNode_append a m extra hn w hwr, hsome, hn,
      List.take_append_of_le_length (Nat.le_of_lt hlt)]
    exact ⟨trivial, countP_take_lt BinNode.isLeaf a.nodes w.toNat n hget hnleaf⟩
  · exact absurd rfl hin

theorem HyperBinning.mergeBinnings_getBinNum (rt : RangeTest) (a other : HyperBinning)
    (hR : a.IndicesInRange) (p : HyperPoint) (hin : a.getBinNum rt p ≠ a.getNumBins) :
    (a.mergeBinnings other).1.getBinNum rt p = a.getBinNum rt p ∧
      a.getBinNum rt p < a.getNumBins := by
  by_cases hdim : a.dimension = 0 ∨ a.dimension = other.dimension
  · obtain ⟨hn, hp, _⟩ := HyperBinning.mergeBinnings_nodes a other hdim
    exact HyperBinning.getBinNum_append rt a _ _ _ hn hp hR p hin
  · rw [(HyperBinning.mergeBinnings_fails a other hdim).1]
    exact ⟨rfl, lt_of_le_of_ne (HyperBinning.getBinNum_le rt a p) hin⟩

theorem HyperBinning.followBinLinks_covered (rt : RangeTest) (a : HyperBinning)
    (hR : a.IndicesInRange) (p : List ℚ) (hC : a.Covered rt p) (fuel : Nat) :
    ∀ v, a.InRange v → (a.getHyperVolume v).inVolume rt p = true →
      a.followBinLinks rt p fuel v ≠ Descent.cycle →
      ∃ w, a.followBinLinks rt p fuel v = Descent.leaf w := by
  induction fuel with
  | zero => intro v _ _ h; exact absurd rfl h
  | succ fuel ih =>
    intro v hv hin hne
    obtain ⟨n, hn, hmem⟩ := a.getNode_of_inRange v hv
    have hlinks : a.getLinkedHyperVolumes v = n.links := by
      simp only [HyperBinning.getLinkedHyperVolumes, hn]
    have hvol : a.getHyperVolume v = n.volume := by
      simp only [HyperBinning.getHyperVolume, hn]
    simp only [HyperBinning.followBinLinks] at hne ⊢
    split
    · exact ⟨v, rfl⟩
    · rename_i hempty
      simp only [hempty] at hne
      have hany := hC n hmem (by rw [← hlinks]; simpa using hempty) (by rw [← hvol]; exact hin)
      rw [← hlinks] at hany
      split
      · rename_i c hc
        simp only [hc] at hne
        exact ih c (HyperBinning.links_inRange a hR v hv c (List.mem_of_find?_eq_some hc))
          (by simpa using List.find?_some hc) (by simpa using hne)
      · rename_i hc
        rw [List.find?_eq_none] at hc
        rw [List.any_eq_true] at hany
        obtain ⟨c, hcm, hcp⟩ := hany
        exact absurd hcp (hc c hcm)

theorem HyperBinning.getBinNum_lt_of_leaf (rt : RangeTest) (a : HyperBinning)
    (hR : a.IndicesInRange) (p : HyperPoint) (w : Int)
    (hw : a.descend rt p.coords = Descent.leaf w) :
    a.getBinNum rt p < a.getNumBins := by
  obtain ⟨_, hwr, hleaf⟩ := HyperBinning.descend_append rt a a [] [] (by simp) (by simp) hR _ w hw
  obtain ⟨n, hsome, _⟩ := a.getNode_of_inRange w hwr
  have hnleaf : n.isLeaf = true := by
    simpa [HyperBinning.getLinkedHyperVolumes, hsome, BinNode.isLeaf] using hleaf
  have hget : a.nodes.get? w.toNat = some n := by
    have h0 : ¬ w < 0 := not_lt.mpr hwr.1
    simpa [HyperBinning.getNode, h0] using hsome
  simp only [HyperBinning.getBinNum, hw, hsome]
  exact countP_take_lt BinNode.isLeaf a.nodes w.toNat n hget hnleaf

theorem HyperBinning.getBinNum_lt_of_covered (rt : RangeTest) (a : HyperBinning)
    (hR : a.IndicesInRange) (p : HyperPoint) (hC : a.Covered rt p.coords)
    (hT : a.descend rt p.coords ≠ Descent.cycle) (hin : a.inDomain rt p.coords = true) :
    a.getBinNum rt p < a.getNumBins := by
  have hfind : ∃ v, a.primaryVolumeNumbers.find?
      (fun v => (a.getHyperVolume v).inVolume rt p.coords) = some v := by
    cases hf : a.primaryVolumeNumbers.find?
        (fun v => (a.getHyperVolume v).inVolume rt p.coords) with
    | some v => exact ⟨v, rfl⟩
    | none =>
      rw [List.find?_eq_none] at hf
      unfold HyperBinning.inDomain at hin
      rw [List.any_eq_true] at hin
      obtain ⟨v, hvm, hvp⟩ := hin
      exact absurd hvp (hf v hvm)
  obtain ⟨v, hv⟩ := hfind
  have hdesc : a.descend rt p.coords = a.followBinLinks rt p.coords a.nodes.length v := by
    simp only [HyperBinning.descend, hv]
  rw [hdesc] at hT
  obtain ⟨w, hw⟩ := HyperBinning.followBinLinks_covered rt a hR p.coords hC a.nodes.length v
    (hR.2 v (List.mem_of_find?_eq_some hv)) (by simpa using List.find?_some hv) hT
  exact HyperBinning.getBinNum_lt_of_leaf rt a hR p w (by rw [hdesc, hw])

/-- C6: let `A` and `B` be `HyperHistogram`s, `A` with its store sized to its binning
and with every link and primary number naming one of its nodes, and let `p` be
outside the domain of `B` (in no primary region of `B`).  If `p` is inside the
domain of `A` (in a primary region of `A`), the children of each internal node
of `A` cover it at `p`, and the descent for `p` in `A` meets no link cycle, then
`getVal(p)` after `A.merge(B)` equals `getVal(p)` on `A` before the merge, and the
lookup answers the same bin number.  The same holds whenever the lookup of `p`
in `A` answers a bin rather than the overflow index.  (The condition on `B` is
not used by the proof.) -/
theorem merge_keeps_value_in_left_domain (rt : RangeTest) (A B : HyperHistogram)
    (p : HyperPoint) (hA : A.WellFormed) (hR : A.binning.IndicesInRange)
    (_hout : B.binning.inDomain rt p.coords = false) :
    (A.binning.inDomain rt p.coords = true → A.binning.Covered rt p.coords →
      A.binning.descend rt p.coords ≠ HyperBinning.Descent.cycle →
      (A.merge (HistogramRef.hyperHistogram B)).1.getVal rt p = A.getVal rt p ∧
      (A.merge (HistogramRef.hyperHistogram B)).1.binning.getBinNum rt p
        = A.binning.getBinNum rt p) ∧
    (A.binning.getBinNum rt p ≠ A.binning.getNumBins →
      (A.merge (HistogramRef.hyperHistogram B)).1.getVal rt p = A.getVal rt p ∧
      (A.merge (HistogramRef.hyperHistogram B)).1.binning.getBinNum rt p
        = A.binning.getBinNum rt p) := by
  have hbin : (A.merge (HistogramRef.hyperHistogram B)).1.binning
      = (A.binning.mergeBinnings B.binning).1 := rfl
  have hbase : (A.merge (HistogramRef.hyperHistogram B)).1.base = A.base.merge B.base := rfl
  have key : A.binning.getBinNum rt p ≠ A.binning.getNumBins →
      (A.merge (HistogramRef.hyperHistogram B)).1.getVal rt p = A.getVal rt p ∧
      (A.merge (HistogramRef.hyperHistogram B)).1.binning.getBinNum rt p
        = A.binning.getBinNum rt p := by
    intro hin
    obtain ⟨heq, hlt⟩ := HyperBinning.mergeBinnings_getBinNum rt A.binning B.binning hR p hin
    refine ⟨?_, by rw [hbin, heq]⟩
    unfold HyperHistogram.getVal
    rw [hbin, hbase, heq]
    exact (HistogramBase.merge_content_left A.base B.base _ (by rw [hA.2]; exact hlt)).1
  exact ⟨fun hin hC hT =>
    key (Nat.ne_of_lt (HyperBinning.getBinNum_lt_of_covered rt A.binning hR p hC hT hin)), key⟩

/-- Witness for C6: `(9,9)` lies in the domain of the filled quadrant histogram, in
bin 3, and outside the domain `[20,20]-[30,30]` of the other histogram;
`getVal((9,9))` is 3 before and after the merge. -/
theorem merge_keeps_value_in_left_domain_witness :
    quadFilled.WellFormed ∧ quadFilled.binning.IndicesInRange ∧
    farFilled.binning.inDomain halfOpen (pt 9 9).coords = false ∧
    quadFilled.binning.inDomain halfOpen (pt 9 9).coords = true ∧
    quadFilled.binning.Covered halfOpen (pt 9 9).coords ∧
    quadFilled.binning.descend halfOpen (pt 9 9).coords ≠ HyperBinning.Descent.cycle ∧
    (quadFilled.merge (HistogramRef.hyperHistogram farFilled)).1.getVal halfOpen (pt 9 9)
      = quadFilled.getVal halfOpen (pt 9 9) ∧
    quadFilled.getVal halfOpen (pt 9 9) = 3 :=
  ⟨by decide!, by decide!, by decide!, by decide!, by decide!, by decide!,
   ((merge_keeps_value_in_left_domain halfOpen quadFilled farFilled (pt 9 9)
      (by decide!) (by decide!) (by decide!)).1 (by decide!) (by decide!) (by decide!)).1,
   by decide!⟩

/-! ### The bin loop of `slice` -/

theorem foldl_sliceStep (rt : RangeTest) (sqrt : ℚ → ℚ) (base : HistogramBase)
    (binning : HyperBinning) (point : HyperPoint) (dims : List Nat) (is : List Nat) :
    ∀ acc : SliceAcc,
      (is.foldl (sliceStep rt sqrt base binning point dims) acc).binContents
        = acc.binContents ++
          (is.filter fun i => (slicedVolume rt binning point dims i).size != 0).map
            base.getBinContent ∧
      (is.foldl (sliceStep rt sqrt base binning point dims) acc).binErrors
        = acc.binErrors ++
          (is.filter fun i => (slicedVolume rt binning point dims i).size != 0).map
            (base.getBinError sqrt) ∧
      (is.foldl (sliceStep rt sqrt base binning point dims) acc).temp.nodes
        = acc.temp.nodes ++
          (is.filter fun i => (slicedVolume rt binning point dims i).size != 0).map
            (fun i => { volume := slicedVolume rt binning point dims i, links := [] }) ∧
      (is.foldl (sliceStep rt sqrt base binning point dims) acc).temp.primaryVolumeNumbers
        = acc.temp.primaryVolumeNumbers ∧
      (is.foldl (sliceStep rt sqrt base binning point dims) acc).temp.names
        = acc.temp.names := by
  induction is with
  | nil => intro acc; simp
  | cons i is ih =>
    intro acc
    rw [List.foldl_cons]
    by_cases hz : (slicedVolume rt binning point dims i).size = 0
    · have hstep : sliceStep rt sqrt base binning point dims acc i = acc := by
        unfold slicedVolume at hz
        simp [sliceStep, hz]
      have hf : ((slicedVolume rt binning point dims i).size != 0) = false := by simp [hz]
      rw [hstep, List.filter_cons, hf]
      exact ih acc
    · have hstep : sliceStep rt sqrt base binning point dims acc i =
          { temp := acc.temp.addHyperVolume (slicedVolume rt binning point dims i) []
            binContents := acc.binContents ++ [base.getBinContent i]
            binErrors := acc.binErrors ++ [base.getBinError sqrt i] } := by
        unfold slicedVolume at hz ⊢
        simp [sliceStep, hz]
      have hf : ((slicedVolume rt binning point dims i).size != 0) = true := by simp [hz]
      rw [hstep, List.filter_cons, hf]
      obtain ⟨h1, h2, h3, h4, h5⟩ := ih
        { temp := acc.temp.addHyperVolume (slicedVolume rt binning point dims i) []
          binContents := acc.binContents ++ [base.getBinContent i]
          binErrors := acc.binErrors ++ [base.getBinError sqrt i] }
      refine ⟨?_, ?_, ?_, ?_, ?_⟩
      · rw [h1]; simp
      · rw [h2]; simp
      · rw [h3]; simp [HyperBinning.addHyperVolume]
      · rw [h4]; rfl
      · rw [h5]; rfl

theorem countP_isLeaf_sliced {α : Type} (f : α → HyperVolume) (l : List α) :
    (l.map fun i => ({ volume := f i, links := [] } : BinNode)).countP BinNode.isLeaf
      = l.length := by
  induction l with
  | nil => rfl
  | cons x xs ih => simp [List.countP_cons, BinNode.isLeaf, ih]

theorem binVolumes_sliced {α : Type} (f : α → HyperVolume) (l : List α) :
    ((l.map fun i => ({ volume := f i, links := [] } : BinNode)).filter BinNode.isLeaf).map
      BinNode.volume = l.map f := by
  induction l with
  | nil => rfl
  | cons x xs ih => simp [List.filter_cons, BinNode.isLeaf, ih]

/-! ### Copying contents and errors into the sliced histogram -/

theorem foldl_setSliced (cs es : List ℚ) (n : Nat) (base : HistogramBase) :
    ((List.range n).foldl
      (fun b i => (b.setBinContent i (cs.getD i 0)).setBinError i (es.getD i 0)) base).nBins
        = base.nBins ∧
    ((List.range n).foldl
      (fun b i => (b.setBinContent i (cs.getD i 0)).setBinError i (es.getD i 0)) base).min
        = base.min ∧
    ((List.range n).foldl
      (fun b i => (b.setBinContent i (cs.getD i 0)).setBinError i (es.getD i 0)) base).max
        = base.max ∧
    ((List.range n).foldl
      (fun b i => (b.setBinContent i (cs.getD i 0)).setBinError i
        (es.getD i 0)) base).binContents.length = base.binContents.length ∧
    ((List.range n).foldl
      (fun b i => (b.setBinContent i (cs.getD i 0)).setBinError i
        (es.getD i 0)) base).sumW2.length = base.sumW2.length ∧
    (∀ j, ((List.range n).foldl
      (fun b i => (b.setBinContent i (cs.getD i 0)).setBinError i
        (es.getD i 0)) base).binContents.getD j 0
        = if j < n ∧ j < base.binContents.length then cs.getD j 0
          else base.binContents.getD j 0) ∧
    (∀ j, ((List.range n).foldl
      (fun b i => (b.setBinContent i (cs.getD i 0)).setBinError i
        (es.getD i 0)) base).sumW2.getD j 0
        = if j < n ∧ j < base.sumW2.length then es.getD j 0 * es.getD j 0
          else base.sumW2.getD j 0) := by
  induction n with
  | zero => simp
  | succ n ih =>
    rw [List.range_succ, List.foldl_append]
    simp only [List.foldl_cons, List.foldl_nil]
    revert ih
    generalize (List.range n).foldl
      (fun b i => (b.setBinContent i (cs.getD i 0)).setBinError i (es.getD i 0)) base = b
    intro ih
    obtain ⟨h1, h2, h3, h4, h5, h6, h7⟩ := ih
    simp only [HistogramBase.setBinContent, HistogramBase.setBinError, List.length_set]
    refine ⟨h1, h2, h3, h4, h5, ?_, ?_⟩
    · intro j
      rw [getD_set, h6 j, h4]
      by_cases hjn : j = n
      · subst hjn
        by_cases hl : j < base.binContents.length
        · simp [hl]
        · simp [hl]
      · by_cases hlt : j < n
        · have : j < n + 1 := Nat.lt_succ_of_lt hlt
          simp [hjn, hlt, this]
        · have : ¬ j < n + 1 := by omega
          simp [hjn, hlt, this]
    · intro j
      rw [getD_set, h7 j, h5]
      by_cases hjn : j = n
      · subst hjn
        by_cases hl : j < base.sumW2.length
        · simp [hl]
        · simp [hl]
      · by_cases hlt : j < n
        · have : j < n + 1 := Nat.lt_succ_of_lt hlt
          simp [hjn, hlt, this]
        · have : ¬ j < n + 1 := by omega
          simp [hjn, hlt, this]

/-! ### The slice point -/

theorem getD_set_nat {α : Type} (l : List α) (i j : Nat) (v d : α) :
    (l.set i v).getD j d = if j = i ∧ i < l.length then v else l.getD j d := by
  simp only [List.getD_eq_getElem?_getD, List.getElem?_set]
  by_cases hij : i = j
  · subst hij
    by_cases hlt : i < l.length
    · simp [hlt]
    · simp [hlt, List.getElem?_eq_none (Nat.le_of_not_lt hlt)]
  · have hji : ¬ j = i := fun h => hij h.symm
    simp [hij, hji]

theorem slicePoint_fold (d : Nat) (dims : List Nat) (vals : List ℚ)
    (hlen : dims.length ≤ vals.length) (hlt : ∀ x ∈ dims, x < d) (hnd : dims.Nodup)
    (n : Nat) (hn : n ≤ dims.length) :
    ∃ pt, (List.range n).foldlM (slicePointStep dims vals) (HyperPoint.zero d) = some pt ∧
      pt.coords.length = d ∧
      ∀ j, j < n → pt.coords.getD (dims.getD j 0) 0 = vals.getD j 0 := by
  induction n with
  | zero => exact ⟨HyperPoint.zero d, rfl, by simp [HyperPoint.zero], by simp⟩
  | succ n ih =>
    obtain ⟨pt, hpt, hl, hv⟩ := ih (Nat.le_of_succ_le hn)
    have hnd' : n < dims.length := hn
    have hnv : n < vals.length := Nat.lt_of_lt_of_le hn hlen
    have hdn : dims[n] < pt.coords.length := by
      rw [hl]; exact hlt _ (List.getElem_mem _)
    refine ⟨pt.setAt dims[n] vals[n], ?_, ?_, ?_⟩
    · rw [List.range_succ, List.foldlM_append, hpt]
      simp [slicePointStep, List.getElem?_eq_getElem hnd', List.getElem?_eq_getElem hnv, hdn]
    · simpa [HyperPoint.setAt] using hl
    · intro j hj
      have hjd : j < dims.length := Nat.lt_of_lt_of_le hj hn
      rw [List.getD_eq_getElem dims 0 hjd]
      simp only [HyperPoint.setAt, getD_set_nat]
      by_cases hjn : j = n
      · subst hjn
        rw [List.getD_eq_getElem vals 0 hnv]
        simp [hdn]
      · have hjlt : j < n := by omega
        have hne : ¬ dims[j] = dims[n] := by
          intro he
          exact hjn ((hnd.getElem_inj_iff).mp he)
        simp only [hne, false_and, if_false]
        have := hv j hjlt
        rw [List.getD_eq_getElem dims 0 hjd] at this
        exact this

theorem all_congr_mem {α : Type} (l : List α) (p q : α → Bool)
    (h : ∀ x ∈ l, p x = q x) : l.all p = l.all q := by
  induction l with
  | nil => rfl
  | cons x xs ih =>
    have hx : p x = q x := h x (List.mem_cons_self _ _)
    have hxs : ∀ y ∈ xs, p y = q y := fun y hy => h y (List.mem_cons_of_mem _ hy)
    simp only [List.all_cons, hx, ih hxs]

theorem all_eq_all_range (l : List Nat) (f : Nat → Bool) :
    l.all f = (List.range l.length).all fun j => f (l.getD j 0) := by
  induction l with
  | nil => rfl
  | cons x xs ih =>
    rw [List.length_cons, List.range_succ_eq_map, List.all_cons, List.all_cons, List.all_map, ih]
    simp [Function.comp_def]

theorem inVolumeDims_eq (rt : RangeTest) (c : HyperCuboid) (pt : HyperPoint) (dims : List Nat)
    (vals : List ℚ) (hv : ∀ j, j < dims.length → pt.coords.getD (dims.getD j 0) 0 = vals.getD j 0) :
    c.inVolumeDims rt pt.coords dims
      = (List.range dims.length).all fun j =>
          rt (c.lowCorner.getD (dims.getD j 0) 0) (c.highCorner.getD (dims.getD j 0) 0)
            (vals.getD j 0) := by
  unfold HyperCuboid.inVolumeDims
  rw [all_eq_all_range]
  apply all_congr_mem
  intro j hj
  rw [hv j (List.mem_range.mp hj)]

theorem size_slice_ne_zero (rt : RangeTest) (v : HyperVolume) (pt : HyperPoint)
    (dims : List Nat) (vals : List ℚ)
    (hv : ∀ j, j < dims.length → pt.coords.getD (dims.getD j 0) 0 = vals.getD j 0) :
    ((v.slice rt pt dims).size != 0) = v.meetsHyperplane rt dims vals := by
  have hcongr : (v.hyperCuboids.filter fun c => c.inVolumeDims rt pt.coords dims)
      = v.hyperCuboids.filter fun c => (List.range dims.length).all fun j =>
          rt (c.lowCorner.getD (dims.getD j 0) 0) (c.highCorner.getD (dims.getD j 0) 0)
            (vals.getD j 0) := by
    apply List.filter_congr
    intro c _
    exact inVolumeDims_eq rt c pt dims vals hv
  unfold HyperVolume.size HyperVolume.slice HyperVolume.meetsHyperplane
  simp only [List.length_map, hcongr]
  generalize (fun c : HyperCuboid => (List.range dims.length).all fun j =>
          rt (c.lowCorner.getD (dims.getD j 0) 0) (c.highCorner.getD (dims.getD j 0) 0)
            (vals.getD j 0)) = q
  induction v.hyperCuboids with
  | nil => rfl
  | cons c cs ih =>
    by_cases hq : q c = true
    · simp [List.filter_cons, hq]
    · simp only [List.filter_cons, hq, List.any_cons]
      simpa using ih

/-! ### The name loop -/

theorem length_remainingDims (d : Nat) (dims : List Nat) (hlt : ∀ x ∈ dims, x < d)
    (hnd : dims.Nodup) :
    (remainingDims d dims).length = d - dims.length ∧ dims.length ≤ d := by
  have hsplit := List.length_eq_length_filter_add (l := List.range d)
    (fun i => dims.contains i)
  have hperm : ((List.range d).filter fun i => dims.contains i).Perm dims := by
    apply (List.perm_ext_iff_of_nodup ((List.nodup_range d).filter _) hnd).mpr
    intro a
    rw [List.mem_filter, List.mem_range]
    constructor
    · intro h; simpa using h.2
    · intro h; exact ⟨hlt a h, by simpa using h⟩
  have hk := hperm.length_eq
  rw [List.length_range, hk] at hsplit
  unfold remainingDims
  constructor <;> omega

theorem sliceNames_fold (d : Nat) (dims : List Nat) (names : List String)
    (hlt : ∀ x ∈ dims, x < d) (hnd : dims.Nodup) (hnames : d ≤ names.length)
    (n : Nat) (hn : n ≤ d) :
    ∃ st, (List.range n).foldlM (sliceNamesStep dims names)
        (List.replicate (d - dims.length) "", 0) = some st ∧
      st.1.length = d - dims.length ∧
      st.2 = ((List.range n).filter fun i => !dims.contains i).length := by
  induction n with
  | zero => exact ⟨_, rfl, by simp, by simp⟩
  | succ n ih =>
    obtain ⟨st, hst, hl, hc⟩ := ih (Nat.le_of_succ_le hn)
    rw [List.range_succ, List.foldlM_append, hst, List.filter_append, List.length_append, ← hc]
    by_cases hmem : n ∈ dims
    · have hcon : dims.contains n = true := by simpa using hmem
      have hfil : ([n].filter fun i => !dims.contains i) = [] := by
        simp [List.filter_cons, hmem]
      refine ⟨st, ?_, hl, by rw [hfil]; rfl⟩
      simp [sliceNamesStep, hcon, hmem]
    · have hcon : dims.contains n = false := by simpa using hmem
      have hfil : ([n].filter fun i => !dims.contains i) = [n] := by
        simp [List.filter_cons, hmem]
      have hnl : n < names.length := Nat.lt_of_lt_of_le hn hnames
      have hsub : ((List.range (n + 1)).filter fun i => !dims.contains i).length
          ≤ (remainingDims d dims).length :=
        ((List.range_sublist.mpr hn).filter _).length_le
      rw [(length_remainingDims d dims hlt hnd).1, List.range_succ, List.filter_append,
        List.length_append, ← hc, hfil] at hsub
      have hcount : st.2 < st.1.length := by
        rw [hl]
        simp only [List.length_singleton] at hsub
        omega
      refine ⟨(st.1.set st.2 names[n], st.2 + 1), ?_, by simpa using hl, by rw [hfil]; rfl⟩
      simp [sliceNamesStep, hcon, hmem, List.getElem?_eq_getElem hnl, hcount]

theorem sliceNames_isSome (d : Nat) (dims : List Nat) (names : List String)
    (hlt : ∀ x ∈ dims, x < d) (hnd : dims.Nodup) (hnames : d ≤ names.length) :
    ∃ ns, sliceNames d dims names = some ns := by
  obtain ⟨st, hst, _, _⟩ := sliceNames_fold d dims names hlt hnd hnames d (Nat.le_refl d)
  have hk : ¬ d < dims.length := Nat.not_lt.mpr (length_remainingDims d dims hlt hnd).2
  exact ⟨st.1, by simp [sliceNames, hk, hst]⟩

/-! ### The sliced histogram -/

theorem sliceLoop_spec (rt : RangeTest) (sqrt : ℚ → ℚ) (base : HistogramBase)
    (binning : HyperBinning) (point : HyperPoint) (dims : List Nat) (temp : HyperBinning)
    (htemp : temp.nodes = []) :
    (sliceLoop rt sqrt base binning point dims temp).binContents
      = (nonEmptySliceBins rt base binning point dims).map base.getBinContent ∧
    (sliceLoop rt sqrt base binning point dims temp).binErrors
      = (nonEmptySliceBins rt base binning point dims).map (base.getBinError sqrt) ∧
    (sliceLoop rt sqrt base binning point dims temp).temp.getNumBins
      = (nonEmptySliceBins rt base binning point dims).length ∧
    (sliceLoop rt sqrt base binning point dims temp).temp.binVolumes
      = (nonEmptySliceBins rt base binning point dims).map
          (slicedVolume rt binning point dims) := by
  obtain ⟨h1, h2, h3, _, _⟩ := foldl_sliceStep rt sqrt base binning point dims
    (List.range base.getNBins) { temp := temp, binContents := [], binErrors := [] }
  unfold sliceLoop nonEmptySliceBins
  refine ⟨by simpa using h1, by simpa using h2, ?_, ?_⟩
  · unfold HyperBinning.getNumBins
    rw [h3]
    simp only [htemp, List.nil_append]
    exact countP_isLeaf_sliced _ _
  · unfold HyperBinning.binVolumes
    rw [h3]
    simp only [htemp, List.nil_append]
    exact binVolumes_sliced _ _

theorem setSlicedContents_spec (m : Nat) (cs es : List ℚ) (hcs : cs.length = m) :
    (setSlicedContents (HistogramBase.new m) cs es).nBins = m ∧
    (setSlicedContents (HistogramBase.new m) cs es).WellSized ∧
    (∀ k, k < m →
      (setSlicedContents (HistogramBase.new m) cs es).getBinContent k = cs.getD k 0 ∧
      (setSlicedContents (HistogramBase.new m) cs es).getSumW2 k
        = es.getD k 0 * es.getD k 0) := by
  obtain ⟨h1, _, _, h4, h5, h6, h7⟩ := foldl_setSliced cs es cs.length (HistogramBase.new m)
  unfold setSlicedContents
  refine ⟨h1, ⟨?_, ?_⟩, ?_⟩
  · rw [h4, h1]; simp [HistogramBase.new]
  · rw [h5, h1]; simp [HistogramBase.new]
  · intro k hk
    unfold HistogramBase.getBinContent HistogramBase.getSumW2
    rw [h6 k, h7 k]
    have hk1 : k < cs.length := by rw [hcs]; exact hk
    have hk2 : k < (HistogramBase.new m).binContents.length := by
      simp [HistogramBase.new]; omega
    have hk3 : k < (HistogramBase.new m).sumW2.length := by
      simp [HistogramBase.new]; omega
    simp [hk1, hk2, hk3]

theorem getD_map_nat {β : Type} (l : List Nat) (f : Nat → β) (k : Nat) (d : β)
    (hk : k < l.length) : (l.map f).getD k d = f (l.getD k 0) := by
  simp [List.getD_eq_getElem?_getD, List.getElem?_map, List.getElem?_eq_getElem hk]

theorem map_getD_range (l : List Nat) (f : Nat → ℚ) :
    (List.range l.length).map (fun k => f (l.getD k 0)) = l.map f := by
  induction l with
  | nil => rfl
  | cons x xs ih =>
    rw [List.length_cons, List.range_succ_eq_map, List.map_cons, List.map_map, List.map_cons,
      ← ih]
    simp [Function.comp_def]

theorem sqrt_sq_sqrt (sqrt : ℚ → ℚ) (hs : IsSqrt sqrt) (x : ℚ) :
    sqrt (sqrt x * sqrt x) = sqrt x :=
  hs.2 (sqrt x) (hs.1 x)

theorem slice_request_point (binning : HyperBinning) (dims : List Nat) (vals : List ℚ)
    (hv : SliceRequestValid binning dims vals) :
    ∃ pt, slicePoint binning.getDimension dims vals = some pt ∧
      ∀ j, j < dims.length → pt.coords.getD (dims.getD j 0) 0 = vals.getD j 0 := by
  obtain ⟨pt, hpt, _, hvals⟩ := slicePoint_fold binning.getDimension dims vals hv.1 hv.2.1
    hv.2.2.1 dims.length (Nat.le_refl _)
  exact ⟨pt, hpt, hvals⟩

theorem nonEmptySliceBins_eq_surviving (rt : RangeTest) (base : HistogramBase)
    (binning : HyperBinning) (pt : HyperPoint) (dims : List Nat) (vals : List ℚ)
    (hv : ∀ j, j < dims.length → pt.coords.getD (dims.getD j 0) 0 = vals.getD j 0) :
    nonEmptySliceBins rt base binning pt dims = survivingBins rt base binning dims vals := by
  unfold nonEmptySliceBins survivingBins slicedVolume
  apply List.filter_congr
  intro i _
  exact size_slice_ne_zero rt _ pt dims vals hv

theorem sliced_core (rt : RangeTest) (sqrt : ℚ → ℚ) (base : HistogramBase)
    (binning : HyperBinning) (pt : HyperPoint) (dims : List Nat) (temp : HyperBinning)
    (htemp : temp.nodes = [])
    (acc : SliceAcc) (hacc : acc = sliceLoop rt sqrt base binning pt dims temp)
    (b : HistogramBase)
    (hb : b = setSlicedContents (HistogramBase.new acc.temp.getNumBins) acc.binContents
      acc.binErrors) :
    b.nBins = (nonEmptySliceBins rt base binning pt dims).length ∧
    b.WellSized ∧
    acc.temp.getNumBins = (nonEmptySliceBins rt base binning pt dims).length ∧
    (∀ k, k < (nonEmptySliceBins rt base binning pt dims).length →
      b.getBinContent k
        = base.getBinContent ((nonEmptySliceBins rt base binning pt dims).getD k 0) ∧
      (IsSqrt sqrt → b.getBinError sqrt k
        = base.getBinError sqrt ((nonEmptySliceBins rt base binning pt dims).getD k 0)) ∧
      ∀ dflt, acc.temp.binVolumes.getD k dflt
        = slicedVolume rt binning pt dims
            ((nonEmptySliceBins rt base binning pt dims).getD k 0)) ∧
    b.binContentsList = (nonEmptySliceBins rt base binning pt dims).map base.getBinContent := by
  obtain ⟨h1, h2, h3, h4⟩ := sliceLoop_spec rt sqrt base binning pt dims temp htemp
  rw [← hacc] at h1 h2 h3 h4
  have hcs : acc.binContents.length = acc.temp.getNumBins := by rw [h1, h3]; simp
  obtain ⟨g1, g2, g3⟩ := setSlicedContents_spec acc.temp.getNumBins acc.binContents
    acc.binErrors hcs
  rw [← hb] at g1 g2 g3
  have hcontent : ∀ k, k < (nonEmptySliceBins rt base binning pt dims).length →
      b.getBinContent k
        = base.getBinContent ((nonEmptySliceBins rt base binning pt dims).getD k 0) := by
    intro k hk
    rw [(g3 k (by rw [h3]; exact hk)).1, h1]
    exact getD_map_nat _ _ k 0 hk
  refine ⟨by rw [g1, h3], g2, h3, ?_, ?_⟩
  · intro k hk
    refine ⟨hcontent k hk, ?_, ?_⟩
    · intro hs
      have e := (g3 k (by rw [h3]; exact hk)).2
      unfold HistogramBase.getSumW2 at e
      unfold HistogramBase.getBinError
      rw [e, h2, getD_map_nat _ _ k 0 hk]
      exact sqrt_sq_sqrt sqrt hs _
    · intro dflt
      rw [h4]
      exact getD_map_nat _ _ k _ hk
  · unfold HistogramBase.binContentsList
    rw [g1, h3, ← map_getD_range (nonEmptySliceBins rt base binning pt dims) base.getBinContent]
    apply List.map_congr_left
    intro k hk
    exact hcontent k (List.mem_range.mp hk)

theorem pairwise_nonEmptySliceBins (rt : RangeTest) (base : HistogramBase)
    (binning : HyperBinning) (pt : HyperPoint) (dims : List Nat) :
    List.Pairwise (· < ·) (nonEmptySliceBins rt base binning pt dims) :=
  (List.pairwise_lt_range _).sublist (List.filter_sublist _)

/-- C9: for a slice request the code serves without an out-of-range access (and a
square root obeying its laws), `slice` returns a histogram with exactly one bin
for each original bin whose sliced region has a box, none when there is no such
bin, in increasing original-index order; its store and its binning agree on
that bin count; the `k`-th sliced bin has the content and the error of the
`k`-th such original bin, unscaled, and its region is the sliced region of that
bin.  This holds for `HyperHistogram` and for `HyperBinningHistogram`. -/
theorem slice_carries_surviving_bins (rt : RangeTest) (sqrt : ℚ → ℚ) (h : HyperHistogram)
    (g : HyperBinningHistogram) (dims : List Nat) (vals : List ℚ) (hs : IsSqrt sqrt)
    (hv : SliceRequestValid h.binning dims vals)
    (hw : SliceRequestValid g.binning dims vals) :
    (∃ pt r, slicePoint h.binning.getDimension dims vals = some pt ∧
      h.slice rt sqrt dims vals = some r ∧
      (∀ i, i ∈ nonEmptySliceBins rt h.base h.binning pt dims ↔
        i < h.base.getNBins ∧ (slicedVolume rt h.binning pt dims i).size ≠ 0) ∧
      List.Pairwise (· < ·) (nonEmptySliceBins rt h.base h.binning pt dims) ∧
      r.base.getNBins = (nonEmptySliceBins rt h.base h.binning pt dims).length ∧
      r.binning.getNumBins = (nonEmptySliceBins rt h.base h.binning pt dims).length ∧
      r.WellFormed ∧
      ∀ k, k < (nonEmptySliceBins rt h.base h.binning pt dims).length →
        r.base.getBinContent k
          = h.base.getBinContent ((nonEmptySliceBins rt h.base h.binning pt dims).getD k 0) ∧
        r.base.getBinError sqrt k
          = h.base.getBinError sqrt
              ((nonEmptySliceBins rt h.base h.binning pt dims).getD k 0) ∧
        r.binning.getBinHyperVolume k
          = slicedVolume rt h.binning pt dims
              ((nonEmptySliceBins rt h.base h.binning pt dims).getD k 0)) ∧
    (∃ pt r, slicePoint g.binning.getDimension dims vals = some pt ∧
      g.slice rt sqrt dims vals = some r ∧
      (∀ i, i ∈ nonEmptySliceBins rt g.base g.binning pt dims ↔
        i < g.base.getNBins ∧ (slicedVolume rt g.binning pt dims i).size ≠ 0) ∧
      List.Pairwise (· < ·) (nonEmptySliceBins rt g.base g.binning pt dims) ∧
      r.base.getNBins = (nonEmptySliceBins rt g.base g.binning pt dims).length ∧
      r.binning.getNumBins = (nonEmptySliceBins rt g.base g.binning pt dims).length ∧
      r.WellFormed ∧
      ∀ k, k < (nonEmptySliceBins rt g.base g.binning pt dims).length →
        r.base.getBinContent k
          = g.base.getBinContent ((nonEmptySliceBins rt g.base g.binning pt dims).getD k 0) ∧
        r.base.getBinError sqrt k
          = g.base.getBinError sqrt
              ((nonEmptySliceBins rt g.base g.binning pt dims).getD k 0) ∧
        r.binning.getBinHyperVolume k
          = slicedVolume rt g.binning pt dims
              ((nonEmptySliceBins rt g.base g.binning pt dims).getD k 0)) := by
  have hmem : ∀ (base : HistogramBase) (binning : HyperBinning) (pt : HyperPoint) (i : Nat),
      i ∈ nonEmptySliceBins rt base binning pt dims ↔
        i < base.getNBins ∧ (slicedVolume rt binning pt dims i).size ≠ 0 := by
    intro base binning pt i
    simp [nonEmptySliceBins, List.mem_filter, List.mem_range]
  constructor
  · obtain ⟨pt, hpt, _⟩ := slice_request_point h.binning dims vals hv
    obtain ⟨ns, hns⟩ := sliceNames_isSome h.binning.getDimension dims h.binning.names
      hv.2.1 hv.2.2.1 hv.2.2.2
    obtain ⟨c1, c2, c3, c4, _⟩ := sliced_core rt sqrt h.base h.binning pt dims HyperBinning.new
      rfl _ rfl _ rfl
    have hsl : h.slice rt sqrt dims vals = some
        { base :=
            { setSlicedContents
                (HistogramBase.new
                  (sliceLoop rt sqrt h.base h.binning pt dims HyperBinning.new).temp.getNumBins)
                (sliceLoop rt sqrt h.base h.binning pt dims HyperBinning.new).binContents
                (sliceLoop rt sqrt h.base h.binning pt dims HyperBinning.new).binErrors with
              min := h.base.min, max := h.base.max }
          funcLimits := (sliceLoop rt sqrt h.base h.binning pt dims HyperBinning.new).temp.getLimits
          binning :=
            (sliceLoop rt sqrt h.base h.binning pt dims HyperBinning.new).temp.setNames ns } := by
      simp only [HyperHistogram.slice, hpt, hns, HyperHistogram.ofBinning]
    exact ⟨pt, _, hpt, hsl, hmem _ _ _, pairwise_nonEmptySliceBins rt _ _ _ _, c1, c3,
      ⟨c2, c1.trans c3.symm⟩,
      fun k hk => ⟨(c4 k hk).1, (c4 k hk).2.1 hs, (c4 k hk).2.2 _⟩⟩
  · obtain ⟨pt, hpt, _⟩ := slice_request_point g.binning dims vals hw
    obtain ⟨ns, hns⟩ := sliceNames_isSome g.binning.getDimension dims g.binning.names
      hw.2.1 hw.2.2.1 hw.2.2.2
    obtain ⟨c1, c2, c3, c4, _⟩ := sliced_core rt sqrt g.base g.binning pt dims
      (HyperBinning.ofDim (g.binning.getDimension - dims.length)) rfl _ rfl _ rfl
    have hsl : g.slice rt sqrt dims vals = some
        { base :=
            setSlicedContents
              (HistogramBase.new
                (sliceLoop rt sqrt g.base g.binning pt dims
                  (HyperBinning.ofDim (g.binning.getDimension - dims.length))).temp.getNumBins)
              (sliceLoop rt sqrt g.base g.binning pt dims
                (HyperBinning.ofDim (g.binning.getDimension - dims.length))).binContents
              (sliceLoop rt sqrt g.base g.binning pt dims
                (HyperBinning.ofDim (g.binning.getDimension - dims.length))).binErrors
          funcLimits := HyperCuboid.none
          binning :=
            (sliceLoop rt sqrt g.base g.binning pt dims
              (HyperBinning.ofDim (g.binning.getDimension - dims.length))).temp.setNames ns } := by
      simp only [HyperBinningHistogram.slice, hpt, hns, HyperBinningHistogram.ofBinning]
    exact ⟨pt, _, hpt, hsl, hmem _ _ _, pairwise_nonEmptySliceBins rt _ _ _ _, c1, c3,
      ⟨c2, c1.trans c3.symm⟩,
      fun k hk => ⟨(c4 k hk).1, (c4 k hk).2.1 hs, (c4 k hk).2.2 _⟩⟩

theorem IsSqrt_ratSqrt : IsSqrt Rat.sqrt :=
  ⟨fun x => Rat.sqrt_nonneg x, fun x hx => by rw [Rat.sqrt_eq, abs_of_nonneg hx]⟩

/-- Witness for C9: the filled quadrant histograms sliced at `y = 7`, a request that
is valid for both; the square root is `Rat.sqrt`. -/
theorem slice_carries_surviving_bins_witness :
    IsSqrt Rat.sqrt ∧ SliceRequestValid quadFilled.binning [1] [7] ∧
    SliceRequestValid quadFilledOld.binning [1] [7] ∧
    (∃ pt r, slicePoint quadFilled.binning.getDimension [1] [7] = some pt ∧
      quadFilled.slice halfOpen Rat.sqrt [1] [7] = some r ∧
      r.base.getNBins = (nonEmptySliceBins halfOpen quadFilled.base quadFilled.binning pt [1]).length) ∧
    nonEmptySliceBins halfOpen quadFilled.base quadFilled.binning (pt 0 7) [1] = [1, 3] :=
  ⟨IsSqrt_ratSqrt, by decide, by decide,
   by
    obtain ⟨pt, r, h1, h2, _, _, h5, _⟩ :=
      (slice_carries_surviving_bins halfOpen Rat.sqrt quadFilled quadFilledOld [1] [7]
        IsSqrt_ratSqrt (by decide) (by decide)).1
    exact ⟨pt, r, h1, h2, h5⟩,
   by decide!⟩

theorem survivingBins_mem (rt : RangeTest) (base : HistogramBase) (binning : HyperBinning)
    (dims : List Nat) (vals : List ℚ) (i : Nat) :
    i ∈ survivingBins rt base binning dims vals ↔
      i < base.getNBins ∧ (binning.getBinHyperVolume i).meetsHyperplane rt dims vals = true := by
  simp [survivingBins, List.mem_filter, List.mem_range]

/-- C10: for a slice request the code serves without an out-of-range access, `slice`
returns a histogram whose total content over all bins is the sum of the
pre-slice contents of exactly the original bins whose region meets the fixed
hyperplane. -/
theorem slice_total_is_total_of_met_bins (rt : RangeTest) (sqrt : ℚ → ℚ)
    (h : HyperHistogram) (dims : List Nat) (vals : List ℚ)
    (hv : SliceRequestValid h.binning dims vals) :
    ∃ r, h.slice rt sqrt dims vals = some r ∧
      r.base.total = ((survivingBins rt h.base h.binning dims vals).map
        h.base.getBinContent).sum ∧
      r.base.binContentsList = (survivingBins rt h.base h.binning dims vals).map
        h.base.getBinContent ∧
      ∀ i, i ∈ survivingBins rt h.base h.binning dims vals ↔
        i < h.base.getNBins ∧
          (h.binning.getBinHyperVolume i).meetsHyperplane rt dims vals = true := by
  obtain ⟨pt, hpt, hvals⟩ := slice_request_point h.binning dims vals hv
  obtain ⟨ns, hns⟩ := sliceNames_isSome h.binning.getDimension dims h.binning.names
    hv.2.1 hv.2.2.1 hv.2.2.2
  obtain ⟨_, _, _, _, c5⟩ := sliced_core rt sqrt h.base h.binning pt dims HyperBinning.new
    rfl _ rfl _ rfl
  rw [nonEmptySliceBins_eq_surviving rt h.base h.binning pt dims vals hvals] at c5
  have hsl : h.slice rt sqrt dims vals = some
      { base :=
          { setSlicedContents
              (HistogramBase.new
                (sliceLoop rt sqrt h.base h.binning pt dims HyperBinning.new).temp.getNumBins)
              (sliceLoop rt sqrt h.base h.binning pt dims HyperBinning.new).binContents
              (sliceLoop rt sqrt h.base h.binning pt dims HyperBinning.new).binErrors with
            min := h.base.min, max := h.base.max }
        funcLimits := (sliceLoop rt sqrt h.base h.binning pt dims HyperBinning.new).temp.getLimits
        binning :=
          (sliceLoop rt sqrt h.base h.binning pt dims HyperBinning.new).temp.setNames ns } := by
    simp only [HyperHistogram.slice, hpt, hns, HyperHistogram.ofBinning]
  refine ⟨_, hsl, ?_, c5, survivingBins_mem rt _ _ _ _⟩
  exact congrArg List.sum c5

/-- Witness for C10: the filled quadrant histogram (contents `2, 1, 0, 3`) sliced at
`y = 7`: the bins 1 and 3 meet the hyperplane and the sliced total is
`1 + 3`. -/
theorem slice_total_is_total_of_met_bins_witness :
    SliceRequestValid quadFilled.binning [1] [7] ∧
    survivingBins halfOpen quadFilled.base quadFilled.binning [1] [7] = [1, 3] ∧
    ∃ r, quadFilled.slice halfOpen Rat.sqrt [1] [7] = some r ∧ r.base.total = 1 + 3 :=
  ⟨by decide, by decide!,
   by
    obtain ⟨r, h1, h2, _⟩ :=
      slice_total_is_total_of_met_bins halfOpen Rat.sqrt quadFilled [1] [7] (by decide)
    refine ⟨r, h1, ?_⟩
    rw [h2]
    decide!⟩

theorem foldl_sliceStep_of_no_box (rt : RangeTest) (sqrt : ℚ → ℚ) (base : HistogramBase)
    (binning : HyperBinning) (point : HyperPoint) (dims : List Nat) (is : List Nat)
    (hnone : ∀ i ∈ is, (slicedVolume rt binning point dims i).size = 0) :
    ∀ acc : SliceAcc, is.foldl (sliceStep rt sqrt base binning point dims) acc = acc := by
  induction is with
  | nil => intro acc; rfl
  | cons i is ih =>
    intro acc
    have hz := hnone i (List.mem_cons_self _ _)
    have hstep : sliceStep rt sqrt base binning point dims acc i = acc := by
      unfold slicedVolume at hz
      simp [sliceStep, hz]
    rw [List.foldl_cons, hstep]
    exact ih (fun j hj => hnone j (List.mem_cons_of_mem _ hj)) acc

/-- C8 (the code at the failing input): whenever a valid slice request meets no bin
of a `HyperHistogram`, `slice` returns a histogram of dimension 0 with no bin:
the binning `temp` is built without a dimension and no region is added to it.
On the filled quadrant histogram (dimension 2) sliced at `x = 20` the result has
dimension 0, not `2 - 1`, while its name list has the one name `y`;
`HyperBinningHistogram::slice`, which builds `temp(nEndDims)`, returns dimension
1 on the same request. -/
theorem slice_without_surviving_bin_has_dimension_zero :
    (∀ (rt : RangeTest) (sqrt : ℚ → ℚ) (h : HyperHistogram) (dims : List Nat) (vals : List ℚ),
      SliceRequestValid h.binning dims vals →
      survivingBins rt h.base h.binning dims vals = [] →
      ∃ r, h.slice rt sqrt dims vals = some r ∧ r.getDimension = 0 ∧ r.base.getNBins = 0) ∧
    SliceRequestValid quadFilled.binning [0] [20] ∧
    survivingBins halfOpen quadFilled.base quadFilled.binning [0] [20] = [] ∧
    quadFilled.getDimension = 2 ∧
    (quadFilled.slice halfOpen Rat.sqrt [0] [20]).map HyperHistogram.getDimension = some 0 ∧
    (quadFilled.slice halfOpen Rat.sqrt [0] [20]).map (fun r => r.binning.names)
      = some ["y"] ∧
    (quadFilledOld.slice halfOpen Rat.sqrt [0] [20]).map HyperBinningHistogram.getDimension
      = some 1 := by
  refine ⟨?_, by decide, by decide!, by decide, by decide!, by decide!, by decide!⟩
  intro rt sqrt h dims vals hv hnone
  obtain ⟨pt, hpt, hvals⟩ := slice_request_point h.binning dims vals hv
  obtain ⟨ns, hns⟩ := sliceNames_isSome h.binning.getDimension dims h.binning.names
    hv.2.1 hv.2.2.1 hv.2.2.2
  rw [← nonEmptySliceBins_eq_surviving rt h.base h.binning pt dims vals hvals] at hnone
  have hz : ∀ i ∈ List.range h.base.getNBins,
      (slicedVolume rt h.binning pt dims i).size = 0 := by
    intro i hi
    have hall := List.filter_eq_nil_iff.mp hnone i hi
    simpa using hall
  have hloop : sliceLoop rt sqrt h.base h.binning pt dims HyperBinning.new
      = { temp := HyperBinning.new, binContents := [], binErrors := [] } :=
    foldl_sliceStep_of_no_box rt sqrt h.base h.binning pt dims _ hz _
  have hsl : h.slice rt sqrt dims vals = some
      { base :=
          { setSlicedContents (HistogramBase.new HyperBinning.new.getNumBins) [] [] with
            min := h.base.min, max := h.base.max }
        funcLimits := HyperBinning.new.getLimits
        binning := HyperBinning.new.setNames ns } := by
    simp only [HyperHistogram.slice, hpt, hns, hloop, HyperHistogram.ofBinning]
  exact ⟨_, hsl, rfl, rfl⟩

/-! ### The names of a sliced histogram -/

theorem take_succ_set {α : Type} (l : List α) (k : Nat) (v : α) (hk : k < l.length) :
    (l.set k v).take (k + 1) = l.take k ++ [v] := by
  induction l generalizing k with
  | nil => simp at hk
  | cons x xs ih =>
    cases k with
    | zero => simp
    | succ k =>
      have hk' : k < xs.length := by simpa using hk
      simp [ih k hk']

theorem sliceNames_fold_some (dims : List Nat) (names : List String) (m : Nat) (n : Nat) :
    ∀ st, (List.range n).foldlM (sliceNamesStep dims names) (List.replicate m "", 0) = some st →
      st.1.length = m ∧
      st.2 = ((List.range n).filter fun i => !dims.contains i).length ∧
      st.2 ≤ m ∧
      st.1.take st.2
        = ((List.range n).filter fun i => !dims.contains i).map fun i => names.getD i "" := by
  induction n with
  | zero =>
    intro st hst
    simp at hst
    subst hst
    simp
  | succ n ih =>
    intro st hst
    rw [List.range_succ, List.foldlM_append] at hst
    obtain ⟨st0, h0, hstep⟩ := Option.bind_eq_some.mp hst
    obtain ⟨hl, hc, hle, htake⟩ := ih st0 h0
    rw [List.range_succ, List.filter_append, List.length_append, List.map_append, ← hc, ← htake]
    by_cases hmem : n ∈ dims
    · have hfil : ([n].filter fun i => !dims.contains i) = [] := by
        simp [List.filter_cons, hmem]
      have hst' : st = st0 := by
        simp [sliceNamesStep, hmem] at hstep
        exact hstep.symm
      subst hst'
      rw [hfil]
      exact ⟨hl, rfl, hle, by simp⟩
    · have hfil : ([n].filter fun i => !dims.contains i) = [n] := by
        simp [List.filter_cons, hmem]
      rw [hfil]
      simp only [List.foldlM_cons, List.foldlM_nil, sliceNamesStep] at hstep
      have hcon : dims.contains n = false := by simpa using hmem
      simp only [hcon, Bool.false_eq_true, if_false, bind_pure] at hstep
      cases hget : names.get? n with
      | none => simp only [hget] at hstep; exact absurd hstep (by simp)
      | some name =>
        simp only [hget] at hstep
        by_cases hlt : st0.2 < st0.1.length
        · simp only [hlt, if_true, Option.some.injEq] at hstep
          subst hstep
          have hname : names.getD n "" = name := by
            simp only [List.get?_eq_getElem?] at hget
            simp [List.getD_eq_getElem?_getD, hget]
          refine ⟨by simpa using hl, rfl, by rw [← hl]; exact hlt, ?_⟩
          simp only [List.map_cons, List.map_nil, List.length_singleton, hname]
          exact take_succ_set st0.1 st0.2 name hlt
        · simp [hlt] at hstep

theorem length_remainingDims_ge (d : Nat) (dims : List Nat) :
    d - dims.length ≤ (remainingDims d dims).length := by
  have hsplit := List.length_eq_length_filter_add (l := List.range d)
    (fun i => dims.contains i)
  have hsub : ((List.range d).filter fun i => dims.contains i).length ≤ dims.length := by
    apply List.Subperm.length_le
    apply List.subperm_of_subset ((List.nodup_range d).filter _)
    intro a ha
    rw [List.mem_filter] at ha
    simpa using ha.2
  rw [List.length_range] at hsplit
  unfold remainingDims
  omega

theorem mem_remainingDims (d : Nat) (dims : List Nat) (i : Nat) :
    i ∈ remainingDims d dims ↔ i < d ∧ i ∉ dims := by
  simp [remainingDims, List.mem_filter, List.mem_range]

theorem pairwise_remainingDims (d : Nat) (dims : List Nat) :
    List.Pairwise (· < ·) (remainingDims d dims) :=
  (List.pairwise_lt_range _).sublist (List.filter_sublist _)

theorem sliceNames_eq (d : Nat) (dims : List Nat) (names ns : List String)
    (h : sliceNames d dims names = some ns) :
    ns = (remainingDims d dims).map fun i => names.getD i "" := by
  unfold sliceNames at h
  split at h
  · exact absurd h (by simp)
  · obtain ⟨st, hst, hfst⟩ := Option.map_eq_some'.mp h
    obtain ⟨hl, hc, hle, htake⟩ := sliceNames_fold_some dims names _ d st hst
    have hge := length_remainingDims_ge d dims
    unfold remainingDims at hge ⊢
    have hfull : st.2 = st.1.length := by rw [hl]; omega
    rw [hfull, List.take_length] at htake
    rw [← hfst, htake]

/-- C11: for a slice request the code serves without an out-of-range access, `slice`
returns a histogram whose names are the names `n_i` of the original binning at
the dimensions `i < d` that are not in the list of fixed dimensions, in
increasing order of `i`; and whenever `slice` returns a histogram at all, its
names are that list.  This holds for `HyperHistogram` and for
`HyperBinningHistogram`. -/
theorem slice_names_drop_fixed_dimensions (rt : RangeTest) (sqrt : ℚ → ℚ)
    (h : HyperHistogram) (g : HyperBinningHistogram) (dims : List Nat) (vals : List ℚ)
    (hv : SliceRequestValid h.binning dims vals)
    (hw : SliceRequestValid g.binning dims vals) :
    (∃ r, h.slice rt sqrt dims vals = some r ∧
      r.binning.names = (remainingDims h.binning.getDimension dims).map
        fun i => h.binning.names.getD i "") ∧
    (∃ r, g.slice rt sqrt dims vals = some r ∧
      r.binning.names = (remainingDims g.binning.getDimension dims).map
        fun i => g.binning.names.getD i "") ∧
    (∀ r, h.slice rt sqrt dims vals = some r →
      r.binning.names = (remainingDims h.binning.getDimension dims).map
        fun i => h.binning.names.getD i "") ∧
    (∀ r, g.slice rt sqrt dims vals = some r →
      r.binning.names = (remainingDims g.binning.getDimension dims).map
        fun i => g.binning.names.getD i "") ∧
    (∀ d i, i ∈ remainingDims d dims ↔ i < d ∧ i ∉ dims) ∧
    (∀ d, List.Pairwise (· < ·) (remainingDims d dims)) := by
  have hall : ∀ r, h.slice rt sqrt dims vals = some r →
      r.binning.names = (remainingDims h.binning.getDimension dims).map
        fun i => h.binning.names.getD i "" := by
    intro r hr
    unfold HyperHistogram.slice at hr
    simp only at hr
    split at hr
    · exact absurd hr (by simp)
    · split at hr
      · exact absurd hr (by simp)
      · rename_i ns hns
        simp only [Option.some.injEq] at hr
        subst hr
        exact sliceNames_eq _ _ _ _ hns
  have gall : ∀ r, g.slice rt sqrt dims vals = some r →
      r.binning.names = (remainingDims g.binning.getDimension dims).map
        fun i => g.binning.names.getD i "" := by
    intro r hr
    unfold HyperBinningHistogram.slice at hr
    simp only at hr
    split at hr
    · exact absurd hr (by simp)
    · split at hr
      · exact absurd hr (by simp)
      · rename_i ns hns
        simp only [Option.some.injEq] at hr
        subst hr
        exact sliceNames_eq _ _ _ _ hns
  refine ⟨?_, ?_, hall, gall, fun d i => mem_remainingDims d dims i,
    fun d => pairwise_remainingDims d dims⟩
  · obtain ⟨pt, hpt, _⟩ := slice_request_point h.binning dims vals hv
    obtain ⟨ns, hns⟩ := sliceNames_isSome h.binning.getDimension dims h.binning.names
      hv.2.1 hv.2.2.1 hv.2.2.2
    have hsome : ∃ r, h.slice rt sqrt dims vals = some r := by
      simp only [HyperHistogram.slice, hpt, hns]
      exact ⟨_, rfl⟩
    obtain ⟨r, hr⟩ := hsome
    exact ⟨r, hr, hall r hr⟩
  · obtain ⟨pt, hpt, _⟩ := slice_request_point g.binning dims vals hw
    obtain ⟨ns, hns⟩ := sliceNames_isSome g.binning.getDimension dims g.binning.names
      hw.2.1 hw.2.2.1 hw.2.2.2
    have hsome : ∃ r, g.slice rt sqrt dims vals = some r := by
      simp only [HyperBinningHistogram.slice, hpt, hns]
      exact ⟨_, rfl⟩
    obtain ⟨r, hr⟩ := hsome
    exact ⟨r, hr, gall r hr⟩

/-- Witness for C11: the filled quadrant histograms, with names `x` and `y`, sliced
at `x = 1`: the sliced histogram has the one name `y`. -/
theorem slice_names_drop_fixed_dimensions_witness :
    SliceRequestValid quadFilled.binning [0] [1] ∧
    SliceRequestValid quadFilledOld.binning [0] [1] ∧
    (∃ r, quadFilled.slice halfOpen Rat.sqrt [0] [1] = some r ∧ r.binning.names = ["y"]) :=
  ⟨by decide, by decide,
   by
    obtain ⟨r, h1, h2⟩ :=
      (slice_names_drop_fixed_dimensions halfOpen Rat.sqrt quadFilled quadFilledOld [0] [1]
        (by decide) (by decide)).1
    refine ⟨r, h1, ?_⟩
    rw [h2]
    decide⟩

/-! ### Contents from a function -/

theorem foldl_setBins (c e : Nat → ℚ) (n : Nat) (base : HistogramBase) :
    ((List.range n).foldl (fun b i => (b.setBinContent i (c i)).setBinError i (e i)) base).nBins
        = base.nBins ∧
    ((List.range n).foldl (fun b i => (b.setBinContent i (c i)).setBinError i (e i)) base).min
        = base.min ∧
    ((List.range n).foldl (fun b i => (b.setBinContent i (c i)).setBinError i (e i)) base).max
        = base.max ∧
    ((List.range n).foldl
      (fun b i => (b.setBinContent i (c i)).setBinError i (e i)) base).binContents.length
        = base.binContents.length ∧
    ((List.range n).foldl
      (fun b i => (b.setBinContent i (c i)).setBinError i (e i)) base).sumW2.length
        = base.sumW2.length ∧
    (∀ j, ((List.range n).foldl
      (fun b i => (b.setBinContent i (c i)).setBinError i (e i)) base).binContents.getD j 0
        = if j < n ∧ j < base.binContents.length then c j else base.binContents.getD j 0) ∧
    (∀ j, ((List.range n).foldl
      (fun b i => (b.setBinContent i (c i)).setBinError i (e i)) base).sumW2.getD j 0
        = if j < n ∧ j < base.sumW2.length then e j * e j else base.sumW2.getD j 0) := by
  induction n with
  | zero => simp
  | succ n ih =>
    rw [List.range_succ, List.foldl_append]
    simp only [List.foldl_cons, List.foldl_nil]
    revert ih
    generalize (List.range n).foldl
      (fun b i => (b.setBinContent i (c i)).setBinError i (e i)) base = b
    intro ih
    obtain ⟨h1, h2, h3, h4, h5, h6, h7⟩ := ih
    simp only [HistogramBase.setBinContent, HistogramBase.setBinError, List.length_set]
    refine ⟨h1, h2, h3, h4, h5, ?_, ?_⟩
    · intro j
      rw [getD_set, h6 j, h4]
      by_cases hjn : j = n
      · subst hjn
        by_cases hl : j < base.binContents.length
        · simp [hl]
        · simp [hl]
      · by_cases hlt : j < n
        · have : j < n + 1 := Nat.lt_succ_of_lt hlt
          simp [hjn, hlt, this]
        · have : ¬ j < n + 1 := by omega
          simp [hjn, hlt, this]
    · intro j
      rw [getD_set, h7 j, h5]
      by_cases hjn : j = n
      · subst hjn
        by_cases hl : j < base.sumW2.length
        · simp [hl]
        · simp [hl]
      · by_cases hlt : j < n
        · have : j < n + 1 := Nat.lt_succ_of_lt hlt
          simp [hjn, hlt, this]
        · have : ¬ j < n + 1 := by omega
          simp [hjn, hlt, this]

theorem sqrt_zero_of_isSqrt (sqrt : ℚ → ℚ) (hs : IsSqrt sqrt) : sqrt 0 = 0 := by
  have := hs.2 0 (le_refl 0)
  simpa using this

theorem setContents_spec (base : HistogramBase) (c : Nat → ℚ) (hb : base.WellSized) :
    ((List.range base.getNBins).foldl
      (fun b i => (b.setBinContent i (c i)).setBinError i 0) base).nBins = base.nBins ∧
    ((List.range base.getNBins).foldl
      (fun b i => (b.setBinContent i (c i)).setBinError i 0) base).WellSized ∧
    (∀ i, i < base.nBins →
      ((List.range base.getNBins).foldl
        (fun b i => (b.setBinContent i (c i)).setBinError i 0) base).getBinContent i = c i ∧
      ((List.range base.getNBins).foldl
        (fun b i => (b.setBinContent i (c i)).setBinError i 0) base).getSumW2 i = 0) ∧
    ((List.range base.getNBins).foldl
      (fun b i => (b.setBinContent i (c i)).setBinError i 0) base).getBinContent base.nBins
        = base.getBinContent base.nBins ∧
    ((List.range base.getNBins).foldl
      (fun b i => (b.setBinContent i (c i)).setBinError i 0) base).getSumW2 base.nBins
        = base.getSumW2 base.nBins := by
  obtain ⟨h1, _, _, h4, h5, h6, h7⟩ := foldl_setBins c (fun _ => 0) base.getNBins base
  have hn : base.getNBins = base.nBins := rfl
  refine ⟨h1, ⟨by rw [h4, h1]; exact hb.1, by rw [h5, h1]; exact hb.2⟩, ?_, ?_, ?_⟩
  · intro i hi
    unfold HistogramBase.getBinContent HistogramBase.getSumW2
    rw [h6 i, h7 i, hn, hb.1, hb.2]
    have : i < base.nBins + 1 := Nat.lt_succ_of_lt hi
    simp [hi, this]
  · unfold HistogramBase.getBinContent
    rw [h6, hn]
    simp
  · unfold HistogramBase.getSumW2
    rw [h7, hn]
    simp

/-- C12: for a histogram whose store holds a slot for every bin, after
`setContentsFromFunc(f)` every bin `i < nBins` has content `f` evaluated at the
volume-weighted average centre of the region of bin `i`, and error 0; the
binning, the bin count, the function limits and the overflow slot are
unchanged.  This holds for `HyperHistogram` and for `HyperBinningHistogram`. -/
theorem setContentsFromFunc_sets_bins (sqrt : ℚ → ℚ) (h : HyperHistogram)
    (g : HyperBinningHistogram) (f : HyperPoint → ℚ) (hs : IsSqrt sqrt)
    (hh : h.base.WellSized) (hg : g.base.WellSized) :
    ((∀ i, i < h.base.getNBins →
        (h.setContentsFromFunc f).base.getBinContent i
          = f (h.binning.getBinHyperVolume i).getAverageCenter ∧
        (h.setContentsFromFunc f).base.getBinError sqrt i = 0) ∧
      (h.setContentsFromFunc f).binning = h.binning ∧
      (h.setContentsFromFunc f).base.getNBins = h.base.getNBins ∧
      (h.setContentsFromFunc f).funcLimits = h.funcLimits ∧
      (h.setContentsFromFunc f).base.getBinContent h.base.getNBins
        = h.base.getBinContent h.base.getNBins ∧
      (h.setContentsFromFunc f).base.WellSized) ∧
    ((∀ i, i < g.base.getNBins →
        (g.setContentsFromFunc f).base.getBinContent i
          = f (g.binning.getBinHyperVolume i).getAverageCenter ∧
        (g.setContentsFromFunc f).base.getBinError sqrt i = 0) ∧
      (g.setContentsFromFunc f).binning = g.binning ∧
      (g.setContentsFromFunc f).base.getNBins = g.base.getNBins ∧
      (g.setContentsFromFunc f).funcLimits = g.funcLimits ∧
      (g.setContentsFromFunc f).base.getBinContent g.base.getNBins
        = g.base.getBinContent g.base.getNBins ∧
      (g.setContentsFromFunc f).base.WellSized) := by
  obtain ⟨a1, a2, a3, a4, _⟩ := setContents_spec h.base
    (fun i => f (h.binning.getBinHyperVolume i).getAverageCenter) hh
  obtain ⟨b1, b2, b3, b4, _⟩ := setContents_spec g.base
    (fun i => f (g.binning.getBinHyperVolume i).getAverageCenter) hg
  refine ⟨⟨?_, rfl, a1, rfl, a4, a2⟩, ⟨?_, rfl, b1, rfl, b4, b2⟩⟩
  · intro i hi
    refine ⟨(a3 i hi).1, ?_⟩
    have e := (a3 i hi).2
    unfold HistogramBase.getSumW2 at e
    unfold HistogramBase.getBinError
    show sqrt (List.getD _ i 0) = 0
    rw [HyperHistogram.setContentsFromFunc]
    simp only
    rw [e]
    exact sqrt_zero_of_isSqrt sqrt hs
  · intro i hi
    refine ⟨(b3 i hi).1, ?_⟩
    have e := (b3 i hi).2
    unfold HistogramBase.getSumW2 at e
    unfold HistogramBase.getBinError
    show sqrt (List.getD _ i 0) = 0
    rw [HyperBinningHistogram.setContentsFromFunc]
    simp only
    rw [e]
    exact sqrt_zero_of_isSqrt sqrt hs

/-- Witness for C12: the filled quadrant histograms with the function that adds the
two coordinates: bin 0, the quadrant `[0,5] x [0,5]` with centre
`(5/2, 5/2)`, gets content 5. -/
theorem setContentsFromFunc_sets_bins_witness :
    IsSqrt Rat.sqrt ∧ quadFilled.base.WellSized ∧ quadFilledOld.base.WellSized ∧
    (quadFilled.setContentsFromFunc fun p => p.coords.sum).base.getBinContent 0
      = (quadFilled.binning.getBinHyperVolume 0).getAverageCenter.coords.sum ∧
    (quadFilled.binning.getBinHyperVolume 0).getAverageCenter.coords = [5 / 2, 5 / 2] :=
  ⟨IsSqrt_ratSqrt, by decide!, by decide!,
   ((setContentsFromFunc_sets_bins Rat.sqrt quadFilled quadFilledOld
      (fun p => p.coords.sum) IsSqrt_ratSqrt (by decide!) (by decide!)).1.1 0
        (by decide!)).1,
   by decide!⟩

/-! ### The fill with the weight of the point -/

/-- C18: for a point `p` whose weights are `w0` followed by any further weights, the
one-argument `fill(p)` gives the same histogram and the same bin number as
`fill(p, w0)`; a point with the same coordinates and first weight `w0` but
other further weights gives the same result.  This holds for `HyperHistogram`
and for `HyperBinningHistogram`. -/
theorem fill_uses_first_weight (rt : RangeTest) (h : HyperHistogram)
    (g : HyperBinningHistogram) (p q : HyperPoint) (w0 : ℚ) (ws vs : List ℚ)
    (hp : p.weights = w0 :: ws) (hq : q.weights = w0 :: vs) (hc : q.coords = p.coords) :
    h.fillPoint rt p = h.fill rt p w0 ∧ g.fillPoint rt p = g.fill rt p w0 ∧
    h.fillPoint rt q = h.fillPoint rt p ∧ g.fillPoint rt q = g.fillPoint rt p := by
  have hwp : p.getWeight 0 = w0 := by simp [HyperPoint.getWeight, hp]
  have hwq : q.getWeight 0 = w0 := by simp [HyperPoint.getWeight, hq]
  have hb : ∀ b : HyperBinning, b.getBinNum rt q = b.getBinNum rt p := by
    intro b
    simp only [HyperBinning.getBinNum, hc]
  refine ⟨?_, ?_, ?_, ?_⟩
  · simp only [HyperHistogram.fillPoint, HyperHistogram.fill, hwp]
  · simp only [HyperBinningHistogram.fillPoint, HyperBinningHistogram.fill, hwp]
  · simp only [HyperHistogram.fillPoint, hwp, hwq, hb]
  · simp only [HyperBinningHistogram.fillPoint, hwp, hwq, hb]

/-- Witness for C18: the point `(1,1)` with weights `2, 9` is filled like `(1,1)` with
the explicit weight 2, and like `(1,1)` with weights `2, 4, 4`. -/
theorem fill_uses_first_weight_witness :
    ((HyperHistogram.ofBinning quadBinning).fillPoint halfOpen
        { coords := [1, 1], weights := [2, 9] }).1.base.binContents = [2, 0, 0, 0, 0] ∧
    (HyperHistogram.ofBinning quadBinning).fillPoint halfOpen
        { coords := [1, 1], weights := [2, 9] }
      = (HyperHistogram.ofBinning quadBinning).fill halfOpen
        { coords := [1, 1], weights := [2, 9] } 2 ∧
    (HyperHistogram.ofBinning quadBinning).fillPoint halfOpen
        { coords := [1, 1], weights := [2, 4, 4] }
      = (HyperHistogram.ofBinning quadBinning).fillPoint halfOpen
        { coords := [1, 1], weights := [2, 9] } :=
  ⟨by decide!,
   (fill_uses_first_weight halfOpen (HyperHistogram.ofBinning quadBinning)
      (HyperBinningHistogram.ofBinning quadBinning)
      { coords := [1, 1], weights := [2, 9] } { coords := [1, 1], weights := [2, 4, 4] }
      2 [9] [4, 4] rfl rfl rfl).1,
   (fill_uses_first_weight halfOpen (HyperHistogram.ofBinning quadBinning)
      (HyperBinningHistogram.ofBinning quadBinning)
      { coords := [1, 1], weights := [2, 9] } { coords := [1, 1], weights := [2, 4, 4] }
      2 [9] [4, 4] rfl rfl rfl).2.2.1⟩


/-! ## Merging bins with the same content -/

theorem mergeBinsLoop_succ (rt : RangeTest) (fuel : Nat) (h : HyperHistogram) :
    mergeBinsLoop rt (fuel + 1) h
      = if (mergePass rt h).1.binning.getNumBins < h.binning.getNumBins then
          (mergeBinsLoop rt fuel (mergePass rt h).1).map
            fun r => (r.1, (mergePass rt h).2 ++ r.2)
        else some (mergePass rt h) := by
  rw [mergeBinsLoop]
  cases mergeBinsLoop rt fuel (mergePass rt h).1 <;> rfl

theorem mergeBinsLoop_isSome (rt : RangeTest) :
    ∀ (fuel : Nat) (h : HyperHistogram), h.binning.getNumBins < fuel →
      ∃ r, mergeBinsLoop rt fuel h = some r := by
  intro fuel
  induction fuel with
  | zero => intro h hlt; exact absurd hlt (Nat.not_lt_zero _)
  | succ fuel ih =>
    intro h hlt
    rw [mergeBinsLoop_succ]
    by_cases hc : (mergePass rt h).1.binning.getNumBins < h.binning.getNumBins
    · obtain ⟨r, hr⟩ := ih (mergePass rt h).1 (by omega)
      exact ⟨_, by rw [if_pos hc, hr]; rfl⟩
    · exact ⟨_, by rw [if_neg hc]⟩

theorem mergeBinsLoop_fuel_irrelevant (rt : RangeTest) :
    ∀ (fuel : Nat) (h : HyperHistogram) (r : HyperHistogram × List String),
      mergeBinsLoop rt fuel h = some r →
      ∀ more, fuel ≤ more → mergeBinsLoop rt more h = some r := by
  intro fuel
  induction fuel with
  | zero => intro h r hr; simp [mergeBinsLoop] at hr
  | succ fuel ih =>
    intro h r hr more hle
    obtain ⟨m, rfl⟩ : ∃ m, more = m + 1 := ⟨more - 1, by omega⟩
    rw [mergeBinsLoop_succ] at hr ⊢
    by_cases hc : (mergePass rt h).1.binning.getNumBins < h.binning.getNumBins
    · rw [if_pos hc] at hr ⊢
      cases hq : mergeBinsLoop rt fuel (mergePass rt h).1 with
      | none => rw [hq] at hr; simp at hr
      | some q =>
        rw [hq] at hr
        rw [ih _ q hq m (by omega)]
        exact hr
    · rw [if_neg hc] at hr ⊢
      exact hr

theorem mergeBins_eq_loop (rt : RangeTest) (h : HyperHistogram) (fuel : Nat)
    (hf : h.binning.getNumBins < fuel) :
    mergeBinsLoop rt fuel h = some (h.mergeBinsWithSameContent rt "HyperBinning") := by
  obtain ⟨r, hr⟩ := mergeBinsLoop_isSome rt (h.binning.getNumBins + 1) h (Nat.lt_succ_self _)
  have h1 : h.mergeBinsWithSameContent rt "HyperBinning" = r := by
    simp only [HyperHistogram.mergeBinsWithSameContent, hr, ne_eq, not_true_eq_false,
      if_false]
  rw [h1]
  exact mergeBinsLoop_fuel_irrelevant rt _ h r hr fuel hf


theorem foldl_markStep_nil (h : HyperHistogram) :
    ∀ l : List Nat, (∀ i ∈ l, markStep h [] i = []) → l.foldl (markStep h) [] = [] := by
  intro l
  induction l with
  | nil => intro _; rfl
  | cons x xs ih =>
    intro hl
    rw [List.foldl_cons, hl x (List.mem_cons_self _ _)]
    exact ih fun i hi => hl i (List.mem_cons_of_mem _ hi)

theorem removedVolumes_of_nothingToMerge (h : HyperHistogram) (hN : h.NothingToMerge) :
    removedVolumes h = [] := by
  unfold removedVolumes
  apply foldl_markStep_nil
  intro i hi
  have h3 := hN i hi
  simp only [markStep]
  split_ifs with h0 h1 h2
  · rfl
  · rfl
  · rfl
  · exact absurd (h3 h0 (by simpa using h1)) h2

theorem foldl_renumberStep_nil (n : Nat) :
    (List.range n).foldl (renumberStep []) { table := [], newVolNum := 0 }
      = { table := (List.range n).map Int.ofNat, newVolNum := n } := by
  induction n with
  | zero => rfl
  | succ n ih =>
    rw [List.range_succ, List.foldl_append, ih]
    simp [renumberStep]

theorem oldToNewTable_nil (n : Nat) :
    oldToNewTable n [] = (List.range n).map Int.ofNat := by
  unfold oldToNewTable
  rw [foldl_renumberStep_nil]

theorem oldToNewVolumeNum_id_ne (n : Nat) (v : Int) :
    oldToNewVolumeNum ((List.range n).map Int.ofNat) v ≠ -1 := by
  unfold oldToNewVolumeNum
  split_ifs with h0
  · decide
  · rw [List.getD_eq_getElem?_getD, List.getElem?_map]
    by_cases hlt : v.toNat < n
    · rw [List.getElem?_range hlt]
      simp only [Option.map_some', Option.getD_some, Int.ofNat_eq_coe]
      omega
    · rw [List.getElem?_eq_none (by simpa using hlt)]
      simp

theorem oldToNewVolumeNum_id (n : Nat) (v : Int) (h0 : 0 ≤ v) (hn : v < (n : Int)) :
    oldToNewVolumeNum ((List.range n).map Int.ofNat) v = v := by
  unfold oldToNewVolumeNum
  have hlt : v.toNat < n := by omega
  rw [if_neg (not_lt.mpr h0), List.getD_eq_getElem?_getD, List.getElem?_map,
    List.getElem?_range hlt]
  simp only [Option.map_some', Option.getD_some, Int.ofNat_eq_coe]
  omega


theorem rebuildStep_keep (b : HyperBinning) (table : List Int)
    (hT : ∀ v, oldToNewVolumeNum table v ≠ -1) (acc : RebuildAcc) (i : Nat) :
    (rebuildStep b table acc i).binningNew
      = acc.binningNew.addHyperVolume (b.getHyperVolume i)
          ((b.getLinkedHyperVolumes i).map (oldToNewVolumeNum table)) := by
  have hf : ((b.getLinkedHyperVolumes i).map (oldToNewVolumeNum table)).filter
      (fun newLinkVolNum => decide (newLinkVolNum ≠ -1))
      = (b.getLinkedHyperVolumes i).map (oldToNewVolumeNum table) := by
    rw [List.filter_eq_self]
    intro a ha
    obtain ⟨v, _, rfl⟩ := List.mem_map.mp ha
    simpa using hT v
  simp only [rebuildStep, if_neg (hT _), hf]

theorem foldl_rebuildStep_keep (b : HyperBinning) (table : List Int)
    (hT : ∀ v, oldToNewVolumeNum table v ≠ -1) :
    ∀ (l : List Nat) (acc : RebuildAcc),
      (l.foldl (rebuildStep b table) acc).binningNew.nodes
        = acc.binningNew.nodes ++ l.map (fun i =>
            ({ volume := b.getHyperVolume (i : Nat)
               links := (b.getLinkedHyperVolumes (i : Nat)).map (oldToNewVolumeNum table) }
              : BinNode)) ∧
      (l.foldl (rebuildStep b table) acc).binningNew.primaryVolumeNumbers
        = acc.binningNew.primaryVolumeNumbers := by
  intro l
  induction l with
  | nil => intro acc; simp
  | cons x xs ih =>
    intro acc
    rw [List.foldl_cons]
    obtain ⟨h1, h2⟩ := ih (rebuildStep b table acc x)
    rw [h1, h2, rebuildStep_keep b table hT]
    simp [HyperBinning.addHyperVolume]

theorem foldl_addPrimary (f : Int → Int) :
    ∀ (l : List Int) (bn : HyperBinning),
      (l.foldl (fun bn oldVolNum => bn.addPrimaryVolumeNumber (f oldVolNum)) bn).nodes
        = bn.nodes ∧
      (l.foldl (fun bn oldVolNum => bn.addPrimaryVolumeNumber (f oldVolNum))
        bn).primaryVolumeNumbers = bn.primaryVolumeNumbers ++ l.map f := by
  intro l
  induction l with
  | nil => intro bn; simp
  | cons x xs ih =>
    intro bn
    rw [List.foldl_cons]
    obtain ⟨h1, h2⟩ := ih (bn.addPrimaryVolumeNumber (f x))
    rw [h1, h2]
    simp [HyperBinning.addPrimaryVolumeNumber]

theorem map_range_nodes (b : HyperBinning) (g : HyperVolume → List Int → BinNode) :
    (List.range b.getNumHyperVolumes).map
        (fun i => g (b.getHyperVolume (i : Nat)) (b.getLinkedHyperVolumes (i : Nat)))
      = b.nodes.map fun nd => g nd.volume nd.links := by
  apply List.ext_getElem
  · simp [HyperBinning.getNumHyperVolumes]
  · intro k h1 h2
    have hk : k < b.nodes.length := by simpa using h2
    have h0 : ¬ ((k : Int) < 0) := by omega
    simp [HyperBinning.getHyperVolume, HyperBinning.getLinkedHyperVolumes,
      HyperBinning.getNode, List.getElem?_eq_getElem hk, h0]

theorem rebuildBinning_keep (b : HyperBinning) (table : List Int)
    (hT : ∀ v, oldToNewVolumeNum table v ≠ -1) :
    (rebuildBinning b table).1.nodes
      = b.nodes.map (fun nd =>
          ({ volume := nd.volume, links := nd.links.map (oldToNewVolumeNum table) } : BinNode)) ∧
    (rebuildBinning b table).1.primaryVolumeNumbers
      = b.primaryVolumeNumbers.map (oldToNewVolumeNum table) := by
  unfold rebuildBinning
  obtain ⟨h1, h2⟩ := foldl_rebuildStep_keep b table hT (List.range b.getNumHyperVolumes)
    { binningNew := HyperBinning.new, count := 0, log := [] }
  obtain ⟨h3, h4⟩ := foldl_addPrimary (oldToNewVolumeNum table) b.primaryVolumeNumbers
    ((List.range b.getNumHyperVolumes).foldl (rebuildStep b table)
      { binningNew := HyperBinning.new, count := 0, log := [] }).binningNew
  refine ⟨?_, ?_⟩
  · simp only [h3, h1]
    rw [map_range_nodes b fun vol links =>
      { volume := vol, links := links.map (oldToNewVolumeNum table) }]
    simp [HyperBinning.new]
  · simp only [h4, h2]
    simp [HyperBinning.new]


theorem HyperHistogram.setContentsFromFunc_core (h : HyperHistogram) (f : HyperPoint → ℚ)
    (hh : h.base.WellSized) :
    (h.setContentsFromFunc f).binning = h.binning ∧
    (h.setContentsFromFunc f).base.nBins = h.base.nBins ∧
    (h.setContentsFromFunc f).base.WellSized ∧
    ∀ i, i < h.base.nBins →
      (h.setContentsFromFunc f).base.getBinContent i
        = f (h.binning.getBinHyperVolume i).getAverageCenter ∧
      (h.setContentsFromFunc f).base.getSumW2 i = 0 := by
  obtain ⟨a1, a2, a3, _⟩ := setContents_spec h.base
    (fun i => f (h.binning.getBinHyperVolume i).getAverageCenter) hh
  exact ⟨rfl, a1, a2, a3⟩

theorem HistogramBase.new_wellSized (n : Nat) : (HistogramBase.new n).WellSized := by
  simp [HistogramBase.new, HistogramBase.WellSized]

theorem HyperHistogram.ofBinning_wellFormed (b : HyperBinning) :
    (HyperHistogram.ofBinning b).WellFormed :=
  ⟨HistogramBase.new_wellSized _, rfl⟩

theorem mergePass_binning (rt : RangeTest) (h : HyperHistogram) :
    (mergePass rt h).1.binning
      = (rebuildBinning h.binning
          (oldToNewTable h.binning.getNumHyperVolumes (removedVolumes h))).1 := rfl

theorem mergePass_spec (rt : RangeTest) (h : HyperHistogram) :
    (mergePass rt h).1.WellFormed ∧
    ∀ i, i < (mergePass rt h).1.base.nBins →
      (mergePass rt h).1.base.getBinContent i
        = h.getVal rt ((mergePass rt h).1.binning.getBinHyperVolume i).getAverageCenter ∧
      (mergePass rt h).1.base.getSumW2 i = 0 := by
  obtain ⟨a1, a2, a3, a4⟩ := HyperHistogram.setContentsFromFunc_core
    (HyperHistogram.ofBinning (rebuildBinning h.binning
      (oldToNewTable h.binning.getNumHyperVolumes (removedVolumes h))).1)
    (h.getVal rt) (HistogramBase.new_wellSized _)
  refine ⟨⟨a3, ?_⟩, ?_⟩
  · show (HyperHistogram.setContentsFromFunc _ _).base.nBins = _
    rw [a2]
    rfl
  · intro i hi
    exact a4 i (by
      have e : (mergePass rt h).1.base.nBins = _ := a2
      rw [e] at hi
      exact hi)

theorem relinked_countP_isLeaf (f : Int → Int) (l : List BinNode) :
    (l.map fun nd => ({ volume := nd.volume, links := nd.links.map f } : BinNode)).countP
      BinNode.isLeaf = l.countP BinNode.isLeaf := by
  induction l with
  | nil => rfl
  | cons x xs ih =>
    rw [List.map_cons, List.countP_cons, List.countP_cons, ih]
    cases hx : x.links <;> simp [BinNode.isLeaf, hx]

theorem relinked_binVolumes (f : Int → Int) (l : List BinNode) :
    ((l.map fun nd => ({ volume := nd.volume, links := nd.links.map f } : BinNode)).filter
      BinNode.isLeaf).map BinNode.volume = (l.filter BinNode.isLeaf).map BinNode.volume := by
  induction l with
  | nil => rfl
  | cons x xs ih =>
    cases hx : x.links <;> simp [List.filter_cons, BinNode.isLeaf, hx, ih]

theorem HyperBinning.getBinHyperVolume_congr (a b : HyperBinning)
    (hv : a.binVolumes = b.binVolumes) (i : Nat) (hi : i < b.getNumBins) :
    a.getBinHyperVolume i = b.getBinHyperVolume i := by
  unfold HyperBinning.getBinHyperVolume
  rw [hv]
  exact getD_of_lt _ _ _ _ (by rw [HyperBinning.length_binVolumes]; exact hi)

theorem mergePass_of_nothingToMerge (rt : RangeTest) (h : HyperHistogram)
    (hN : h.NothingToMerge) :
    (mergePass rt h).1.binning.nodes
      = h.binning.nodes.map (fun nd =>
          ({ volume := nd.volume
             links := nd.links.map (oldToNewVolumeNum
               ((List.range h.binning.getNumHyperVolumes).map Int.ofNat)) } : BinNode)) ∧
    (mergePass rt h).1.binning.primaryVolumeNumbers
      = h.binning.primaryVolumeNumbers.map (oldToNewVolumeNum
          ((List.range h.binning.getNumHyperVolumes).map Int.ofNat)) ∧
    (mergePass rt h).1.binning.getNumBins = h.binning.getNumBins ∧
    (mergePass rt h).1.binning.binVolumes = h.binning.binVolumes := by
  have hT := oldToNewVolumeNum_id_ne h.binning.getNumHyperVolumes
  have hb := rebuildBinning_keep h.binning _ hT
  rw [mergePass_binning, removedVolumes_of_nothingToMerge h hN, oldToNewTable_nil]
  refine ⟨hb.1, hb.2, ?_, ?_⟩
  · unfold HyperBinning.getNumBins
    rw [hb.1]
    exact relinked_countP_isLeaf _ _
  · unfold HyperBinning.binVolumes
    rw [hb.1]
    exact relinked_binVolumes _ _


theorem mergePass_fixed_contents (rt : RangeTest) (h : HyperHistogram) (hw : h.WellFormed)
    (hN : h.NothingToMerge) (hC : h.CentresOwn rt) :
    (mergePass rt h).1.base.nBins = h.base.nBins ∧
    (∀ i, i < h.base.nBins →
      (mergePass rt h).1.base.getBinContent i = h.base.getBinContent i ∧
      (mergePass rt h).1.base.getSumW2 i = 0) ∧
    (mergePass rt h).1.base.binContentsList = h.base.binContentsList := by
  obtain ⟨_, _, hn, hv⟩ := mergePass_of_nothingToMerge rt h hN
  obtain ⟨hwf, hc⟩ := mergePass_spec rt h
  have hnb : (mergePass rt h).1.base.nBins = h.base.nBins := by rw [hwf.2, hn, hw.2]
  have hcont : ∀ i, i < h.base.nBins →
      (mergePass rt h).1.base.getBinContent i = h.base.getBinContent i ∧
      (mergePass rt h).1.base.getSumW2 i = 0 := by
    intro i hi
    obtain ⟨c1, c2⟩ := hc i (by rw [hnb]; exact hi)
    refine ⟨?_, c2⟩
    rw [c1, HyperBinning.getBinHyperVolume_congr _ _ hv i (by rw [← hw.2]; exact hi)]
    unfold HyperHistogram.getVal
    simp only
    rw [hC i (List.mem_range.mpr hi)]
  refine ⟨hnb, hcont, ?_⟩
  unfold HistogramBase.binContentsList
  rw [hnb]
  exact List.map_congr_left fun i hi => (hcont i (List.mem_range.mp hi)).1

theorem mergePass_fixed_graph (rt : RangeTest) (h : HyperHistogram)
    (hN : h.NothingToMerge) (hR : h.binning.IndicesInRange) :
    (mergePass rt h).1.binning.nodes = h.binning.nodes ∧
    (mergePass rt h).1.binning.primaryVolumeNumbers = h.binning.primaryVolumeNumbers := by
  obtain ⟨h1, h2, _, _⟩ := mergePass_of_nothingToMerge rt h hN
  refine ⟨?_, ?_⟩
  · rw [h1]
    conv_rhs => rw [← List.map_id h.binning.nodes]
    apply List.map_congr_left
    intro nd hnd
    have hl : nd.links.map (oldToNewVolumeNum
        ((List.range h.binning.getNumHyperVolumes).map Int.ofNat)) = nd.links := by
      conv_rhs => rw [← List.map_id nd.links]
      apply List.map_congr_left
      intro v hv
      exact oldToNewVolumeNum_id _ v (hR.1 nd hnd v hv).1 (hR.1 nd hnd v hv).2
    rw [hl]
    rfl
  · rw [h2]
    conv_rhs => rw [← List.map_id h.binning.primaryVolumeNumbers]
    apply List.map_congr_left
    intro v hv
    exact oldToNewVolumeNum_id _ v (hR.2 v hv).1 (hR.2 v hv).2

theorem mergeBins_of_nothingToMerge (rt : RangeTest) (h : HyperHistogram)
    (hN : h.NothingToMerge) :
    h.mergeBinsWithSameContent rt "HyperBinning" = mergePass rt h := by
  have e := mergeBins_eq_loop rt h (h.binning.getNumBins + 1) (Nat.lt_succ_self _)
  rw [mergeBinsLoop_succ, if_neg (by
    rw [(mergePass_of_nothingToMerge rt h hN).2.2.1]; exact Nat.lt_irrefl _)] at e
  exact (Option.some.inj e).symm

theorem mergeBinsLoop_result (rt : RangeTest) :
    ∀ (fuel : Nat) (h : HyperHistogram) (r : HyperHistogram × List String),
      mergeBinsLoop rt fuel h = some r → ∃ g, r.1 = (mergePass rt g).1 := by
  intro fuel
  induction fuel with
  | zero => intro h r hr; simp [mergeBinsLoop] at hr
  | succ fuel ih =>
    intro h r hr
    rw [mergeBinsLoop_succ] at hr
    by_cases hc : (mergePass rt h).1.binning.getNumBins < h.binning.getNumBins
    · rw [if_pos hc] at hr
      cases hq : mergeBinsLoop rt fuel (mergePass rt h).1 with
      | none => rw [hq] at hr; simp at hr
      | some q =>
        rw [hq] at hr
        obtain ⟨g, hg⟩ := ih _ q hq
        refine ⟨g, ?_⟩
        rw [← hg, ← Option.some.inj hr]
    · rw [if_neg hc] at hr
      exact ⟨h, by rw [← Option.some.inj hr]⟩

theorem mergeBins_result_is_pass (rt : RangeTest) (h : HyperHistogram) :
    ∃ g, (h.mergeBinsWithSameContent rt "HyperBinning").1 = (mergePass rt g).1 :=
  mergeBinsLoop_result rt _ h _
    (mergeBins_eq_loop rt h (h.binning.getNumBins + 1) (Nat.lt_succ_self _))


/-- Counterexample for C13 as stated: the quadrant histogram with content 1 in each of
its 4 bins has total content 4.  `mergeBinsWithSameContent` collapses the four
quadrants, which hold the same content, into the one bin `[0,0]-[10,10]`, whose
content is the value of the old histogram at its centre `(5,5)`, that is 1: the
total content after the call is 1. -/
theorem mergeBins_of_equal_quadrants_changes_total :
    quadOnes.WellFormed ∧
    quadOnes.base.total = 4 ∧
    (quadOnes.mergeBinsWithSameContent halfOpen "HyperBinning").1.base.getNBins = 1 ∧
    (quadOnes.mergeBinsWithSameContent halfOpen "HyperBinning").1.base.binContentsList = [1] ∧
    (quadOnes.mergeBinsWithSameContent halfOpen "HyperBinning").1.base.total = 1 ∧
    ¬ ((quadOnes.mergeBinsWithSameContent halfOpen "HyperBinning").1.base.total
        = quadOnes.base.total) := by
  refine ⟨by decide, by decide!, by decide!, by decide!, by decide!, by decide!⟩

/-- C13 (amended): for a histogram whose store is sized to its binning, in which no
internal node has only leaves of one common content as linked volumes, and in
which the lookup of every bin's average centre answers that bin,
`mergeBinsWithSameContent` keeps the bin count and the content of every bin, and
so the sum of content over all bins. -/
theorem mergeBins_keeps_total_when_nothing_merges (rt : RangeTest) (h : HyperHistogram)
    (hw : h.WellFormed) (hN : h.NothingToMerge) (hC : h.CentresOwn rt) :
    (h.mergeBinsWithSameContent rt "HyperBinning").1.base.getNBins = h.base.getNBins ∧
    (∀ i, i < h.base.getNBins →
      (h.mergeBinsWithSameContent rt "HyperBinning").1.base.getBinContent i
        = h.base.getBinContent i) ∧
    (h.mergeBinsWithSameContent rt "HyperBinning").1.base.total = h.base.total := by
  obtain ⟨h1, h2, h3⟩ := mergePass_fixed_contents rt h hw hN hC
  rw [mergeBins_of_nothingToMerge rt h hN]
  refine ⟨h1, fun i hi => (h2 i hi).1, ?_⟩
  unfold HistogramBase.total
  rw [h3]

/-- Witness for C13 (amended): the quadrant histogram after the three fills of the
scenario, contents `2,1,0,3`: the four quadrants do not hold one common content,
each quadrant's centre lies in it, and the total content 6 is kept. -/
theorem mergeBins_keeps_total_when_nothing_merges_witness :
    quadFilled.WellFormed ∧ quadFilled.NothingToMerge ∧ quadFilled.CentresOwn halfOpen ∧
    quadFilled.base.total = 6 ∧
    (quadFilled.mergeBinsWithSameContent halfOpen "HyperBinning").1.base.total
      = quadFilled.base.total :=
  ⟨by decide!, by decide!, by decide!, by decide!,
   (mergeBins_keeps_total_when_nothing_merges halfOpen quadFilled
      (by decide!) (by decide!) (by decide!)).2.2⟩

/-- Counterexample for C14 as stated: a memory resident hierarchical histogram whose
primary node is linked to node 1 alone and node 1 to the leaf 2 alone.  The first
call removes the leaf 2, which turns node 1 into the bin: one bin before and
after, so there is no recursive call, and the result has the 2 nodes 0 and 1.
The call on that result removes node 1 and leaves the single node 0: the bin
graph has changed. -/
theorem mergeBins_of_chain_is_not_idempotent :
    chainHist.WellFormed ∧ chainHist.binning.IndicesInRange ∧
    ((chainHist.mergeBinsWithSameContent halfOpen "HyperBinning").1.binning.nodes.map
      BinNode.links) = [[1], []] ∧
    (((chainHist.mergeBinsWithSameContent halfOpen "HyperBinning").1.mergeBinsWithSameContent
      halfOpen "HyperBinning").1.binning.nodes.map BinNode.links) = [[]] ∧
    ¬ (((chainHist.mergeBinsWithSameContent halfOpen "HyperBinning").1.mergeBinsWithSameContent
        halfOpen "HyperBinning").1.binning.nodes
      = (chainHist.mergeBinsWithSameContent halfOpen "HyperBinning").1.binning.nodes) := by
  refine ⟨by decide, by decide, by decide!, by decide!, by decide!⟩

/-- C14 (amended): let `r` be the result of `mergeBinsWithSameContent` on a memory
resident hierarchical histogram.  If in `r` no internal node has only leaves of
one common content as linked volumes, the node numbers in `r` name nodes of `r`,
and the lookup of every bin's average centre answers that bin, then a second
call on `r` leaves the nodes with their links, the primary node numbers, the bin
count, and the content and the error of every bin unchanged. -/
theorem mergeBins_twice_on_settled_result (rt : RangeTest) (sqrt : ℚ → ℚ)
    (h : HyperHistogram)
    (hN : (h.mergeBinsWithSameContent rt "HyperBinning").1.NothingToMerge)
    (hR : (h.mergeBinsWithSameContent rt "HyperBinning").1.binning.IndicesInRange)
    (hC : (h.mergeBinsWithSameContent rt "HyperBinning").1.CentresOwn rt) :
    ((h.mergeBinsWithSameContent rt "HyperBinning").1.mergeBinsWithSameContent
        rt "HyperBinning").1.binning.nodes
      = (h.mergeBinsWithSameContent rt "HyperBinning").1.binning.nodes ∧
    ((h.mergeBinsWithSameContent rt "HyperBinning").1.mergeBinsWithSameContent
        rt "HyperBinning").1.binning.primaryVolumeNumbers
      = (h.mergeBinsWithSameContent rt "HyperBinning").1.binning.primaryVolumeNumbers ∧
    ((h.mergeBinsWithSameContent rt "HyperBinning").1.mergeBinsWithSameContent
        rt "HyperBinning").1.binning.getNumBins
      = (h.mergeBinsWithSameContent rt "HyperBinning").1.binning.getNumBins ∧
    ((h.mergeBinsWithSameContent rt "HyperBinning").1.mergeBinsWithSameContent
        rt "HyperBinning").1.base.getNBins
      = (h.mergeBinsWithSameContent rt "HyperBinning").1.base.getNBins ∧
    (∀ i, i < (h.mergeBinsWithSameContent rt "HyperBinning").1.base.getNBins →
      ((h.mergeBinsWithSameContent rt "HyperBinning").1.mergeBinsWithSameContent
          rt "HyperBinning").1.base.getBinContent i
        = (h.mergeBinsWithSameContent rt "HyperBinning").1.base.getBinContent i ∧
      ((h.mergeBinsWithSameContent rt "HyperBinning").1.mergeBinsWithSameContent
          rt "HyperBinning").1.base.getBinError sqrt i
        = (h.mergeBinsWithSameContent rt "HyperBinning").1.base.getBinError sqrt i) := by
  obtain ⟨g, hg⟩ := mergeBins_result_is_pass rt h
  generalize (h.mergeBinsWithSameContent rt "HyperBinning").1 = r at hN hR hC hg ⊢
  have hw : r.WellFormed := by rw [hg]; exact (mergePass_spec rt g).1
  obtain ⟨h1, h2, _⟩ := mergePass_fixed_contents rt r hw hN hC
  obtain ⟨g1, g2⟩ := mergePass_fixed_graph rt r hN hR
  rw [mergeBins_of_nothingToMerge rt r hN]
  refine ⟨g1, g2, (mergePass_of_nothingToMerge rt r hN).2.2.1, h1, ?_⟩
  intro i hi
  refine ⟨(h2 i hi).1, ?_⟩
  have z1 := (h2 i hi).2
  have z2 : r.base.getSumW2 i = 0 := by
    have := (mergePass_spec rt g).2 i (by rw [← hg]; exact hi)
    rw [← hg] at this
    exact this.2
  unfold HistogramBase.getSumW2 at z1 z2
  unfold HistogramBase.getBinError
  rw [z1, z2]

/-- Witness for C14 (amended): the quadrant histogram with content 1 in each bin.  Its
result is the single bin `[0,0]-[10,10]` with content 1, which meets the three
conditions; the second call keeps the one node and its content. -/
theorem mergeBins_twice_on_settled_result_witness :
    (quadOnes.mergeBinsWithSameContent halfOpen "HyperBinning").1.NothingToMerge ∧
    (quadOnes.mergeBinsWithSameContent halfOpen "HyperBinning").1.binning.IndicesInRange ∧
    (quadOnes.mergeBinsWithSameContent halfOpen "HyperBinning").1.CentresOwn halfOpen ∧
    (quadOnes.mergeBinsWithSameContent halfOpen "HyperBinning").1.base.getNBins = 1 ∧
    ((quadOnes.mergeBinsWithSameContent halfOpen "HyperBinning").1.mergeBinsWithSameContent
        halfOpen "HyperBinning").1.binning.nodes
      = (quadOnes.mergeBinsWithSameContent halfOpen "HyperBinning").1.binning.nodes :=
  ⟨by decide!, by decide!, by decide!, by decide!,
   (mergeBins_twice_on_settled_result halfOpen Rat.sqrt quadOnes
      (by decide!) (by decide!) (by decide!)).1⟩


/-- C15: for a histogram whose binning is not of the kind `HyperBinning`
(`getBinningType()` returns another name), `mergeBinsWithSameContent` logs one
error and returns the histogram as it was: the same binning, the same content
and the same error in every bin. -/
theorem mergeBins_of_other_binning_kind_does_nothing (rt : RangeTest) (sqrt : ℚ → ℚ)
    (binningType : String) (h : HyperHistogram) (hk : binningType ≠ "HyperBinning") :
    (h.mergeBinsWithSameContent rt binningType).2
      = ["It is only possible to merge bins when using HyperBinning. Doing nothing."] ∧
    (h.mergeBinsWithSameContent rt binningType).1 = h ∧
    (h.mergeBinsWithSameContent rt binningType).1.binning = h.binning ∧
    (∀ i, (h.mergeBinsWithSameContent rt binningType).1.base.getBinContent i
        = h.base.getBinContent i ∧
      (h.mergeBinsWithSameContent rt binningType).1.base.getBinError sqrt i
        = h.base.getBinError sqrt i) := by
  have e : h.mergeBinsWithSameContent rt binningType
      = (h, ["It is only possible to merge bins when using HyperBinning. Doing nothing."]) := by
    unfold HyperHistogram.mergeBinsWithSameContent
    rw [if_pos hk]
  rw [e]
  exact ⟨rfl, rfl, rfl, fun _ => ⟨rfl, rfl⟩⟩

/-- Witness for C15: the quadrant histogram with content 1 in each bin, asked to merge
while its binning reports the kind `HyperVolumeBinning`: the four bins stay. -/
theorem mergeBins_of_other_binning_kind_does_nothing_witness :
    "HyperVolumeBinning" ≠ "HyperBinning" ∧
    (quadOnes.mergeBinsWithSameContent halfOpen "HyperVolumeBinning").1 = quadOnes ∧
    quadOnes.base.getNBins = 4 :=
  ⟨by decide,
   (mergeBins_of_other_binning_kind_does_nothing halfOpen Rat.sqrt "HyperVolumeBinning"
      quadOnes (by decide)).2.1,
   by decide⟩

theorem mergePasses_zero (rt : RangeTest) (h : HyperHistogram) : mergePasses rt 0 h = h := rfl

theorem mergePasses_succ (rt : RangeTest) (k : Nat) (h : HyperHistogram) :
    mergePasses rt (k + 1) h = mergePasses rt k (mergePass rt h).1 := rfl

theorem mergeBinsLoop_passes (rt : RangeTest) :
    ∀ (fuel : Nat) (h : HyperHistogram), h.binning.getNumBins < fuel →
      ∃ k, k ≤ h.binning.getNumBins ∧
        (∀ j, j < k →
          (mergePasses rt (j + 1) h).binning.getNumBins
            < (mergePasses rt j h).binning.getNumBins) ∧
        ¬ ((mergePasses rt (k + 1) h).binning.getNumBins
            < (mergePasses rt k h).binning.getNumBins) ∧
        (mergeBinsLoop rt fuel h).map Prod.fst = some (mergePasses rt (k + 1) h) := by
  intro fuel
  induction fuel with
  | zero => intro h hlt; exact absurd hlt (Nat.not_lt_zero _)
  | succ fuel ih =>
    intro h hlt
    rw [mergeBinsLoop_succ]
    by_cases hc : (mergePass rt h).1.binning.getNumBins < h.binning.getNumBins
    · obtain ⟨k, hk, hdec, hstop, hres⟩ := ih (mergePass rt h).1 (by omega)
      refine ⟨k + 1, by omega, ?_, ?_, ?_⟩
      · intro j hj
        cases j with
        | zero =>
          rw [mergePasses_succ rt 0 h, mergePasses_zero rt (mergePass rt h).1,
            mergePasses_zero rt h]
          exact hc
        | succ j =>
          rw [mergePasses_succ rt (j + 1) h, mergePasses_succ rt j h]
          exact hdec j (Nat.lt_of_succ_lt_succ hj)
      · rw [mergePasses_succ rt (k + 1) h, mergePasses_succ rt k h]
        exact hstop
      · rw [if_pos hc, Option.map_map, mergePasses_succ rt (k + 1) h, ← hres]
        cases mergeBinsLoop rt fuel (mergePass rt h).1 <;> rfl
    · refine ⟨0, Nat.zero_le _, fun j hj => absurd hj (Nat.not_lt_zero _), ?_, ?_⟩
      · rw [mergePasses_succ rt 0 h, mergePasses_zero rt (mergePass rt h).1,
          mergePasses_zero rt h]
        exact hc
      · rw [if_neg hc, mergePasses_succ rt 0 h, mergePasses_zero rt (mergePass rt h).1]
        rfl

/-- C16: the recursion of `mergeBinsWithSameContent` terminates on every histogram.  A
pass calls itself on the rebuilt histogram exactly when the rebuilt binning has
strictly fewer bins than the current one, and returns the rebuilt histogram
otherwise.  So there is a number `k` of recursive calls, at most the bin count
of the histogram, such that the bin count strictly decreases at each of the `k`
calls, does not decrease at pass `k + 1`, and the histogram after pass `k + 1`
is the result, for every bound on the number of passes above the bin count. -/
theorem mergeBins_recursion_terminates (rt : RangeTest) (h : HyperHistogram) :
    (∀ fuel, mergeBinsLoop rt (fuel + 1) h
      = if (mergePass rt h).1.binning.getNumBins < h.binning.getNumBins then
          (mergeBinsLoop rt fuel (mergePass rt h).1).map
            fun r => (r.1, (mergePass rt h).2 ++ r.2)
        else some (mergePass rt h)) ∧
    (∃ k, k ≤ h.binning.getNumBins ∧
      (∀ j, j < k →
        (mergePasses rt (j + 1) h).binning.getNumBins
          < (mergePasses rt j h).binning.getNumBins) ∧
      ¬ ((mergePasses rt (k + 1) h).binning.getNumBins
          < (mergePasses rt k h).binning.getNumBins) ∧
      (∀ fuel, h.binning.getNumBins < fuel →
        mergeBinsLoop rt fuel h = some (h.mergeBinsWithSameContent rt "HyperBinning")) ∧
      (h.mergeBinsWithSameContent rt "HyperBinning").1 = mergePasses rt (k + 1) h) := by
  refine ⟨fun fuel => mergeBinsLoop_succ rt fuel h, ?_⟩
  obtain ⟨k, hk, hdec, hstop, hres⟩ :=
    mergeBinsLoop_passes rt (h.binning.getNumBins + 1) h (Nat.lt_succ_self _)
  refine ⟨k, hk, hdec, hstop, fun fuel hf => mergeBins_eq_loop rt h fuel hf, ?_⟩
  rw [mergeBins_eq_loop rt h _ (Nat.lt_succ_self _), Option.map_some'] at hres
  exact Option.some.inj hres


/-! ### The store is sized to the binning -/

theorem HyperHistogram.slice_returns (rt : RangeTest) (sqrt : ℚ → ℚ) (h : HyperHistogram)
    (dims : List Nat) (vals : List ℚ) (hv : SliceRequestValid h.binning dims vals) :
    ∃ r, h.slice rt sqrt dims vals = some r := by
  obtain ⟨pt, hpt, _⟩ := slice_request_point h.binning dims vals hv
  obtain ⟨ns, hns⟩ := sliceNames_isSome h.binning.getDimension dims h.binning.names
    hv.2.1 hv.2.2.1 hv.2.2.2
  cases hs : h.slice rt sqrt dims vals with
  | some r => exact ⟨r, rfl⟩
  | none =>
    simp only [HyperHistogram.slice, hpt, hns] at hs
    exact absurd hs (by simp)

theorem HyperHistogram.slice_result_sized (rt : RangeTest) (sqrt : ℚ → ℚ)
    (h r : HyperHistogram) (dims : List Nat) (vals : List ℚ)
    (hr : h.slice rt sqrt dims vals = some r) :
    r.base.WellSized ∧ r.base.nBins = r.binning.getNumBins := by
  unfold HyperHistogram.slice at hr
  simp only at hr
  cases hpt : slicePoint h.binning.getDimension dims vals with
  | none => rw [hpt] at hr; exact absurd hr (by simp)
  | some pt =>
    cases hns : sliceNames h.binning.getDimension dims h.binning.names with
    | none => rw [hpt, hns] at hr; exact absurd hr (by simp)
    | some ns =>
      rw [hpt, hns] at hr
      obtain ⟨c1, c2, c3, _⟩ := sliced_core rt sqrt h.base h.binning pt dims HyperBinning.new rfl
        _ rfl _ rfl
      have e := Option.some.inj hr
      rw [← e]
      exact ⟨c2, c1.trans c3.symm⟩

theorem mergeBins_result_sized (rt : RangeTest) (binningType : String) (h : HyperHistogram)
    (hh : h.base.getNBins = h.binning.getNumBins) :
    (h.mergeBinsWithSameContent rt binningType).1.base.getNBins
      = (h.mergeBinsWithSameContent rt binningType).1.binning.getNumBins := by
  by_cases hk : binningType = "HyperBinning"
  · subst hk
    obtain ⟨g, hg⟩ := mergeBins_result_is_pass rt h
    rw [hg]
    exact (mergePass_spec rt g).1.2
  · have e : h.mergeBinsWithSameContent rt binningType
        = (h, ["It is only possible to merge bins when using HyperBinning. Doing nothing."]) := by
      unfold HyperHistogram.mergeBinsWithSameContent
      rw [if_pos hk]
    rw [e]
    exact hh


/-- Counterexample for C17 as stated: the quadrant histogram (dimension 2, 4 bins) and
a histogram over a binning of dimension 1 (1 bin) both have their store sized to
the binning.  After `merge` the store has 5 bins and the binning still has 4:
`mergeBinnings` refuses the other dimension, `HistogramBase::merge` runs all the
same. -/
theorem merge_of_other_dimension_breaks_store_size :
    (HyperHistogram.ofBinning quadBinning).base.getNBins
      = (HyperHistogram.ofBinning quadBinning).binning.getNumBins ∧
    (HyperHistogram.ofBinning lineBinning).base.getNBins
      = (HyperHistogram.ofBinning lineBinning).binning.getNumBins ∧
    ((HyperHistogram.ofBinning quadBinning).merge
      (HistogramRef.hyperHistogram (HyperHistogram.ofBinning lineBinning))).1.base.getNBins
        = 5 ∧
    ((HyperHistogram.ofBinning quadBinning).merge
      (HistogramRef.hyperHistogram
        (HyperHistogram.ofBinning lineBinning))).1.binning.getNumBins = 4 ∧
    ¬ (((HyperHistogram.ofBinning quadBinning).merge
        (HistogramRef.hyperHistogram (HyperHistogram.ofBinning lineBinning))).1.base.getNBins
      = ((HyperHistogram.ofBinning quadBinning).merge
        (HistogramRef.hyperHistogram
          (HyperHistogram.ofBinning lineBinning))).1.binning.getNumBins) := by
  refine ⟨by decide, by decide, by decide!, by decide!, by decide!⟩

/-- C17 (amended): the store is sized to the bin count of the binning, `getNBins() =
binning.getNumBins()`, after construction from a binning; the equality is kept
by both `fill`s and by `setContentsFromFunc`; it is kept by `merge` when the
other histogram has it too and the two binnings have the same dimension (or the
left one has no dimension yet), and by a `merge` that is refused; it holds for
every histogram that `slice` returns, and `slice` returns one for a request it
can serve; it holds for the result of `mergeBinsWithSameContent`. -/
theorem store_stays_sized_to_binning (rt : RangeTest) (sqrt : ℚ → ℚ)
    (h A B : HyperHistogram) (binning : HyperBinning) (coords : HyperPoint) (weight : ℚ)
    (func : HyperPoint → ℚ) (other : HistogramBase) (dims : List Nat) (vals : List ℚ)
    (binningType : String)
    (hh : h.base.getNBins = h.binning.getNumBins)
    (hA : A.base.getNBins = A.binning.getNumBins)
    (hB : B.base.getNBins = B.binning.getNumBins)
    (hdim : A.binning.dimension = 0 ∨ A.binning.dimension = B.binning.dimension) :
    (HyperHistogram.ofBinning binning).base.getNBins
      = (HyperHistogram.ofBinning binning).binning.getNumBins ∧
    (h.fill rt coords weight).1.base.getNBins = (h.fill rt coords weight).1.binning.getNumBins ∧
    (h.fillPoint rt coords).1.base.getNBins = (h.fillPoint rt coords).1.binning.getNumBins ∧
    (h.setContentsFromFunc func).base.getNBins
      = (h.setContentsFromFunc func).binning.getNumBins ∧
    (A.merge (HistogramRef.hyperHistogram B)).1.base.getNBins
      = (A.merge (HistogramRef.hyperHistogram B)).1.binning.getNumBins ∧
    (A.merge (HistogramRef.otherKind other)).1.base.getNBins
      = (A.merge (HistogramRef.otherKind other)).1.binning.getNumBins ∧
    (∀ r, h.slice rt sqrt dims vals = some r → r.base.getNBins = r.binning.getNumBins) ∧
    (SliceRequestValid h.binning dims vals → ∃ r, h.slice rt sqrt dims vals = some r) ∧
    (h.mergeBinsWithSameContent rt binningType).1.base.getNBins
      = (h.mergeBinsWithSameContent rt binningType).1.binning.getNumBins := by
  refine ⟨rfl, hh, hh, ?_, ?_, hA, ?_, ?_, mergeBins_result_sized rt binningType h hh⟩
  · have e := (foldl_setBins
      (fun i => func (h.binning.getBinHyperVolume i).getAverageCenter) (fun _ => 0)
      h.base.getNBins h.base).1
    exact e.trans hh
  · have hbin : (A.merge (HistogramRef.hyperHistogram B)).1.binning
        = (A.binning.mergeBinnings B.binning).1 := rfl
    have hbase : (A.merge (HistogramRef.hyperHistogram B)).1.base = A.base.merge B.base := rfl
    have hn : (A.base.merge B.base).nBins = A.base.nBins + B.base.nBins := rfl
    rw [hbin, hbase, HyperBinning.mergeBinnings_getNumBins _ _ hdim]
    unfold HistogramBase.getNBins at hA hB ⊢
    rw [hn, hA, hB]
  · intro r hr
    exact (HyperHistogram.slice_result_sized rt sqrt h r dims vals hr).2
  · intro hv
    exact HyperHistogram.slice_returns rt sqrt h dims vals hv

/-- Witness for C17 (amended): the filled quadrant histogram, and the merge of the
quadrant histogram with content 1 in each bin with the empty quadrant histogram:
the merged store and the merged binning both have 8 bins. -/
theorem store_stays_sized_to_binning_witness :
    quadFilled.base.getNBins = quadFilled.binning.getNumBins ∧
    quadOnes.base.getNBins = quadOnes.binning.getNumBins ∧
    (HyperHistogram.ofBinning quadBinning).base.getNBins
      = (HyperHistogram.ofBinning quadBinning).binning.getNumBins ∧
    (quadOnes.binning.dimension = 0 ∨
      quadOnes.binning.dimension = (HyperHistogram.ofBinning quadBinning).binning.dimension) ∧
    (quadOnes.merge (HistogramRef.hyperHistogram
      (HyperHistogram.ofBinning quadBinning))).1.binning.getNumBins = 8 ∧
    (quadOnes.merge (HistogramRef.hyperHistogram
      (HyperHistogram.ofBinning quadBinning))).1.base.getNBins
      = (quadOnes.merge (HistogramRef.hyperHistogram
          (HyperHistogram.ofBinning quadBinning))).1.binning.getNumBins :=
  ⟨by decide!, by decide, by decide, Or.inr rfl, by decide!,
   (store_stays_sized_to_binning halfOpen Rat.sqrt quadFilled quadOnes
      (HyperHistogram.ofBinning quadBinning) quadBinning (pt 1 1) 2 (fun p => p.coords.sum)
      (HistogramBase.new 3) [0] [1] "HyperBinning"
      (by decide!) (by decide) (by decide) (Or.inr rfl)).2.2.2.2.1⟩


/-! ### Projection onto bins of equal width -/

theorem TH1D.binWidth_pos (t : TH1D) (hw : t.WellFormed) : 0 < t.binWidth := by
  unfold TH1D.binWidth
  have h1 : (0 : ℚ) < t.nbins := by exact_mod_cast hw.1
  have h2 : 0 < t.xup - t.xlow := sub_pos.mpr hw.2.1
  exact div_pos h2 h1

theorem TH1D.nbins_mul_binWidth (t : TH1D) (hw : t.WellFormed) :
    (t.nbins : ℚ) * t.binWidth = t.xup - t.xlow := by
  unfold TH1D.binWidth
  have h1 : (t.nbins : ℚ) ≠ 0 := by exact_mod_cast (Nat.pos_iff_ne_zero.mp hw.1)
  field_simp

theorem TH1D.lowEdge_eq (t : TH1D) (bin : Nat) :
    t.GetBinLowEdge bin = t.GetBinUpEdge bin - t.binWidth := by
  unfold TH1D.GetBinLowEdge TH1D.GetBinUpEdge
  ring

theorem TH1D.upEdge_le_lowEdge (t : TH1D) (hw : t.WellFormed) (a b : Nat) (hab : a < b) :
    t.GetBinUpEdge a ≤ t.GetBinLowEdge b := by
  unfold TH1D.GetBinLowEdge TH1D.GetBinUpEdge
  have hp := t.binWidth_pos hw
  have h1 : (a : ℚ) ≤ (b : ℚ) - 1 := by
    have : (a : ℚ) + 1 ≤ (b : ℚ) := by exact_mod_cast hab
    linarith
  have := mul_le_mul_of_nonneg_right h1 hp.le
  linarith

theorem TH1D.upEdge_mono (t : TH1D) (hw : t.WellFormed) (a b : Nat) (hab : a ≤ b) :
    t.GetBinUpEdge a ≤ t.GetBinUpEdge b := by
  unfold TH1D.GetBinUpEdge
  have hp := t.binWidth_pos hw
  have h1 : (a : ℚ) ≤ (b : ℚ) := by exact_mod_cast hab
  have := mul_le_mul_of_nonneg_right h1 hp.le
  linarith

theorem TH1D.findFixBin_spec (t : TH1D) (hw : t.WellFormed) (x : ℚ)
    (h1 : t.xlow ≤ x) (h2 : x ≤ t.xup) :
    1 ≤ t.FindFixBin x ∧ t.FindFixBin x ≤ t.nbins + 1 ∧
    t.GetBinLowEdge (t.FindFixBin x) ≤ x ∧ x < t.GetBinUpEdge (t.FindFixBin x) := by
  have hp := t.binWidth_pos hw
  have hnw := t.nbins_mul_binWidth hw
  have hn : (0 : ℚ) < t.nbins := by exact_mod_cast hw.1
  have hd : 0 < t.xup - t.xlow := sub_pos.mpr hw.2.1
  unfold TH1D.FindFixBin
  rw [if_neg (not_lt.mpr h1)]
  by_cases hx : x < t.xup
  · rw [if_neg (not_not.mpr hx)]
    have hq : (t.nbins : ℚ) * (x - t.xlow) / (t.xup - t.xlow) = (x - t.xlow) / t.binWidth := by
      unfold TH1D.binWidth
      field_simp
      ring
    rw [hq]
    have hq0 : 0 ≤ (x - t.xlow) / t.binWidth := div_nonneg (sub_nonneg.mpr h1) hp.le
    have hf0 : 0 ≤ ⌊(x - t.xlow) / t.binWidth⌋ := Int.floor_nonneg.mpr hq0
    have hcast : ((⌊(x - t.xlow) / t.binWidth⌋.toNat : Nat) : ℚ)
        = (⌊(x - t.xlow) / t.binWidth⌋ : ℚ) := by
      have : ((⌊(x - t.xlow) / t.binWidth⌋.toNat : Nat) : Int)
          = ⌊(x - t.xlow) / t.binWidth⌋ := Int.toNat_of_nonneg hf0
      exact_mod_cast this
    have hle : (⌊(x - t.xlow) / t.binWidth⌋ : ℚ) ≤ (x - t.xlow) / t.binWidth :=
      Int.floor_le _
    have hlt : (x - t.xlow) / t.binWidth < (⌊(x - t.xlow) / t.binWidth⌋ : ℚ) + 1 :=
      Int.lt_floor_add_one _
    have hle2 : (⌊(x - t.xlow) / t.binWidth⌋ : ℚ) * t.binWidth ≤ x - t.xlow :=
      (le_div_iff₀ hp).mp hle
    have hlt2 : x - t.xlow < ((⌊(x - t.xlow) / t.binWidth⌋ : ℚ) + 1) * t.binWidth :=
      (div_lt_iff₀ hp).mp hlt
    refine ⟨by omega, ?_, ?_, ?_⟩
    · have hlt3 : (⌊(x - t.xlow) / t.binWidth⌋ : ℚ) * t.binWidth < (t.nbins : ℚ) * t.binWidth := by
        rw [hnw]; linarith
      have hlt4 : (⌊(x - t.xlow) / t.binWidth⌋ : ℚ) < (t.nbins : ℚ) :=
        lt_of_mul_lt_mul_right hlt3 hp.le
      have hlt5 : ((⌊(x - t.xlow) / t.binWidth⌋.toNat : Nat) : ℚ) < (t.nbins : ℚ) := by
        rw [hcast]; exact hlt4
      have : ⌊(x - t.xlow) / t.binWidth⌋.toNat < t.nbins := by exact_mod_cast hlt5
      omega
    · unfold TH1D.GetBinLowEdge
      push_cast
      rw [hcast]
      linarith
    · unfold TH1D.GetBinUpEdge
      push_cast
      rw [hcast]
      linarith
  · rw [if_pos hx]
    have hxe : x = t.xup := le_antisymm h2 (not_lt.mp hx)
    refine ⟨by omega, le_refl _, ?_, ?_⟩
    · unfold TH1D.GetBinLowEdge
      push_cast
      linarith
    · unfold TH1D.GetBinUpEdge
      push_cast
      linarith

theorem TH1D.findFixBin_center (t : TH1D) (hw : t.WellFormed) (bin : Nat)
    (h1 : 1 ≤ bin) (h2 : bin ≤ t.nbins) : t.FindFixBin (t.GetBinCenter bin) = bin := by
  have hp := t.binWidth_pos hw
  have hnw := t.nbins_mul_binWidth hw
  have hn : (0 : ℚ) < t.nbins := by exact_mod_cast hw.1
  have hb1 : (1 : ℚ) ≤ bin := by exact_mod_cast h1
  have hb2 : (bin : ℚ) ≤ t.nbins := by exact_mod_cast h2
  have hc : t.GetBinCenter bin - t.xlow = ((bin : ℚ) - 1 / 2) * t.binWidth := by
    unfold TH1D.GetBinCenter; ring
  have hlow : ¬ t.GetBinCenter bin < t.xlow := by
    have : 0 ≤ ((bin : ℚ) - 1 / 2) * t.binWidth := mul_nonneg (by linarith) hp.le
    linarith
  have hup : t.GetBinCenter bin < t.xup := by
    have h3 : ((bin : ℚ) - 1 / 2) * t.binWidth < (t.nbins : ℚ) * t.binWidth :=
      mul_lt_mul_of_pos_right (by linarith) hp
    linarith
  unfold TH1D.FindFixBin
  rw [if_neg hlow, if_neg (not_not.mpr hup)]
  have hq : (t.nbins : ℚ) * (t.GetBinCenter bin - t.xlow) / (t.xup - t.xlow)
      = (((bin - 1 : Nat) : Int) : ℚ) + 1 / 2 := by
    rw [hc]
    unfold TH1D.binWidth
    have hd : t.xup - t.xlow ≠ 0 := (sub_pos.mpr hw.2.1).ne'
    have hn0 : (t.nbins : ℚ) ≠ 0 := hn.ne'
    have hcast : (((bin - 1 : Nat) : Int) : ℚ) = (bin : ℚ) - 1 := by
      push_cast [Nat.cast_sub h1]; ring
    rw [hcast]
    field_simp
    ring
  rw [hq]
  have hfl : ⌊(((bin - 1 : Nat) : Int) : ℚ) + 1 / 2⌋ = ((bin - 1 : Nat) : Int) := by
    rw [Int.floor_eq_iff]
    constructor <;> linarith
  rw [hfl, Int.toNat_ofNat]
  omega

theorem foldl_add_getD (amt : Nat → ℚ) :
    ∀ (l : List Nat) (c : List ℚ), l.Nodup → ∀ k,
      (l.foldl (fun c b => c.set b (c.getD b 0 + amt b)) c).length = c.length ∧
      (l.foldl (fun c b => c.set b (c.getD b 0 + amt b)) c).getD k 0
        = c.getD k 0 + if k ∈ l ∧ k < c.length then amt k else 0 := by
  intro l
  induction l with
  | nil => intro c _ k; simp
  | cons x xs ih =>
    intro c hnd k
    rw [List.foldl_cons]
    obtain ⟨hx, hxs⟩ := List.nodup_cons.mp hnd
    obtain ⟨h1, h2⟩ := ih (c.set x (c.getD x 0 + amt x)) hxs k
    refine ⟨by rw [h1, List.length_set], ?_⟩
    rw [h2, getD_set, List.length_set]
    by_cases hk : k = x
    · subst hk
      by_cases hlt : k < c.length
      · simp [hlt, hx]
      · simp [hlt]
    · simp [hk]

theorem TH1D.foldl_fill_middle (t : TH1D) (hw : t.WellFormed) (tot content : ℚ) :
    ∀ (l : List Nat) (c : List ℚ), (∀ b ∈ l, 1 ≤ b ∧ b ≤ t.nbins) →
      l.foldl
          (fun hist bin =>
            let lowEdge := hist.GetBinLowEdge bin
            let highEdge := hist.GetBinUpEdge bin
            let events := ((highEdge - lowEdge) / tot) * content
            hist.Fill (hist.GetBinCenter bin) events)
          { t with contents := c }
        = { t with contents := (l.foldl
              (fun c bin => c.set bin (c.getD bin 0 + (t.binWidth / tot) * content)) c) } := by
  intro l
  induction l with
  | nil => intro c _; rfl
  | cons x xs ih =>
    intro c hl
    rw [List.foldl_cons, List.foldl_cons]
    have hx := hl x (List.mem_cons_self _ _)
    have hstep : TH1D.Fill { t with contents := c }
        (TH1D.GetBinCenter { t with contents := c } x)
        (((TH1D.GetBinUpEdge { t with contents := c } x
          - TH1D.GetBinLowEdge { t with contents := c } x) / tot) * content)
        = { t with contents := c.set x (c.getD x 0 + (t.binWidth / tot) * content) } := by
      have e1 : TH1D.FindFixBin { t with contents := c }
          (TH1D.GetBinCenter { t with contents := c } x) = x :=
        t.findFixBin_center hw x hx.1 hx.2
      have e2 : TH1D.GetBinUpEdge { t with contents := c } x
          - TH1D.GetBinLowEdge { t with contents := c } x = t.binWidth := by
        have := t.lowEdge_eq x
        show t.GetBinUpEdge x - t.GetBinLowEdge x = t.binWidth
        linarith
      unfold TH1D.Fill
      rw [e1, e2]
    show List.foldl _ (TH1D.Fill { t with contents := c } _ _) xs = _
    rw [hstep]
    exact ih _ fun b hb => hl b (List.mem_cons_of_mem _ hb)

theorem overlap_none_below (lo hi l u : ℚ) (h : u ≤ lo) :
    max 0 (min hi u - max lo l) = 0 := by
  apply max_eq_left
  have h1 : min hi u ≤ u := min_le_right _ _
  have h2 : lo ≤ max lo l := le_max_left _ _
  linarith

theorem overlap_none_above (lo hi l u : ℚ) (h : hi ≤ l) :
    max 0 (min hi u - max lo l) = 0 := by
  apply max_eq_left
  have h1 : min hi u ≤ hi := min_le_left _ _
  have h2 : l ≤ max lo l := le_max_right _ _
  linarith

theorem overlap_inside (lo hi l u : ℚ) (h1 : l ≤ lo) (h2 : hi ≤ u) (h3 : lo ≤ hi) :
    max 0 (min hi u - max lo l) = hi - lo := by
  rw [min_eq_left h2, max_eq_left h1]
  exact max_eq_right (by linarith)

theorem overlap_low_part (lo hi l u : ℚ) (h1 : l ≤ lo) (h2 : lo ≤ u) (h3 : u ≤ hi) :
    max 0 (min hi u - max lo l) = u - lo := by
  rw [min_eq_right h3, max_eq_left h1]
  exact max_eq_right (by linarith)

theorem overlap_high_part (lo hi l u : ℚ) (h1 : lo ≤ l) (h2 : l ≤ hi) (h3 : hi ≤ u) :
    max 0 (min hi u - max lo l) = hi - l := by
  rw [min_eq_left h3, max_eq_right h1]
  exact max_eq_right (by linarith)

theorem overlap_whole (lo hi l u : ℚ) (h1 : lo ≤ l) (h2 : u ≤ hi) (h3 : l ≤ u) :
    max 0 (min hi u - max lo l) = u - l := by
  rw [min_eq_right h2, max_eq_right h1]
  exact max_eq_right (by linarith)

theorem TH1D.project_contents (t : TH1D) (hw : t.WellFormed) (cuboid : HyperCuboid)
    (content : ℚ) (dimension : Nat) (lo hi : ℚ)
    (hlo : cuboid.lowCorner.get? dimension = some lo)
    (hhi : cuboid.highCorner.get? dimension = some hi)
    (h1 : t.xlow ≤ lo) (h2 : lo < hi) (h3 : hi ≤ t.xup) :
    ∃ r, HyperHistogram.project t cuboid content dimension = some r ∧
      r.nbins = t.nbins ∧ r.xlow = t.xlow ∧ r.xup = t.xup ∧
      r.contents.length = t.contents.length ∧
      ∀ k, k ≤ t.nbins + 1 →
        r.GetBinContent k
          = t.GetBinContent k + content * t.overlapWidth lo hi k / (hi - lo) := by
  obtain ⟨l1, l2, l3, l4⟩ := t.findFixBin_spec hw lo h1 (by linarith)
  obtain ⟨u1, u2, u3, u4⟩ := t.findFixBin_spec hw hi (by linarith) h3
  have hp := t.binWidth_pos hw
  have htot : hi - lo ≠ 0 := (sub_pos.mpr h2).ne'
  have hlen := hw.2.2
  have hLH : t.FindFixBin lo ≤ t.FindFixBin hi := by
    by_contra hcon
    have := t.upEdge_le_lowEdge hw _ _ (Nat.lt_of_not_le hcon)
    linarith
  unfold HyperHistogram.project
  rw [hlo, hhi]
  simp only
  by_cases heq : t.FindFixBin lo = t.FindFixBin hi
  · rw [if_pos heq]
    refine ⟨_, rfl, rfl, rfl, rfl, by simp [TH1D.Fill], ?_⟩
    intro k hk
    show (t.contents.set (t.FindFixBin lo) (t.contents.getD (t.FindFixBin lo) 0 + content)).getD
      k 0 = t.contents.getD k 0 + _
    rw [getD_set]
    unfold TH1D.overlapWidth
    rcases lt_trichotomy k (t.FindFixBin lo) with hlt | hke | hgt
    · have e := t.upEdge_le_lowEdge hw _ _ hlt
      rw [if_neg (fun h => absurd h.1 (Nat.ne_of_lt hlt)),
        overlap_none_below lo hi _ _ (by linarith)]
      simp
    · subst hke
      rw [if_pos ⟨rfl, by omega⟩,
        overlap_inside lo hi _ _ l3 (by rw [heq]; exact u4.le) h2.le]
      rw [mul_div_assoc, div_self htot, mul_one]
    · have e := t.upEdge_le_lowEdge hw _ _ (heq ▸ hgt)
      rw [if_neg (fun h => absurd h.1 (Nat.ne_of_gt hgt)),
        overlap_none_above lo hi _ _ (by linarith)]
      simp
  · rw [if_neg heq]
    have hlt : t.FindFixBin lo < t.FindFixBin hi := Nat.lt_of_le_of_ne hLH heq
    have hmid : ∀ b ∈ List.range' (t.FindFixBin lo + 1) (t.FindFixBin hi - 1 - t.FindFixBin lo),
        1 ≤ b ∧ b ≤ t.nbins := by
      intro b hb
      rw [List.mem_range'_1] at hb
      omega
    have hfold := t.foldl_fill_middle hw (hi - lo) content
      (List.range' (t.FindFixBin lo + 1) (t.FindFixBin hi - 1 - t.FindFixBin lo))
      ((t.contents.set (t.FindFixBin lo) (t.contents.getD (t.FindFixBin lo) 0
          + ((t.GetBinUpEdge (t.FindFixBin lo) - lo) / (hi - lo)) * content)).set
        (t.FindFixBin hi)
        ((t.contents.set (t.FindFixBin lo) (t.contents.getD (t.FindFixBin lo) 0
          + ((t.GetBinUpEdge (t.FindFixBin lo) - lo) / (hi - lo)) * content)).getD
            (t.FindFixBin hi) 0
          + ((hi - t.GetBinLowEdge (t.FindFixBin hi)) / (hi - lo)) * content)) hmid
    refine ⟨_, congrArg some hfold, rfl, rfl, rfl, ?_, ?_⟩
    · have := (foldl_add_getD (fun _ => (t.binWidth / (hi - lo)) * content)
        (List.range' (t.FindFixBin lo + 1) (t.FindFixBin hi - 1 - t.FindFixBin lo))
        ((t.contents.set (t.FindFixBin lo) (t.contents.getD (t.FindFixBin lo) 0
            + ((t.GetBinUpEdge (t.FindFixBin lo) - lo) / (hi - lo)) * content)).set
          (t.FindFixBin hi)
          ((t.contents.set (t.FindFixBin lo) (t.contents.getD (t.FindFixBin lo) 0
            + ((t.GetBinUpEdge (t.FindFixBin lo) - lo) / (hi - lo)) * content)).getD
              (t.FindFixBin hi) 0
            + ((hi - t.GetBinLowEdge (t.FindFixBin hi)) / (hi - lo)) * content))
        (List.nodup_range' _ _) 0).1
      simpa using this
    · intro k hk
      have hg := (foldl_add_getD (fun _ => (t.binWidth / (hi - lo)) * content)
        (List.range' (t.FindFixBin lo + 1) (t.FindFixBin hi - 1 - t.FindFixBin lo))
        ((t.contents.set (t.FindFixBin lo) (t.contents.getD (t.FindFixBin lo) 0
            + ((t.GetBinUpEdge (t.FindFixBin lo) - lo) / (hi - lo)) * content)).set
          (t.FindFixBin hi)
          ((t.contents.set (t.FindFixBin lo) (t.contents.getD (t.FindFixBin lo) 0
            + ((t.GetBinUpEdge (t.FindFixBin lo) - lo) / (hi - lo)) * content)).getD
              (t.FindFixBin hi) 0
            + ((hi - t.GetBinLowEdge (t.FindFixBin hi)) / (hi - lo)) * content))
        (List.nodup_range' _ _) k).2
      show List.getD _ k 0 = t.contents.getD k 0 + _
      rw [hg, getD_set, getD_set, getD_set]
      simp only [List.mem_range'_1, List.length_set]
      have hb1 : t.FindFixBin lo < t.contents.length := by omega
      have hb2 : t.FindFixBin hi < t.contents.length := by omega
      have hk2 : k < t.contents.length := by omega
      unfold TH1D.overlapWidth
      have eLH := t.upEdge_le_lowEdge hw _ _ hlt
      rcases lt_trichotomy k (t.FindFixBin lo) with c1 | c1 | c1
      · have e := t.upEdge_le_lowEdge hw _ _ c1
        rw [overlap_none_below lo hi _ _ (by linarith)]
        split_ifs <;> first | (exfalso; omega) | ring
      · subst c1
        rw [overlap_low_part lo hi _ _ l3 l4.le (by linarith)]
        split_ifs <;> first | (exfalso; omega) | ring
      · rcases lt_trichotomy k (t.FindFixBin hi) with c2 | c2 | c2
        · have e1 := t.upEdge_le_lowEdge hw _ _ c1
          have e2 := t.upEdge_le_lowEdge hw _ _ c2
          have e3 := t.lowEdge_eq k
          rw [overlap_whole lo hi _ _ (by linarith) (by linarith) (by linarith), e3]
          split_ifs <;> first | (exfalso; omega) | ring
        · subst c2
          rw [overlap_high_part lo hi _ _ (by linarith) (by linarith) u4.le]
          split_ifs <;> first | (exfalso; omega) | ring
        · have e := t.upEdge_le_lowEdge hw _ _ c2
          rw [overlap_none_above lo hi _ _ (by linarith)]
          split_ifs <;> first | (exfalso; omega) | ring

theorem sum_range'_telescope (G : Nat → ℚ) :
    ∀ (n s : Nat), ((List.range' s n).map fun k => G (k + 1) - G k).sum = G (s + n) - G s := by
  intro n
  induction n with
  | zero => intro s; simp
  | succ n ih =>
    intro s
    rw [List.range'_succ, List.map_cons, List.sum_cons, ih (s + 1)]
    have e : s + 1 + n = s + (n + 1) := by omega
    rw [e]
    ring

theorem sum_map_scaled (c d : ℚ) (f : Nat → ℚ) (l : List Nat) :
    (l.map fun k => c * f k / d).sum = c * (l.map f).sum / d := by
  induction l with
  | nil => simp
  | cons x xs ih =>
    rw [List.map_cons, List.sum_cons, ih, List.map_cons, List.sum_cons]
    ring

theorem overlap_eq_clamp (lo hi l u : ℚ) (h1 : l ≤ u) (h2 : lo ≤ hi) :
    max 0 (min hi u - max lo l) = min hi (max lo u) - min hi (max lo l) := by
  simp only [min_def, max_def]
  split_ifs <;> linarith

theorem TH1D.sum_overlapWidth (t : TH1D) (hw : t.WellFormed) (lo hi : ℚ)
    (h1 : t.xlow ≤ lo) (h2 : lo < hi) (h3 : hi ≤ t.xup) :
    ((List.range' 1 t.nbins).map (t.overlapWidth lo hi)).sum = hi - lo := by
  have hp := t.binWidth_pos hw
  have hnw := t.nbins_mul_binWidth hw
  have hG : ∀ k, t.overlapWidth lo hi k
      = (fun j : Nat => min hi (max lo (t.GetBinLowEdge j))) (k + 1)
        - (fun j : Nat => min hi (max lo (t.GetBinLowEdge j))) k := by
    intro k
    have e : t.GetBinLowEdge (k + 1) = t.GetBinUpEdge k := by
      unfold TH1D.GetBinLowEdge TH1D.GetBinUpEdge
      push_cast
      ring
    have e2 := t.lowEdge_eq k
    show _ = min hi (max lo (t.GetBinLowEdge (k + 1))) - min hi (max lo (t.GetBinLowEdge k))
    rw [e]
    exact overlap_eq_clamp lo hi _ _ (by linarith) h2.le
  rw [List.map_congr_left fun k _ => hG k]
  rw [sum_range'_telescope (fun j : Nat => min hi (max lo (t.GetBinLowEdge j))) t.nbins 1]
  have e1 : t.GetBinLowEdge (1 + t.nbins) = t.xup := by
    unfold TH1D.GetBinLowEdge
    push_cast
    linarith
  have e0 : t.GetBinLowEdge 1 = t.xlow := by
    unfold TH1D.GetBinLowEdge
    push_cast
    ring
  show min hi (max lo (t.GetBinLowEdge (1 + t.nbins))) - min hi (max lo (t.GetBinLowEdge 1)) = _
  rw [e1, e0, max_eq_right (by linarith : lo ≤ t.xup), min_eq_left h3, max_eq_left h1,
    min_eq_right h2.le]

theorem HyperBinningHistogram.project_eq (histogram : TH1D) (cuboid : HyperCuboid)
    (content : ℚ) (dimension : Nat) :
    HyperBinningHistogram.project histogram cuboid content dimension
      = HyperHistogram.project histogram cuboid content dimension := rfl

/-- C19: for a target histogram with at least one bin over `[xlow, xup)` and a box
whose edges `low < high` in the projected dimension lie in `[xlow, xup]`,
`project` returns, and it has added to every slot `k` (bins, underflow and
overflow) exactly `content * overlapWidth / (high - low)`, where `overlapWidth`
is the length of the intersection of bin `k` with `[low, high]`; the underflow
and the overflow get nothing, and the amounts added to the bins `1 .. nbins` sum
to `content`.  This holds for `HyperHistogram` and for `HyperBinningHistogram`.
In the scenario, the box `[1,3]` with content 20 on 4 bins over `[0,4)` puts 10
into `[1,2)` and 10 into `[2,3)`. -/
theorem project_adds_overlap_fractions (histogram : TH1D) (cuboid : HyperCuboid)
    (content : ℚ) (dimension : Nat) (low high : ℚ) (hw : histogram.WellFormed)
    (hlo : cuboid.lowCorner.get? dimension = some low)
    (hhi : cuboid.highCorner.get? dimension = some high)
    (h1 : histogram.xlow ≤ low) (h2 : low < high) (h3 : high ≤ histogram.xup) :
    (∃ r, HyperHistogram.project histogram cuboid content dimension = some r ∧
      HyperBinningHistogram.project histogram cuboid content dimension = some r ∧
      r.nbins = histogram.nbins ∧ r.xlow = histogram.xlow ∧ r.xup = histogram.xup ∧
      ∀ k, k ≤ histogram.nbins + 1 →
        r.GetBinContent k = histogram.GetBinContent k
          + content * histogram.overlapWidth low high k / (high - low)) ∧
    histogram.overlapWidth low high 0 = 0 ∧
    histogram.overlapWidth low high (histogram.nbins + 1) = 0 ∧
    ((List.range' 1 histogram.nbins).map fun k =>
      content * histogram.overlapWidth low high k / (high - low)).sum = content ∧
    (HyperHistogram.project (TH1D.new 4 0 4) (interval 1 3) 20 0).map TH1D.contents
      = some [0, 0, 10, 10, 0, 0] := by
  obtain ⟨r, hr, a1, a2, a3, _, a5⟩ := histogram.project_contents hw cuboid content dimension
    low high hlo hhi h1 h2 h3
  have hnw := histogram.nbins_mul_binWidth hw
  refine ⟨⟨r, hr, by rw [HyperBinningHistogram.project_eq]; exact hr, a1, a2, a3, a5⟩,
    ?_, ?_, ?_, by decide!⟩
  · unfold TH1D.overlapWidth
    apply overlap_none_below
    unfold TH1D.GetBinUpEdge
    push_cast
    linarith
  · unfold TH1D.overlapWidth
    apply overlap_none_above
    unfold TH1D.GetBinLowEdge
    push_cast
    linarith
  · rw [sum_map_scaled, histogram.sum_overlapWidth hw low high h1 h2 h3, mul_div_assoc,
      div_self (sub_pos.mpr h2).ne', mul_one]

/-- Witness for C19: the scenario of the spec.  The bins `[0,1]`, `[1,3]`, `[3,4]`
with contents 10, 20, 5 are projected in turn onto 4 bins over `[0,4)`: the
slots end at `0, 10, 10, 10, 5, 0` (underflow, four bins, overflow), and the
amounts added for the box `[1,3]` sum to its content 20. -/
theorem project_adds_overlap_fractions_witness :
    (TH1D.new 4 0 4).WellFormed ∧
    (((HyperHistogram.project (TH1D.new 4 0 4) (interval 0 1) 10 0).bind fun t =>
        HyperHistogram.project t (interval 1 3) 20 0).bind fun t =>
          HyperHistogram.project t (interval 3 4) 5 0).map TH1D.contents
      = some [0, 10, 10, 10, 5, 0] ∧
    ((List.range' 1 (TH1D.new 4 0 4).nbins).map fun k =>
      20 * (TH1D.new 4 0 4).overlapWidth 1 3 k / (3 - 1)).sum = 20 :=
  ⟨by decide!, by decide!,
   (project_adds_overlap_fractions (TH1D.new 4 0 4) (interval 1 3) 20 0 1 3
      (by decide!) rfl rfl (by decide!) (by decide!) (by decide!)).2.2.2.1⟩


/-! ### Loading from a store without a binning table -/

theorem HyperHistogram.getBinningType_of_no_table (file : Store)
    (h : "HyperBinning" ∉ file.tables) : HyperHistogram.getBinningType file = "" := by
  unfold HyperHistogram.getBinningType
  rw [if_neg h]

/-- C20 (the code at the failing input): for every store without a table named
`HyperBinning`, `load` writes its error and then goes on: it calls
`_binning->load(filename, "READ")` on whatever `_binning` points to and then
`loadBase(filename)`, and `_binning` is left as it was.  Constructing a histogram
from such a file makes the call through the null pointer; a histogram that owns
a binning keeps it and reads the store into it.  With the table present the same
two calls are made on the new binning, without an error. -/
theorem load_without_binning_table_goes_on_reading :
    (∀ (binning : Option BinningKind) (file : Store) (option : String),
      "HyperBinning" ∉ file.tables →
      HyperHistogram.load binning file option
        = (binning,
           [LoadStep.errorLog
              "HyperHistogram::load - I could not find any binning scheme in this file",
            LoadStep.binningLoad binning file.filename "READ",
            LoadStep.loadBase file.filename])) ∧
    HyperHistogram.ofFile storeWithoutBinning "MEMRES"
      = (none,
         [LoadStep.errorLog
            "HyperHistogram::load - I could not find any binning scheme in this file",
          LoadStep.binningLoad none "hist.root" "READ",
          LoadStep.loadBase "hist.root"]) ∧
    HyperHistogram.load (some BinningKind.memRes) storeWithoutBinning "MEMRES"
      = (some BinningKind.memRes,
         [LoadStep.errorLog
            "HyperHistogram::load - I could not find any binning scheme in this file",
          LoadStep.binningLoad (some BinningKind.memRes) "hist.root" "READ",
          LoadStep.loadBase "hist.root"]) ∧
    HyperHistogram.ofFile storeWithBinning "MEMRES"
      = (some BinningKind.memRes,
         [LoadStep.newBinning BinningKind.memRes,
          LoadStep.binningLoad (some BinningKind.memRes) "hist.root" "READ",
          LoadStep.loadBase "hist.root"]) := by
  have hgen : ∀ (binning : Option BinningKind) (file : Store) (option : String),
      "HyperBinning" ∉ file.tables →
      HyperHistogram.load binning file option
        = (binning,
           [LoadStep.errorLog
              "HyperHistogram::load - I could not find any binning scheme in this file",
            LoadStep.binningLoad binning file.filename "READ",
            LoadStep.loadBase file.filename]) := by
    intro binning file option h
    have hc : TString.Contains "" "HyperBinning" = false := by decide
    unfold HyperHistogram.load
    simp only [HyperHistogram.getBinningType_of_no_table file h, hc]
    rfl
  refine ⟨hgen, hgen none storeWithoutBinning "MEMRES" (by decide),
    hgen _ storeWithoutBinning "MEMRES" (by decide), by decide⟩


/-! ### One pass of the merge: marking, renumbering, rebuilding -/

theorem markStep_eq (h : HyperHistogram) (removed : List Int) (i : Nat) :
    markStep h removed i
      = if (h.binning.getLinkedHyperVolumes i).length ≠ 0 ∧
            linksLeadToBins h.binning (h.binning.getLinkedHyperVolumes i) = true ∧
            binsHaveSameContent h (h.binning.getLinkedHyperVolumes i) = true
        then removed ++ h.binning.getLinkedHyperVolumes i else removed := by
  simp only [markStep]
  split_ifs with h0 h1 h2 h3 h3 <;> first | rfl | (exfalso; simp_all)

theorem foldl_markStep_mem (h : HyperHistogram) (v : Int) :
    ∀ (l : List Nat) (init : List Int),
      v ∈ l.foldl (markStep h) init ↔
        v ∈ init ∨ ∃ u ∈ l,
          ((h.binning.getLinkedHyperVolumes (u : Nat)).length ≠ 0 ∧
            linksLeadToBins h.binning (h.binning.getLinkedHyperVolumes (u : Nat)) = true ∧
            binsHaveSameContent h (h.binning.getLinkedHyperVolumes (u : Nat)) = true) ∧
          v ∈ h.binning.getLinkedHyperVolumes (u : Nat) := by
  intro l
  induction l with
  | nil => intro init; simp
  | cons x xs ih =>
    intro init
    rw [List.foldl_cons, ih, markStep_eq]
    by_cases hq : (h.binning.getLinkedHyperVolumes x).length ≠ 0 ∧
        linksLeadToBins h.binning (h.binning.getLinkedHyperVolumes x) = true ∧
        binsHaveSameContent h (h.binning.getLinkedHyperVolumes x) = true
    · rw [if_pos hq, List.mem_append]
      constructor
      · rintro ((hv | hv) | ⟨u, hu, hQ, hv⟩)
        · exact Or.inl hv
        · exact Or.inr ⟨x, List.mem_cons_self _ _, hq, hv⟩
        · exact Or.inr ⟨u, List.mem_cons_of_mem _ hu, hQ, hv⟩
      · rintro (hv | ⟨u, hu, hQ, hv⟩)
        · exact Or.inl (Or.inl hv)
        · rcases List.mem_cons.mp hu with rfl | hu
          · exact Or.inl (Or.inr hv)
          · exact Or.inr ⟨u, hu, hQ, hv⟩
    · rw [if_neg hq]
      constructor
      · rintro (hv | ⟨u, hu, hQ, hv⟩)
        · exact Or.inl hv
        · exact Or.inr ⟨u, List.mem_cons_of_mem _ hu, hQ, hv⟩
      · rintro (hv | ⟨u, hu, hQ, hv⟩)
        · exact Or.inl hv
        · rcases List.mem_cons.mp hu with rfl | hu
          · exact absurd hQ hq
          · exact Or.inr ⟨u, hu, hQ, hv⟩

theorem linksLeadToBins_iff (b : HyperBinning) (links : List Int) :
    linksLeadToBins b links = true ↔ ∀ c ∈ links, b.getLinkedHyperVolumes c = [] := by
  unfold linksLeadToBins
  rw [List.all_eq_true]
  constructor
  · intro hall c hc
    have := hall c hc
    exact List.length_eq_zero.mp (by simpa using this)
  · intro hall c hc
    simp [hall c hc]

theorem binsHaveSameContent_iff (h : HyperHistogram) (links : List Int) (hne : links ≠ []) :
    binsHaveSameContent h links = true ↔
      ∀ c ∈ links, ∀ d ∈ links,
        h.base.getBinContentInt (h.binning.getBinNumOfVolume c)
          = h.base.getBinContentInt (h.binning.getBinNumOfVolume d) := by
  unfold binsHaveSameContent
  rw [List.all_eq_true]
  have hhead : links.headD 0 ∈ links := by
    cases links with
    | nil => exact absurd rfl hne
    | cons x xs => simp
  constructor
  · intro hall c hc d hd
    have e1 := hall c hc
    have e2 := hall d hd
    rw [decide_eq_true_eq] at e1 e2
    rw [e1, e2]
  · intro hall c hc
    rw [decide_eq_true_eq]
    exact hall c hc _ hhead

theorem foldl_renumberStep (removed : List Int) (n : Nat) :
    (List.range n).foldl (renumberStep removed) { table := [], newVolNum := 0 }
      = { table := (List.range n).map fun i =>
            if volumeKept removed i then (((List.range i).countP (volumeKept removed) : Nat) : Int)
            else -1
          newVolNum := (List.range n).countP (volumeKept removed) } := by
  induction n with
  | zero => rfl
  | succ n ih =>
    rw [List.range_succ, List.foldl_append, ih]
    simp only [List.foldl_cons, List.foldl_nil, renumberStep, List.map_append, List.map_cons,
      List.map_nil, List.countP_append, List.countP_cons, List.countP_nil]
    by_cases hc : (n : Int) ∈ removed
    · simp [hc, volumeKept]
    · simp [hc, volumeKept]

theorem oldToNewVolumeNum_table (removed : List Int) (n i : Nat) (hi : i < n) :
    oldToNewVolumeNum (oldToNewTable n removed) i
      = if volumeKept removed i then (((List.range i).countP (volumeKept removed) : Nat) : Int)
        else -1 := by
  unfold oldToNewVolumeNum oldToNewTable
  rw [foldl_renumberStep]
  have h0 : ¬ ((i : Int) < 0) := by omega
  rw [if_neg h0, List.getD_eq_getElem?_getD, List.getElem?_map]
  simp only [Int.toNat_ofNat]
  rw [List.getElem?_range hi]
  rfl

theorem rebuildStep_removed (b : HyperBinning) (table : List Int) (acc : RebuildAcc) (i : Nat)
    (hi : oldToNewVolumeNum table i = -1) : rebuildStep b table acc i = acc := by
  simp only [rebuildStep, if_pos hi]

theorem rebuildStep_kept (b : HyperBinning) (table : List Int) (acc : RebuildAcc) (i : Nat)
    (hi : oldToNewVolumeNum table i = (acc.count : Int)) :
    rebuildStep b table acc i
      = { binningNew := acc.binningNew.addHyperVolume (b.getHyperVolume i)
            (newLinkedVols b table i)
          count := acc.count + 1
          log := acc.log ++
            if (newLinkedVols b table i).length = 1 then ["This should never be one"] else [] } := by
  have hne : ¬ oldToNewVolumeNum table i = -1 := by rw [hi]; omega
  have hc : ¬ (oldToNewVolumeNum table i ≠ (acc.count : Int)) := not_not.mpr hi
  unfold rebuildStep newLinkedVols
  simp only [if_neg hne, if_neg hc]
  split_ifs
  · rfl
  · rw [List.append_nil]

theorem foldl_rebuildStep (b : HyperBinning) (removed : List Int) (m : Nat)
    (hm : m ≤ b.getNumHyperVolumes) :
    (List.range m).foldl
        (rebuildStep b (oldToNewTable b.getNumHyperVolumes removed))
        { binningNew := HyperBinning.new, count := 0, log := [] }
      = { binningNew :=
            { dimension := (((List.range m).filter (volumeKept removed)).foldl
                (fun (d : Nat) i => if d = 0 then (b.getHyperVolume (i : Nat)).dimension else d) 0)
              nodes := ((List.range m).filter (volumeKept removed)).map fun i =>
                ({ volume := b.getHyperVolume (i : Nat)
                   links := newLinkedVols b
                     (oldToNewTable b.getNumHyperVolumes removed) i } : BinNode)
              primaryVolumeNumbers := []
              names := [] }
          count := (List.range m).countP (volumeKept removed)
          log := (((List.range m).filter (volumeKept removed)).filter fun i =>
              decide ((newLinkedVols b
                (oldToNewTable b.getNumHyperVolumes removed) i).length = 1)).map
            fun _ => "This should never be one" } := by
  induction m with
  | zero => rfl
  | succ m ih =>
    rw [List.range_succ, List.foldl_append, ih (by omega), List.foldl_cons, List.foldl_nil]
    have hnew := oldToNewVolumeNum_table removed b.getNumHyperVolumes m (by omega)
    by_cases hk : volumeKept removed m = true
    · rw [if_pos hk] at hnew
      rw [rebuildStep_kept _ _ _ _ hnew]
      simp only [List.filter_append, List.map_append, List.countP_append, List.foldl_append,
        List.filter_cons, List.filter_nil, hk, if_true, List.countP_cons, List.countP_nil,
        HyperBinning.addHyperVolume, List.map_cons, List.map_nil, List.foldl_cons,
        List.foldl_nil]
      congr 1
      by_cases h1 : (newLinkedVols b (oldToNewTable b.getNumHyperVolumes removed) m).length = 1
      · simp [h1]
      · simp [h1]
    · rw [if_neg hk] at hnew
      rw [rebuildStep_removed _ _ _ _ hnew]
      simp [List.filter_append, List.countP_append, hk]

theorem rebuildBinning_spec (b : HyperBinning) (removed : List Int) :
    (rebuildBinning b (oldToNewTable b.getNumHyperVolumes removed)).1.nodes
      = ((List.range b.getNumHyperVolumes).filter (volumeKept removed)).map (fun i =>
          ({ volume := b.getHyperVolume (i : Nat)
             links := newLinkedVols b (oldToNewTable b.getNumHyperVolumes removed) i }
            : BinNode)) ∧
    (rebuildBinning b (oldToNewTable b.getNumHyperVolumes removed)).1.primaryVolumeNumbers
      = b.primaryVolumeNumbers.map
          (oldToNewVolumeNum (oldToNewTable b.getNumHyperVolumes removed)) ∧
    (rebuildBinning b (oldToNewTable b.getNumHyperVolumes removed)).2
      = (((List.range b.getNumHyperVolumes).filter (volumeKept removed)).filter fun i =>
            decide ((newLinkedVols b
              (oldToNewTable b.getNumHyperVolumes removed) i).length = 1)).map
          fun _ => "This should never be one" := by
  unfold rebuildBinning
  simp only
  rw [foldl_rebuildStep b removed b.getNumHyperVolumes (Nat.le_refl _)]
  obtain ⟨h3, h4⟩ := foldl_addPrimary
    (oldToNewVolumeNum (oldToNewTable b.getNumHyperVolumes removed)) b.primaryVolumeNumbers
    { dimension := (((List.range b.getNumHyperVolumes).filter (volumeKept removed)).foldl
        (fun (d : Nat) i => if d = 0 then (b.getHyperVolume (i : Nat)).dimension else d) 0)
      nodes := ((List.range b.getNumHyperVolumes).filter (volumeKept removed)).map fun i =>
        ({ volume := b.getHyperVolume (i : Nat)
           links := newLinkedVols b (oldToNewTable b.getNumHyperVolumes removed) i } : BinNode)
      primaryVolumeNumbers := []
      names := [] }
  exact ⟨h3, by rw [h4]; rfl, rfl⟩

theorem getElem?_filter_range (p : Nat → Bool) :
    ∀ (n i : Nat), i < n → p i = true →
      ((List.range n).filter p)[(List.range i).countP p]? = some i := by
  intro n
  induction n with
  | zero => intro i hi; exact absurd hi (Nat.not_lt_zero _)
  | succ n ih =>
    intro i hi hp
    rw [List.range_succ, List.filter_append]
    by_cases hlt : i < n
    · have e := ih i hlt hp
      have hlen : (List.range i).countP p < ((List.range n).filter p).length := by
        by_contra hcon
        rw [List.getElem?_eq_none (Nat.le_of_not_lt hcon)] at e
        exact absurd e (by simp)
      rw [List.getElem?_append_left hlen]
      exact e
    · have hin : i = n := by omega
      subst hin
      have hlen : ((List.range i).filter p).length = (List.range i).countP p := by
        rw [List.countP_eq_length_filter]
      rw [List.getElem?_append_right (by rw [hlen]), hlen, Nat.sub_self]
      simp [hp]

theorem length_filter_range_le (p : Nat → Bool) (n i : Nat) (hi : i ≤ n) :
    (List.range i).countP p ≤ (List.range n).countP p := by
  obtain ⟨d, rfl⟩ := Nat.exists_eq_add_of_le hi
  rw [List.range_add, List.countP_append]
  omega

theorem countP_range_lt (p : Nat → Bool) (n i : Nat) (hi : i < n) (hp : p i = true) :
    (List.range i).countP p < (List.range n).countP p := by
  have e := getElem?_filter_range p n i hi hp
  by_contra hcon
  rw [List.getElem?_eq_none (by rw [← List.countP_eq_length_filter]; omega)] at e
  exact absurd e (by simp)

theorem countP_range_surj (p : Nat → Bool) :
    ∀ (n m : Nat), m < (List.range n).countP p →
      ∃ i, i < n ∧ p i = true ∧ (List.range i).countP p = m := by
  intro n
  induction n with
  | zero => intro m hm; simp at hm
  | succ n ih =>
    intro m hm
    rw [List.range_succ, List.countP_append] at hm
    by_cases hlt : m < (List.range n).countP p
    · obtain ⟨i, hi, hp, he⟩ := ih m hlt
      exact ⟨i, by omega, hp, he⟩
    · have hp : p n = true := by
        by_contra hpn
        simp [hpn] at hm
        omega
      have : (List.countP p [n]) = 1 := by simp [hp]
      exact ⟨n, Nat.lt_succ_self _, hp, by omega⟩

theorem oldToNewVolumeNum_eq_neg_one_iff (removed : List Int) (n : Nat) (c : Int)
    (h0 : 0 ≤ c) (hn : c < (n : Int)) :
    oldToNewVolumeNum (oldToNewTable n removed) c = -1 ↔ c ∈ removed := by
  have hc : c = ((c.toNat : Nat) : Int) := (Int.toNat_of_nonneg h0).symm
  have hlt : c.toNat < n := by omega
  have e := oldToNewVolumeNum_table removed n c.toNat hlt
  rw [← hc] at e
  rw [e]
  unfold volumeKept
  rw [← hc]
  by_cases hm : c ∈ removed
  · simp [hm]
  · have hcon : removed.contains c = false := by simpa using hm
    rw [hcon]
    simp only [Bool.not_false, if_true, hm, iff_false]
    omega

theorem volumeKept_iff (removed : List Int) (i : Nat) :
    volumeKept removed i = true ↔ (i : Int) ∉ removed := by
  unfold volumeKept
  simp

theorem rebuilt_node (b : HyperBinning) (removed : List Int) (i : Nat)
    (hi : i < b.getNumHyperVolumes) (hk : (i : Int) ∉ removed) :
    (rebuildBinning b (oldToNewTable b.getNumHyperVolumes removed)).1.getNode
        (oldToNewVolumeNum (oldToNewTable b.getNumHyperVolumes removed) i)
      = some { volume := b.getHyperVolume i
               links := newLinkedVols b (oldToNewTable b.getNumHyperVolumes removed) i } := by
  have hkept := (volumeKept_iff removed i).mpr hk
  rw [oldToNewVolumeNum_table removed _ i hi, if_pos hkept]
  unfold HyperBinning.getNode
  have h0 : ¬ ((((List.range i).countP (volumeKept removed) : Nat) : Int) < 0) := by omega
  rw [if_neg h0, (rebuildBinning_spec b removed).1, Int.toNat_ofNat, List.get?_eq_getElem?,
    List.getElem?_map, getElem?_filter_range (volumeKept removed) _ i hi hkept]
  rfl

theorem newLinkedVols_of_inRange (b : HyperBinning) (removed : List Int) (i : Nat)
    (hR : b.IndicesInRange) (hi : i < b.getNumHyperVolumes) :
    newLinkedVols b (oldToNewTable b.getNumHyperVolumes removed) i
      = ((b.getLinkedHyperVolumes i).filter fun c => decide (c ∉ removed)).map
          (oldToNewVolumeNum (oldToNewTable b.getNumHyperVolumes removed)) := by
  unfold newLinkedVols
  rw [List.filter_map]
  congr 1
  apply List.filter_congr
  intro c hc
  have hin := b.links_inRange hR i ⟨by omega, by
    unfold HyperBinning.getNumHyperVolumes at hi; exact_mod_cast hi⟩ c hc
  have e := oldToNewVolumeNum_eq_neg_one_iff removed b.getNumHyperVolumes c hin.1 hin.2
  simp only [Function.comp, ne_eq, decide_not]
  by_cases hm : c ∈ removed
  · simp [hm, e.mpr hm]
  · have : ¬ oldToNewVolumeNum (oldToNewTable b.getNumHyperVolumes removed) c = -1 :=
      fun h => hm (e.mp h)
    simp [hm, this]


/-- C21: in one pass of `mergeBinsWithSameContent` a node number `v` is marked for
removal if and only if some node `u` has a non-empty link list that contains
`v`, every node linked from `u` has an empty link list, and all nodes linked
from `u` hold the same bin content; and a node of the graph gets the new number
-1 (is not kept) if and only if it is marked. -/
theorem nodes_marked_are_equal_leaf_groups (h : HyperHistogram) (v : Int) :
    (v ∈ removedVolumes h ↔
      ∃ u : Nat, u < h.binning.getNumHyperVolumes ∧
        h.binning.getLinkedHyperVolumes u ≠ [] ∧
        v ∈ h.binning.getLinkedHyperVolumes u ∧
        (∀ c ∈ h.binning.getLinkedHyperVolumes u, h.binning.getLinkedHyperVolumes c = []) ∧
        (∀ c ∈ h.binning.getLinkedHyperVolumes u, ∀ d ∈ h.binning.getLinkedHyperVolumes u,
          h.base.getBinContentInt (h.binning.getBinNumOfVolume c)
            = h.base.getBinContentInt (h.binning.getBinNumOfVolume d))) ∧
    (∀ i : Nat, i < h.binning.getNumHyperVolumes →
      (oldToNewVolumeNum (oldToNewTable h.binning.getNumHyperVolumes (removedVolumes h)) i = -1
        ↔ (i : Int) ∈ removedVolumes h)) := by
  refine ⟨?_, fun i hi =>
    oldToNewVolumeNum_eq_neg_one_iff _ _ _ (by omega) (by exact_mod_cast hi)⟩
  unfold removedVolumes
  rw [foldl_markStep_mem]
  constructor
  · rintro (hv | ⟨u, hu, ⟨q1, q2, q3⟩, hv⟩)
    · exact absurd hv (List.not_mem_nil _)
    · have hne : h.binning.getLinkedHyperVolumes u ≠ [] :=
        fun e => q1 (by rw [e]; rfl)
      exact ⟨u, List.mem_range.mp hu, hne, hv, (linksLeadToBins_iff _ _).mp q2,
        (binsHaveSameContent_iff h _ hne).mp q3⟩
  · rintro ⟨u, hu, hne, hv, q2, q3⟩
    exact Or.inr ⟨u, List.mem_range.mpr hu,
      ⟨fun e => hne (List.length_eq_zero.mp e), (linksLeadToBins_iff _ _).mpr q2,
        (binsHaveSameContent_iff h _ hne).mpr q3⟩, hv⟩

/-- C22: the renumbering built by `mergeBinsWithSameContent` gives every removed node
-1 and gives a kept node the number of kept nodes before it: with `k` kept
nodes, the new numbers of the kept nodes lie in `[0, k)`, increase strictly with
the old number, and every number below `k` is taken.  In the rebuild loop the
new number of a kept node equals `count` when its round begins, and the message
`Something has gone wrong in mergeBinsWithSameContent()` is never logged. -/
theorem renumbering_keeps_order (rt : RangeTest) (h : HyperHistogram) :
    (∀ i : Nat, i < h.binning.getNumHyperVolumes →
      ((i : Int) ∈ removedVolumes h →
        oldToNewVolumeNum (oldToNewTable h.binning.getNumHyperVolumes (removedVolumes h)) i
          = -1) ∧
      ((i : Int) ∉ removedVolumes h →
        oldToNewVolumeNum (oldToNewTable h.binning.getNumHyperVolumes (removedVolumes h)) i
          = (((List.range i).countP (volumeKept (removedVolumes h)) : Nat) : Int) ∧
        (((List.range i).countP (volumeKept (removedVolumes h)) : Nat) : Int)
          < (((List.range h.binning.getNumHyperVolumes).countP
              (volumeKept (removedVolumes h)) : Nat) : Int) ∧
        oldToNewVolumeNum (oldToNewTable h.binning.getNumHyperVolumes (removedVolumes h)) i
          = (((List.range i).foldl
              (rebuildStep h.binning
                (oldToNewTable h.binning.getNumHyperVolumes (removedVolumes h)))
              { binningNew := HyperBinning.new, count := 0, log := [] }).count : Int))) ∧
    (∀ i j : Nat, i < j → j < h.binning.getNumHyperVolumes →
      (i : Int) ∉ removedVolumes h → (j : Int) ∉ removedVolumes h →
      oldToNewVolumeNum (oldToNewTable h.binning.getNumHyperVolumes (removedVolumes h)) i
        < oldToNewVolumeNum (oldToNewTable h.binning.getNumHyperVolumes (removedVolumes h)) j) ∧
    (∀ m : Nat, m < (List.range h.binning.getNumHyperVolumes).countP
        (volumeKept (removedVolumes h)) →
      ∃ i : Nat, i < h.binning.getNumHyperVolumes ∧ (i : Int) ∉ removedVolumes h ∧
        oldToNewVolumeNum (oldToNewTable h.binning.getNumHyperVolumes (removedVolumes h)) i
          = (m : Int)) ∧
    (mergePass rt h).1.binning.getNumHyperVolumes
      = (List.range h.binning.getNumHyperVolumes).countP (volumeKept (removedVolumes h)) ∧
    "Something has gone wrong in mergeBinsWithSameContent()" ∉ (mergePass rt h).2 := by
  have hnew : ∀ i : Nat, i < h.binning.getNumHyperVolumes → (i : Int) ∉ removedVolumes h →
      oldToNewVolumeNum (oldToNewTable h.binning.getNumHyperVolumes (removedVolumes h)) i
        = (((List.range i).countP (volumeKept (removedVolumes h)) : Nat) : Int) := by
    intro i hi hk
    rw [oldToNewVolumeNum_table _ _ i hi, if_pos ((volumeKept_iff _ i).mpr hk)]
  refine ⟨?_, ?_, ?_, ?_, ?_⟩
  · intro i hi
    refine ⟨fun hr => (oldToNewVolumeNum_eq_neg_one_iff _ _ _ (by omega)
      (by exact_mod_cast hi)).mpr hr, fun hk => ⟨hnew i hi hk, ?_, ?_⟩⟩
    · exact_mod_cast countP_range_lt _ _ i hi ((volumeKept_iff _ i).mpr hk)
    · rw [hnew i hi hk, foldl_rebuildStep h.binning (removedVolumes h) i (Nat.le_of_lt hi)]
  · intro i j hij hj hki hkj
    rw [hnew i (by omega) hki, hnew j hj hkj]
    exact_mod_cast countP_range_lt _ _ i hij ((volumeKept_iff _ i).mpr hki)
  · intro m hm
    obtain ⟨i, hi, hp, he⟩ := countP_range_surj _ _ m hm
    have hk := (volumeKept_iff _ i).mp hp
    exact ⟨i, hi, hk, by rw [hnew i hi hk, he]⟩
  · rw [mergePass_binning]
    show (rebuildBinning h.binning
      (oldToNewTable h.binning.getNumHyperVolumes (removedVolumes h))).1.nodes.length = _
    rw [(rebuildBinning_spec h.binning (removedVolumes h)).1, List.length_map,
      List.countP_eq_length_filter]
  · have e : (mergePass rt h).2
        = (rebuildBinning h.binning
            (oldToNewTable h.binning.getNumHyperVolumes (removedVolumes h))).2 := rfl
    rw [e, (rebuildBinning_spec h.binning (removedVolumes h)).2.2]
    intro hmem
    obtain ⟨_, _, hx⟩ := List.mem_map.mp hmem
    exact absurd hx (by decide)


theorem HyperBinning.getHyperVolume_of_getNode (b : HyperBinning) (v : Int) (n : BinNode)
    (h : b.getNode v = some n) : b.getHyperVolume v = n.volume := by
  unfold HyperBinning.getHyperVolume
  rw [h]

theorem HyperBinning.getLinked_of_getNode (b : HyperBinning) (v : Int) (n : BinNode)
    (h : b.getNode v = some n) : b.getLinkedHyperVolumes v = n.links := by
  unfold HyperBinning.getLinkedHyperVolumes
  rw [h]

theorem HyperBinning.getBinNumOfVolume_of_leaf (b : HyperBinning) (v : Int) (n : BinNode)
    (h : b.getNode v = some n) (hl : n.links = []) : b.getBinNumOfVolume v ≠ -1 := by
  unfold HyperBinning.getBinNumOfVolume
  rw [h]
  simp only [BinNode.isLeaf, hl, List.isEmpty_nil, if_true]
  omega

theorem HyperBinning.getBinNumOfVolume_of_internal (b : HyperBinning) (v : Int) (n : BinNode)
    (h : b.getNode v = some n) (hl : n.links ≠ []) : b.getBinNumOfVolume v = -1 := by
  unfold HyperBinning.getBinNumOfVolume
  rw [h]
  have : n.isLeaf = false := by
    unfold BinNode.isLeaf
    cases hq : n.links with
    | nil => exact absurd hq hl
    | cons _ _ => rfl
  simp only [this, Bool.false_eq_true, if_false]

theorem mergePass_node (rt : RangeTest) (h : HyperHistogram) (i : Nat)
    (hi : i < h.binning.getNumHyperVolumes) (hk : (i : Int) ∉ removedVolumes h) :
    (mergePass rt h).1.binning.getNode
        (oldToNewVolumeNum (oldToNewTable h.binning.getNumHyperVolumes (removedVolumes h)) i)
      = some { volume := h.binning.getHyperVolume i
               links := newLinkedVols h.binning
                 (oldToNewTable h.binning.getNumHyperVolumes (removedVolumes h)) i } := by
  rw [mergePass_binning]
  exact rebuilt_node h.binning (removedVolumes h) i hi hk

/-- C23: in the bin graph rebuilt by one pass of `mergeBinsWithSameContent` from a graph
whose node numbers name nodes, the node with the new number of a kept node `i`
owns the region of the old node `i`; its link list is the list of the new
numbers of the linked volumes of `i` that are kept, in their order; and the
primary list is the list of the new numbers of the old primaries, in order. -/
theorem rebuilt_graph_is_the_renumbered_graph (rt : RangeTest) (h : HyperHistogram) (i : Nat)
    (hR : h.binning.IndicesInRange) (hi : i < h.binning.getNumHyperVolumes)
    (hk : (i : Int) ∉ removedVolumes h) :
    (mergePass rt h).1.binning.getHyperVolume
        (oldToNewVolumeNum (oldToNewTable h.binning.getNumHyperVolumes (removedVolumes h)) i)
      = h.binning.getHyperVolume i ∧
    (mergePass rt h).1.binning.getLinkedHyperVolumes
        (oldToNewVolumeNum (oldToNewTable h.binning.getNumHyperVolumes (removedVolumes h)) i)
      = ((h.binning.getLinkedHyperVolumes i).filter
            fun c => decide (c ∉ removedVolumes h)).map
          (oldToNewVolumeNum (oldToNewTable h.binning.getNumHyperVolumes (removedVolumes h))) ∧
    (mergePass rt h).1.binning.primaryVolumeNumbers
      = h.binning.primaryVolumeNumbers.map
          (oldToNewVolumeNum (oldToNewTable h.binning.getNumHyperVolumes (removedVolumes h))) := by
  have hn := mergePass_node rt h i hi hk
  refine ⟨?_, ?_, ?_⟩
  · rw [HyperBinning.getHyperVolume_of_getNode _ _ _ hn]
  · rw [HyperBinning.getLinked_of_getNode _ _ _ hn]
    exact newLinkedVols_of_inRange h.binning (removedVolumes h) i hR hi
  · rw [mergePass_binning]
    exact (rebuildBinning_spec h.binning (removedVolumes h)).2.1

/-- Witness for C23: the two-level histogram on `[0,10]`.  The leaves 3 and 4 are
removed; the kept node 1 keeps its number and its region `[0,5]` and has no
link left, the kept node 0 keeps its links `1, 2`, and the primary list stays
`0`. -/
theorem rebuilt_graph_is_the_renumbered_graph_witness :
    twoLevelHist.binning.IndicesInRange ∧ 1 < twoLevelHist.binning.getNumHyperVolumes ∧
    ((1 : Nat) : Int) ∉ removedVolumes twoLevelHist ∧
    removedVolumes twoLevelHist = [3, 4] ∧
    oldToNewVolumeNum (oldToNewTable twoLevelHist.binning.getNumHyperVolumes
      (removedVolumes twoLevelHist)) 1 = 1 ∧
    (mergePass halfOpen twoLevelHist).1.binning.getLinkedHyperVolumes 0 = [1, 2] ∧
    (mergePass halfOpen twoLevelHist).1.binning.getHyperVolume
        (oldToNewVolumeNum (oldToNewTable twoLevelHist.binning.getNumHyperVolumes
          (removedVolumes twoLevelHist)) (1 : Nat))
      = twoLevelHist.binning.getHyperVolume (1 : Nat) :=
  ⟨by decide, by decide, by decide!, by decide!, by decide!, by decide!,
   (rebuilt_graph_is_the_renumbered_graph halfOpen twoLevelHist 1
      (by decide) (by decide) (by decide!)).1⟩

/-- Counterexample for C24 as stated: in the two-level histogram node 1 is an internal
node whose linked volumes 3 and 4 are both removed by the pass.  In the rebuilt
binning node 1 has an empty link list: it is a leaf, bin number 0 of the 2 bins
of the rebuilt binning, with content 7. -/
theorem collapsed_parent_becomes_a_bin :
    twoLevelHist.binning.getLinkedHyperVolumes 1 = [3, 4] ∧
    removedVolumes twoLevelHist = [3, 4] ∧
    oldToNewVolumeNum (oldToNewTable twoLevelHist.binning.getNumHyperVolumes
      (removedVolumes twoLevelHist)) 1 = 1 ∧
    (mergePass halfOpen twoLevelHist).1.binning.getLinkedHyperVolumes 1 = [] ∧
    ((mergePass halfOpen twoLevelHist).1.binning.getNode 1).map BinNode.isLeaf = some true ∧
    (mergePass halfOpen twoLevelHist).1.binning.getBinNumOfVolume 1 = 0 ∧
    (mergePass halfOpen twoLevelHist).1.binning.getNumBins = 2 ∧
    (mergePass halfOpen twoLevelHist).1.base.binContentsList = [7, 3] := by
  refine ⟨by decide, by decide!, by decide!, by decide!, by decide!, by decide!, by decide!,
    by decide!⟩

/-- C24 (amended): after one pass of `mergeBinsWithSameContent` on a graph whose node
numbers name nodes, a kept internal node (not a bin before the pass) all of
whose linked volumes were removed has an empty link list in the rebuilt binning,
that is, it is a leaf and has a bin number there; a kept internal node with a
linked volume that is kept has a non-empty link list and stays internal. -/
theorem collapsed_parent_is_a_leaf_of_the_rebuilt_graph (rt : RangeTest) (h : HyperHistogram)
    (u : Nat) (hR : h.binning.IndicesInRange) (hu : u < h.binning.getNumHyperVolumes)
    (hk : (u : Int) ∉ removedVolumes h) (hint : h.binning.getLinkedHyperVolumes u ≠ []) :
    h.binning.getBinNumOfVolume u = -1 ∧
    ((∀ c ∈ h.binning.getLinkedHyperVolumes u, c ∈ removedVolumes h) →
      (mergePass rt h).1.binning.getLinkedHyperVolumes
          (oldToNewVolumeNum (oldToNewTable h.binning.getNumHyperVolumes (removedVolumes h)) u)
        = [] ∧
      (mergePass rt h).1.binning.getBinNumOfVolume
          (oldToNewVolumeNum (oldToNewTable h.binning.getNumHyperVolumes (removedVolumes h)) u)
        ≠ -1) ∧
    ((∃ c ∈ h.binning.getLinkedHyperVolumes u, c ∉ removedVolumes h) →
      (mergePass rt h).1.binning.getLinkedHyperVolumes
          (oldToNewVolumeNum (oldToNewTable h.binning.getNumHyperVolumes (removedVolumes h)) u)
        ≠ [] ∧
      (mergePass rt h).1.binning.getBinNumOfVolume
          (oldToNewVolumeNum (oldToNewTable h.binning.getNumHyperVolumes (removedVolumes h)) u)
        = -1) := by
  have hn := mergePass_node rt h u hu hk
  have hl := newLinkedVols_of_inRange h.binning (removedVolumes h) u hR hu
  refine ⟨?_, ?_, ?_⟩
  · obtain ⟨n, hnode, _⟩ := h.binning.getNode_of_inRange u
      ⟨by omega, by unfold HyperBinning.getNumHyperVolumes at hu; exact_mod_cast hu⟩
    rw [HyperBinning.getLinked_of_getNode _ _ _ hnode] at hint
    exact HyperBinning.getBinNumOfVolume_of_internal _ _ _ hnode hint
  · intro hall
    have he : newLinkedVols h.binning
        (oldToNewTable h.binning.getNumHyperVolumes (removedVolumes h)) u = [] := by
      rw [hl, List.map_eq_nil_iff, List.filter_eq_nil_iff]
      intro c hc
      simpa using hall c hc
    rw [HyperBinning.getLinked_of_getNode _ _ _ hn]
    exact ⟨he, HyperBinning.getBinNumOfVolume_of_leaf _ _ _ hn he⟩
  · rintro ⟨c, hc, hkc⟩
    have hne : newLinkedVols h.binning
        (oldToNewTable h.binning.getNumHyperVolumes (removedVolumes h)) u ≠ [] := by
      rw [hl]
      intro e
      rw [List.map_eq_nil_iff, List.filter_eq_nil_iff] at e
      exact e c hc (by simpa using hkc)
    rw [HyperBinning.getLinked_of_getNode _ _ _ hn]
    exact ⟨hne, HyperBinning.getBinNumOfVolume_of_internal _ _ _ hn hne⟩

/-- Witness for C24 (amended): node 1 of the two-level histogram, whose linked volumes
3 and 4 are both removed, is a leaf of the rebuilt binning. -/
theorem collapsed_parent_is_a_leaf_of_the_rebuilt_graph_witness :
    twoLevelHist.binning.IndicesInRange ∧ 1 < twoLevelHist.binning.getNumHyperVolumes ∧
    ((1 : Nat) : Int) ∉ removedVolumes twoLevelHist ∧
    twoLevelHist.binning.getLinkedHyperVolumes (1 : Nat) ≠ [] ∧
    (∀ c ∈ twoLevelHist.binning.getLinkedHyperVolumes (1 : Nat),
      c ∈ removedVolumes twoLevelHist) ∧
    (mergePass halfOpen twoLevelHist).1.binning.getLinkedHyperVolumes
        (oldToNewVolumeNum (oldToNewTable twoLevelHist.binning.getNumHyperVolumes
          (removedVolumes twoLevelHist)) (1 : Nat)) = [] :=
  ⟨by decide, by decide, by decide!, by decide, by decide!,
   ((collapsed_parent_is_a_leaf_of_the_rebuilt_graph halfOpen twoLevelHist 1
      (by decide) (by decide) (by decide!) (by decide)).2.1 (by decide!)).1⟩


/-! ### Projecting a region, filling a point set -/

theorem foldl_range_get {α β : Type} (f : β → α → β) :
    ∀ (l : List α) (g : β → Nat → β),
      (∀ a i, g a i = ((l.get? i).map (f a)).getD a) → ∀ init : β,
      (List.range l.length).foldl g init = l.foldl f init := by
  intro l
  induction l with
  | nil => intro g _ init; rfl
  | cons x xs ih =>
    intro g hg init
    rw [List.length_cons, List.range_succ_eq_map, List.foldl_cons, List.foldl_map,
      List.foldl_cons]
    have h0 : g init 0 = f init x := by rw [hg]; rfl
    rw [h0]
    exact ih (fun a i => g a (Nat.succ i)) (fun a i => (hg a (Nat.succ i)).trans rfl) (f init x)

theorem foldlM_range_get {α β : Type} (f : β → α → Option β) :
    ∀ (l : List α) (g : β → Nat → Option β),
      (∀ a i, g a i = (l.get? i).bind (f a)) → ∀ init : β,
      (List.range l.length).foldlM g init = l.foldlM f init := by
  intro l
  induction l with
  | nil => intro g _ init; rfl
  | cons x xs ih =>
    intro g hg init
    rw [List.length_cons, List.range_succ_eq_map, List.foldlM_cons, List.foldlM_cons]
    have h0 : g init 0 = f init x := by rw [hg]; rfl
    rw [h0]
    show (f init x).bind _ = (f init x).bind _
    cases hf : f init x with
    | none => rfl
    | some a =>
      show List.foldlM _ a (List.map Nat.succ (List.range xs.length)) = List.foldlM f a xs
      rw [List.foldlM_map]
      exact ih (fun a i => g a (Nat.succ i)) (fun a i => (hg a (Nat.succ i)).trans rfl) a

theorem sum_map_share {α : Type} (c d : ℚ) (f : α → ℚ) (l : List α) :
    (l.map fun x => c * f x / d).sum = c * (l.map f).sum / d := by
  induction l with
  | nil => simp
  | cons x xs ih =>
    rw [List.map_cons, List.sum_cons, ih, List.map_cons, List.sum_cons]
    ring

theorem sum_map_bump (f : Nat → ℚ) (b : Nat) (w : ℚ) :
    ∀ m, ((List.range m).map fun j => if j = b then f b + w else f j).sum
      = ((List.range m).map f).sum + if b < m then w else 0 := by
  intro m
  induction m with
  | zero => simp
  | succ m ih =>
    rw [List.range_succ, List.map_append, List.sum_append, ih, List.map_append,
      List.sum_append]
    simp only [List.map_cons, List.map_nil, List.sum_cons, List.sum_nil, add_zero]
    by_cases h1 : m = b
    · subst h1
      simp
      ring
    · by_cases h2 : b < m
      · have : b < m + 1 := by omega
        simp [h1, h2, this]
        ring
      · have : ¬ b < m + 1 := by omega
        simp [h1, h2, this]

theorem HistogramBase.fillBase_totalWithOverflow (h : HistogramBase) (bin : Nat) (w : ℚ)
    (hs : h.WellSized) (hb : bin ≤ h.nBins) :
    (h.fillBase bin w).totalWithOverflow = h.totalWithOverflow + w := by
  unfold HistogramBase.totalWithOverflow
  have hn : (h.fillBase bin w).nBins = h.nBins := rfl
  have hlt : bin < h.binContents.length := by rw [hs.1]; omega
  rw [hn, List.map_congr_left fun j _ => h.fillBase_content bin w j]
  have e : (fun j => if j = bin ∧ bin < h.binContents.length then h.getBinContent bin + w
      else h.getBinContent j)
      = fun j => if j = bin then h.getBinContent bin + w else h.getBinContent j := by
    funext j
    simp [hlt]
  rw [e, sum_map_bump h.getBinContent bin w (h.nBins + 1), if_pos (by omega)]

theorem HyperHistogram.fill_wellFormed (rt : RangeTest) (h : HyperHistogram) (p : HyperPoint)
    (w : ℚ) (hh : h.WellFormed) :
    (h.fill rt p w).1.WellFormed ∧
    (h.fill rt p w).1.base.totalWithOverflow = h.base.totalWithOverflow + w :=
  ⟨⟨HistogramBase.fillBase_wellSized _ _ _ hh.1, hh.2⟩,
   HistogramBase.fillBase_totalWithOverflow _ _ _ hh.1
     (by rw [hh.2]; exact HyperBinning.getBinNum_le rt h.binning p)⟩

theorem HyperBinningHistogram.fill_keeps_wellFormed (rt : RangeTest) (h : HyperBinningHistogram)
    (p : HyperPoint) (w : ℚ) (hh : h.WellFormed) :
    (h.fill rt p w).1.WellFormed ∧
    (h.fill rt p w).1.base.totalWithOverflow = h.base.totalWithOverflow + w :=
  ⟨⟨HistogramBase.fillBase_wellSized _ _ _ hh.1, hh.2⟩,
   HistogramBase.fillBase_totalWithOverflow _ _ _ hh.1
     (by rw [hh.2]; exact HyperBinning.getBinNum_le rt h.binning p)⟩

theorem HyperHistogram.fillInOrder_spec (rt : RangeTest) :
    ∀ (points : List HyperPoint) (h : HyperHistogram), h.WellFormed →
      h.fillInOrder rt points
        = points.foldl (fun hist p => (hist.fill rt p (p.getWeight 0)).1) h ∧
      (h.fillInOrder rt points).WellFormed ∧
      (h.fillInOrder rt points).base.totalWithOverflow
        = h.base.totalWithOverflow + (points.map fun p => p.getWeight 0).sum := by
  intro points
  induction points with
  | nil => intro h hh; exact ⟨rfl, hh, by simp [HyperHistogram.fillInOrder]⟩
  | cons p ps ih =>
    intro h hh
    obtain ⟨w1, w2⟩ := h.fill_wellFormed rt p (p.getWeight 0) hh
    obtain ⟨a1, a2, a3⟩ := ih (h.fill rt p (p.getWeight 0)).1 w1
    refine ⟨a1, a2, ?_⟩
    show (HyperHistogram.fillInOrder rt (h.fill rt p (p.getWeight 0)).1 ps).base.totalWithOverflow
      = _
    rw [a3, w2, List.map_cons, List.sum_cons]
    ring

theorem HyperBinningHistogram.fillInOrder_result (rt : RangeTest) :
    ∀ (points : List HyperPoint) (h : HyperBinningHistogram), h.WellFormed →
      h.fillInOrder rt points
        = points.foldl (fun hist p => (hist.fill rt p (p.getWeight 0)).1) h ∧
      (h.fillInOrder rt points).WellFormed ∧
      (h.fillInOrder rt points).base.totalWithOverflow
        = h.base.totalWithOverflow + (points.map fun p => p.getWeight 0).sum := by
  intro points
  induction points with
  | nil => intro h hh; exact ⟨rfl, hh, by simp [HyperBinningHistogram.fillInOrder]⟩
  | cons p ps ih =>
    intro h hh
    obtain ⟨w1, w2⟩ := h.fill_keeps_wellFormed rt p (p.getWeight 0) hh
    obtain ⟨a1, a2, a3⟩ := ih (h.fill rt p (p.getWeight 0)).1 w1
    refine ⟨a1, a2, ?_⟩
    show (HyperBinningHistogram.fillInOrder rt (h.fill rt p (p.getWeight 0)).1
      ps).base.totalWithOverflow = _
    rw [a3, w2, List.map_cons, List.sum_cons]
    ring

/-- C25: `project(histogram, hyperVolume, content, dim)` projects the boxes of the
region one after the other, box `c` with the content
`content * volume(c) / volume(region)`; when the volume of the region is not 0
these shares sum to `content`.  This holds for `HyperHistogram` and for
`HyperBinningHistogram`. -/
theorem projectVolume_gives_each_box_its_share (histogram : TH1D) (hyperVolume : HyperVolume)
    (content : ℚ) (dimension : Nat) (hv : hyperVolume.volume ≠ 0) :
    HyperHistogram.projectVolume histogram hyperVolume content dimension
      = hyperVolume.hyperCuboids.foldlM
          (fun hist cuboid => HyperHistogram.project hist cuboid
            (content * cuboid.volume / hyperVolume.volume) dimension) histogram ∧
    HyperBinningHistogram.projectVolume histogram hyperVolume content dimension
      = hyperVolume.hyperCuboids.foldlM
          (fun hist cuboid => HyperBinningHistogram.project hist cuboid
            (content * cuboid.volume / hyperVolume.volume) dimension) histogram ∧
    (hyperVolume.hyperCuboids.map fun cuboid =>
      content * cuboid.volume / hyperVolume.volume).sum = content := by
  refine ⟨?_, ?_, ?_⟩
  · exact foldlM_range_get
      (fun hist cuboid => HyperHistogram.project hist cuboid
        (content * cuboid.volume / hyperVolume.volume) dimension)
      hyperVolume.hyperCuboids _
      (fun a i => by
        unfold HyperVolume.getHyperCuboid
        cases hyperVolume.hyperCuboids.get? i <;> rfl) histogram
  · exact foldlM_range_get
      (fun hist cuboid => HyperBinningHistogram.project hist cuboid
        (content * cuboid.volume / hyperVolume.volume) dimension)
      hyperVolume.hyperCuboids _
      (fun a i => by
        unfold HyperVolume.getHyperCuboid
        cases hyperVolume.hyperCuboids.get? i <;> rfl) histogram
  · rw [sum_map_share]
    have e : (hyperVolume.hyperCuboids.map HyperCuboid.volume).sum = hyperVolume.volume := rfl
    rw [e, mul_div_assoc, div_self hv, mul_one]

/-- Witness for C25: the region with the boxes `[0,1]` and `[2,4]` (volume 3) and
content 30, projected on 4 bins over `[0,4)`: the box `[0,1]` brings 10 into
bin 1, the box `[2,4]` brings 20, 10 into each of the bins 3 and 4. -/
theorem projectVolume_gives_each_box_its_share_witness :
    twoBoxes.volume ≠ 0 ∧
    (twoBoxes.hyperCuboids.map fun cuboid => 30 * cuboid.volume / twoBoxes.volume)
      = [10, 20] ∧
    (HyperHistogram.projectVolume (TH1D.new 4 0 4) twoBoxes 30 0).map TH1D.contents
      = some [0, 10, 0, 10, 10, 0] ∧
    (twoBoxes.hyperCuboids.map fun cuboid =>
      30 * cuboid.volume / twoBoxes.volume).sum = 30 :=
  ⟨by decide!, by decide!, by decide!,
   (projectVolume_gives_each_box_its_share (TH1D.new 4 0 4) twoBoxes 30 0
      (by decide!)).2.2⟩

/-- C26: for histograms whose store is sized to the binning, `fill(points)` leaves the
histogram in the state reached by the calls `fill(p_i, weight(p_i))` in the
order of the point set; the store stays sized to the binning, and the total
content over the bins and the overflow slot grows by the sum of the weights.
This holds for `HyperHistogram` and for `HyperBinningHistogram`. -/
theorem fillSet_is_the_fills_in_order (rt : RangeTest) (h : HyperHistogram)
    (g : HyperBinningHistogram) (points : List HyperPoint)
    (hh : h.WellFormed) (hg : g.WellFormed) :
    (h.fillSet rt points = h.fillInOrder rt points ∧
      (h.fillSet rt points).WellFormed ∧
      (h.fillSet rt points).base.totalWithOverflow
        = h.base.totalWithOverflow + (points.map fun p => p.getWeight 0).sum) ∧
    (g.fillSet rt points = g.fillInOrder rt points ∧
      (g.fillSet rt points).WellFormed ∧
      (g.fillSet rt points).base.totalWithOverflow
        = g.base.totalWithOverflow + (points.map fun p => p.getWeight 0).sum) := by
  obtain ⟨a1, a2, a3⟩ := HyperHistogram.fillInOrder_spec rt points h hh
  obtain ⟨b1, b2, b3⟩ := HyperBinningHistogram.fillInOrder_result rt points g hg
  have eh : h.fillSet rt points = h.fillInOrder rt points := by
    rw [a1]
    exact foldl_range_get (fun hist p => (HyperHistogram.fill rt hist p (p.getWeight 0)).1)
      points _ (fun a i => by cases points.get? i <;> rfl) h
  have eg : g.fillSet rt points = g.fillInOrder rt points := by
    rw [b1]
    exact foldl_range_get
      (fun hist p => (HyperBinningHistogram.fill rt hist p (p.getWeight 0)).1)
      points _ (fun a i => by cases points.get? i <;> rfl) g
  refine ⟨⟨eh, ?_, ?_⟩, ⟨eg, ?_, ?_⟩⟩
  · rw [eh]; exact a2
  · rw [eh]; exact a3
  · rw [eg]; exact b2
  · rw [eg]; exact b3

/-- Witness for C26: the three points of the scenario, carrying their weights 2, 3, 1,
and a point outside the domain with weight 4, filled as a set into the empty
quadrant histograms: the bins hold `2, 1, 0, 3`, the overflow slot 4, and the
total with the overflow is 10. -/
theorem fillSet_is_the_fills_in_order_witness :
    (HyperHistogram.ofBinning quadBinning).WellFormed ∧
    (HyperBinningHistogram.ofBinning quadBinning).WellFormed ∧
    ((HyperHistogram.ofBinning quadBinning).fillSet halfOpen
      [{ coords := [1, 1], weights := [2] }, { coords := [9, 9], weights := [3] },
       { coords := [1, 9], weights := [1] }, { coords := [20, 20], weights := [4] }]
      ).base.binContents = [2, 1, 0, 3, 4] ∧
    ((HyperHistogram.ofBinning quadBinning).fillSet halfOpen
      [{ coords := [1, 1], weights := [2] }, { coords := [9, 9], weights := [3] },
       { coords := [1, 9], weights := [1] }, { coords := [20, 20], weights := [4] }]
      ).base.totalWithOverflow
      = (HyperHistogram.ofBinning quadBinning).base.totalWithOverflow
        + ([{ coords := [1, 1], weights := [2] }, { coords := [9, 9], weights := [3] },
            { coords := [1, 9], weights := [1] }, { coords := [20, 20], weights := [4] }].map
          fun p : HyperPoint => p.getWeight 0).sum :=
  ⟨by decide, by decide, by decide!,
   (fillSet_is_the_fills_in_order halfOpen (HyperHistogram.ofBinning quadBinning)
      (HyperBinningHistogram.ofBinning quadBinning)
      [{ coords := [1, 1], weights := [2] }, { coords := [9, 9], weights := [3] },
       { coords := [1, 9], weights := [1] }, { coords := [20, 20], weights := [4] }]
      (by decide) (by decide)).1.2.2⟩


/-! ### Errors and overflow after the merge; index safety of the slice -/

theorem HistogramBase.new_slots (n i : Nat) :
    (HistogramBase.new n).getBinContent i = 0 ∧ (HistogramBase.new n).getSumW2 i = 0 := by
  unfold HistogramBase.getBinContent HistogramBase.getSumW2 HistogramBase.new
  simp only [List.getD_eq_getElem?_getD, List.getElem?_replicate]
  constructor <;> split_ifs <;> rfl

theorem mergePass_overflow (rt : RangeTest) (h : HyperHistogram) :
    (mergePass rt h).1.base.getBinContent (mergePass rt h).1.base.nBins = 0 ∧
    (mergePass rt h).1.base.getSumW2 (mergePass rt h).1.base.nBins = 0 := by
  obtain ⟨a1, _, _, a4, a5⟩ := setContents_spec
    (HyperHistogram.ofBinning (rebuildBinning h.binning
      (oldToNewTable h.binning.getNumHyperVolumes (removedVolumes h))).1).base
    (fun i => h.getVal rt
      ((HyperHistogram.ofBinning (rebuildBinning h.binning
        (oldToNewTable h.binning.getNumHyperVolumes
          (removedVolumes h))).1).binning.getBinHyperVolume i).getAverageCenter)
    (HistogramBase.new_wellSized _)
  have hn : (mergePass rt h).1.base.nBins
      = (HyperHistogram.ofBinning (rebuildBinning h.binning
          (oldToNewTable h.binning.getNumHyperVolumes (removedVolumes h))).1).base.nBins := a1
  rw [hn]
  exact ⟨a4.trans (HistogramBase.new_slots _ _).1, a5.trans (HistogramBase.new_slots _ _).2⟩

/-- C29: for a memory resident hierarchical histogram, in the result of
`mergeBinsWithSameContent` the error of every bin and of the overflow slot is 0
and the content of the overflow slot is 0, whatever the histogram held before
and whether or not a bin was removed: the result is always a histogram built
anew over the rebuilt binning and filled by `setContentsFromFunc`. -/
theorem mergeBins_zeroes_errors_and_overflow (rt : RangeTest) (sqrt : ℚ → ℚ)
    (h : HyperHistogram) (hs : IsSqrt sqrt) :
    (∀ i, i ≤ (h.mergeBinsWithSameContent rt "HyperBinning").1.base.getNBins →
      (h.mergeBinsWithSameContent rt "HyperBinning").1.base.getBinError sqrt i = 0) ∧
    (h.mergeBinsWithSameContent rt "HyperBinning").1.base.getBinContent
      (h.mergeBinsWithSameContent rt "HyperBinning").1.base.getNBins = 0 ∧
    (∃ g, (h.mergeBinsWithSameContent rt "HyperBinning").1
      = (HyperHistogram.ofBinning (mergePass rt g).1.binning).setContentsFromFunc
          (g.getVal rt)) := by
  obtain ⟨g, hg⟩ := mergeBins_result_is_pass rt h
  rw [hg]
  obtain ⟨o1, o2⟩ := mergePass_overflow rt g
  refine ⟨?_, o1, g, rfl⟩
  intro i hi
  have hz : (mergePass rt g).1.base.getSumW2 i = 0 := by
    rcases Nat.lt_or_eq_of_le hi with hlt | heq
    · exact ((mergePass_spec rt g).2 i hlt).2
    · rw [heq]; exact o2
  unfold HistogramBase.getSumW2 at hz
  unfold HistogramBase.getBinError
  rw [hz]
  exact sqrt_zero_of_isSqrt sqrt hs

/-- Witness for C29: the filled quadrant histogram, whose bin 0 has error 2 and content
2.  No bin is removed by the merge, and still every error is 0 afterwards, while
the contents `2, 1, 0, 3` stay. -/
theorem mergeBins_zeroes_errors_and_overflow_witness :
    IsSqrt Rat.sqrt ∧ quadFilled.base.getBinError Rat.sqrt 0 = 2 ∧
    (quadFilled.mergeBinsWithSameContent halfOpen "HyperBinning").1.base.getNBins = 4 ∧
    (quadFilled.mergeBinsWithSameContent halfOpen "HyperBinning").1.base.binContentsList
      = [2, 1, 0, 3] ∧
    (quadFilled.mergeBinsWithSameContent halfOpen "HyperBinning").1.base.getBinError
      Rat.sqrt 0 = 0 :=
  ⟨IsSqrt_ratSqrt, by decide!, by decide!, by decide!,
   (mergeBins_zeroes_errors_and_overflow halfOpen Rat.sqrt quadFilled IsSqrt_ratSqrt).1 0
     (Nat.zero_le _)⟩


theorem HyperBinningHistogram.slice_gives_result (rt : RangeTest) (sqrt : ℚ → ℚ)
    (h : HyperBinningHistogram) (dims : List Nat) (vals : List ℚ)
    (hv : SliceRequestValid h.binning dims vals) :
    ∃ r, h.slice rt sqrt dims vals = some r := by
  obtain ⟨pt, hpt, _⟩ := slice_request_point h.binning dims vals hv
  obtain ⟨ns, hns⟩ := sliceNames_isSome h.binning.getDimension dims h.binning.names
    hv.2.1 hv.2.2.1 hv.2.2.2
  cases hs : h.slice rt sqrt dims vals with
  | some r => exact ⟨r, rfl⟩
  | none =>
    simp only [HyperBinningHistogram.slice, hpt, hns] at hs
    exact absurd hs (by simp)

theorem slice_loops_in_range (binning : HyperBinning) (dims : List Nat) (vals : List ℚ)
    (hv : SliceRequestValid binning dims vals) :
    (∀ n, n ≤ dims.length →
      ∃ pt, (List.range n).foldlM (slicePointStep dims vals)
          (HyperPoint.zero binning.getDimension) = some pt ∧
        pt.coords.length = binning.getDimension) ∧
    (∀ n, n ≤ binning.getDimension →
      ∃ st, (List.range n).foldlM (sliceNamesStep dims binning.names)
          (List.replicate (binning.getDimension - dims.length) "", 0) = some st ∧
        st.1.length = binning.getDimension - dims.length ∧
        st.2 = ((List.range n).filter fun i => !dims.contains i).length ∧
        st.2 ≤ binning.getDimension - dims.length) ∧
    (∃ st, (List.range binning.getDimension).foldlM (sliceNamesStep dims binning.names)
        (List.replicate (binning.getDimension - dims.length) "", 0) = some st ∧
      st.1.length = binning.getDimension - dims.length ∧
      st.2 = binning.getDimension - dims.length) := by
  have hnames : ∀ n, n ≤ binning.getDimension →
      ∃ st, (List.range n).foldlM (sliceNamesStep dims binning.names)
          (List.replicate (binning.getDimension - dims.length) "", 0) = some st ∧
        st.1.length = binning.getDimension - dims.length ∧
        st.2 = ((List.range n).filter fun i => !dims.contains i).length ∧
        st.2 ≤ binning.getDimension - dims.length := by
    intro n hn
    obtain ⟨st, hst, hl, hc⟩ := sliceNames_fold binning.getDimension dims binning.names
      hv.2.1 hv.2.2.1 hv.2.2.2 n hn
    exact ⟨st, hst, hl, hc, (sliceNames_fold_some dims binning.names _ n st hst).2.2.1⟩
  refine ⟨?_, hnames, ?_⟩
  · intro n hn
    obtain ⟨pt, hpt, hl, _⟩ := slicePoint_fold binning.getDimension dims vals hv.1 hv.2.1
      hv.2.2.1 n hn
    exact ⟨pt, hpt, hl⟩
  · obtain ⟨st, hst, hl, hc, _⟩ := hnames binning.getDimension (Nat.le_refl _)
    refine ⟨st, hst, hl, ?_⟩
    rw [hc]
    exact (length_remainingDims binning.getDimension dims hv.2.1 hv.2.2.1).1

/-- C30: for a histogram of dimension `d` with a name for each dimension, a list
`sliceDims` of `k` distinct indices below `d` and a value for each of them, no
indexed access of `slice` is out of range.  Every round of the point loop
succeeds on a point of `d` coordinates, written at the indices `sliceDims[j] <
d`; every round of the name loop succeeds on a name list of length `d - k` with
the counter at most `d - k`; the counter ends at `d - k`, so the `d - k` names
are written at the positions `0 .. d-k-1`; and `slice` returns a histogram with
`d - k` names.  This holds for `HyperHistogram` and for
`HyperBinningHistogram`. -/
theorem slice_accesses_are_in_range (rt : RangeTest) (sqrt : ℚ → ℚ) (h : HyperHistogram)
    (g : HyperBinningHistogram) (dims : List Nat) (vals : List ℚ)
    (hv : SliceRequestValid h.binning dims vals)
    (hw : SliceRequestValid g.binning dims vals) :
    ((∀ j, j < dims.length → dims.getD j 0 < h.binning.getDimension) ∧
      (∀ n, n ≤ dims.length →
        ∃ pt, (List.range n).foldlM (slicePointStep dims vals)
            (HyperPoint.zero h.binning.getDimension) = some pt ∧
          pt.coords.length = h.binning.getDimension) ∧
      (∀ n, n ≤ h.binning.getDimension →
        ∃ st, (List.range n).foldlM (sliceNamesStep dims h.binning.names)
            (List.replicate (h.binning.getDimension - dims.length) "", 0) = some st ∧
          st.1.length = h.binning.getDimension - dims.length ∧
          st.2 = ((List.range n).filter fun i => !dims.contains i).length ∧
          st.2 ≤ h.binning.getDimension - dims.length) ∧
      (∃ st, (List.range h.binning.getDimension).foldlM (sliceNamesStep dims h.binning.names)
          (List.replicate (h.binning.getDimension - dims.length) "", 0) = some st ∧
        st.1.length = h.binning.getDimension - dims.length ∧
        st.2 = h.binning.getDimension - dims.length) ∧
      ∃ r, h.slice rt sqrt dims vals = some r ∧
        r.binning.names.length = h.binning.getDimension - dims.length) ∧
    ((∀ j, j < dims.length → dims.getD j 0 < g.binning.getDimension) ∧
      (∀ n, n ≤ dims.length →
        ∃ pt, (List.range n).foldlM (slicePointStep dims vals)
            (HyperPoint.zero g.binning.getDimension) = some pt ∧
          pt.coords.length = g.binning.getDimension) ∧
      (∀ n, n ≤ g.binning.getDimension →
        ∃ st, (List.range n).foldlM (sliceNamesStep dims g.binning.names)
            (List.replicate (g.binning.getDimension - dims.length) "", 0) = some st ∧
          st.1.length = g.binning.getDimension - dims.length ∧
          st.2 = ((List.range n).filter fun i => !dims.contains i).length ∧
          st.2 ≤ g.binning.getDimension - dims.length) ∧
      (∃ st, (List.range g.binning.getDimension).foldlM (sliceNamesStep dims g.binning.names)
          (List.replicate (g.binning.getDimension - dims.length) "", 0) = some st ∧
        st.1.length = g.binning.getDimension - dims.length ∧
        st.2 = g.binning.getDimension - dims.length) ∧
      ∃ r, g.slice rt sqrt dims vals = some r ∧
        r.binning.names.length = g.binning.getDimension - dims.length) := by
  obtain ⟨a1, a2, a3⟩ := slice_loops_in_range h.binning dims vals hv
  obtain ⟨b1, b2, b3⟩ := slice_loops_in_range g.binning dims vals hw
  have hidx : ∀ (d : Nat), (∀ x ∈ dims, x < d) → ∀ j, j < dims.length → dims.getD j 0 < d := by
    intro d hd j hj
    rw [List.getD_eq_getElem dims 0 hj]
    exact hd _ (List.getElem_mem _)
  refine ⟨⟨hidx _ hv.2.1, a1, a2, a3, ?_⟩, ⟨hidx _ hw.2.1, b1, b2, b3, ?_⟩⟩
  · obtain ⟨r, hr⟩ := h.slice_returns rt sqrt dims vals hv
    refine ⟨r, hr, ?_⟩
    have hr2 := hr
    unfold HyperHistogram.slice at hr2
    simp only at hr2
    cases hpt : slicePoint h.binning.getDimension dims vals with
    | none => rw [hpt] at hr2; exact absurd hr2 (by simp)
    | some pt =>
      cases hns : sliceNames h.binning.getDimension dims h.binning.names with
      | none => rw [hpt, hns] at hr2; exact absurd hr2 (by simp)
      | some ns =>
        rw [hpt, hns] at hr2
        have e := Option.some.inj hr2
        rw [← e]
        show ns.length = _
        rw [sliceNames_eq _ _ _ _ hns, List.length_map]
        exact (length_remainingDims _ dims hv.2.1 hv.2.2.1).1
  · obtain ⟨r, hr⟩ := g.slice_gives_result rt sqrt dims vals hw
    refine ⟨r, hr, ?_⟩
    have hr2 := hr
    unfold HyperBinningHistogram.slice at hr2
    simp only at hr2
    cases hpt : slicePoint g.binning.getDimension dims vals with
    | none => rw [hpt] at hr2; exact absurd hr2 (by simp)
    | some pt =>
      cases hns : sliceNames g.binning.getDimension dims g.binning.names with
      | none => rw [hpt, hns] at hr2; exact absurd hr2 (by simp)
      | some ns =>
        rw [hpt, hns] at hr2
        have e := Option.some.inj hr2
        rw [← e]
        show ns.length = _
        rw [sliceNames_eq _ _ _ _ hns, List.length_map]
        exact (length_remainingDims _ dims hw.2.1 hw.2.2.1).1

/-- Witness for C30: the filled quadrant histograms (dimension 2, names `x`, `y`)
sliced at `x = 1`: one fixed dimension, and the result has `2 - 1` names. -/
theorem slice_accesses_are_in_range_witness :
    SliceRequestValid quadFilled.binning [0] [1] ∧
    SliceRequestValid quadFilledOld.binning [0] [1] ∧
    (quadFilled.slice halfOpen Rat.sqrt [0] [1]).map (fun r => r.binning.names) = some ["y"] ∧
    ∃ r, quadFilled.slice halfOpen Rat.sqrt [0] [1] = some r ∧
      r.binning.names.length = quadFilled.binning.getDimension - [0].length :=
  ⟨by decide, by decide, by decide!,
   (slice_accesses_are_in_range halfOpen Rat.sqrt quadFilled quadFilledOld [0] [1]
      (by decide) (by decide)).1.2.2.2.2⟩


/-! ### Links kept by the rebuild loop -/

theorem mem_removedVolumes (h : HyperHistogram) (v : Int) :
    v ∈ removedVolumes h ↔
      ∃ u ∈ List.range h.binning.getNumHyperVolumes,
        ((h.binning.getLinkedHyperVolumes (u : Nat)).length ≠ 0 ∧
          linksLeadToBins h.binning (h.binning.getLinkedHyperVolumes (u : Nat)) = true ∧
          binsHaveSameContent h (h.binning.getLinkedHyperVolumes (u : Nat)) = true) ∧
        v ∈ h.binning.getLinkedHyperVolumes (u : Nat) := by
  unfold removedVolumes
  rw [foldl_markStep_mem]
  constructor
  · rintro (hv | hv)
    · exact absurd hv (List.not_mem_nil _)
    · exact hv
  · exact fun hv => Or.inr hv

theorem newLinkedVols_all_or_none (h : HyperHistogram) (u : Nat)
    (hR : h.binning.IndicesInRange) (hP : h.binning.SingleParent)
    (hu : u < h.binning.getNumHyperVolumes) :
    newLinkedVols h.binning
        (oldToNewTable h.binning.getNumHyperVolumes (removedVolumes h)) u = [] ∨
    (newLinkedVols h.binning
        (oldToNewTable h.binning.getNumHyperVolumes (removedVolumes h)) u
      = (h.binning.getLinkedHyperVolumes u).map
          (oldToNewVolumeNum (oldToNewTable h.binning.getNumHyperVolumes (removedVolumes h))) ∧
      ∀ c ∈ h.binning.getLinkedHyperVolumes u, c ∉ removedVolumes h) := by
  rw [newLinkedVols_of_inRange h.binning (removedVolumes h) u hR hu]
  by_cases hq : (h.binning.getLinkedHyperVolumes u).length ≠ 0 ∧
      linksLeadToBins h.binning (h.binning.getLinkedHyperVolumes u) = true ∧
      binsHaveSameContent h (h.binning.getLinkedHyperVolumes u) = true
  · left
    rw [List.map_eq_nil_iff, List.filter_eq_nil_iff]
    intro c hc
    have : c ∈ removedVolumes h :=
      (mem_removedVolumes h c).mpr ⟨u, List.mem_range.mpr hu, hq, hc⟩
    simpa using this
  · right
    have hnone : ∀ c ∈ h.binning.getLinkedHyperVolumes u, c ∉ removedVolumes h := by
      intro c hc hrem
      obtain ⟨u2, hu2, hq2, hc2⟩ := (mem_removedVolumes h c).mp hrem
      have e := hP u (List.mem_range.mpr hu) u2 hu2 c hc hc2
      rw [← e] at hq2
      exact hq hq2
    refine ⟨?_, hnone⟩
    congr 1
    rw [List.filter_eq_self]
    intro c hc
    simpa using hnone c hc


/-- Counterexample for C28 as stated: in this graph each node is linked from at most
one node and the one internal node has two linked volumes, but node 1 is a
primary node and is also linked from node 0.  The pass removes the leaves 1 and
2, which hold the same content, and the primary node 1 is mapped to -1: the
primary list of the rebuilt binning is `0, -1`. -/
theorem linked_primary_is_mapped_to_minus_one :
    linkedPrimaryHist.binning.IndicesInRange ∧ linkedPrimaryHist.binning.SingleParent ∧
    linkedPrimaryHist.binning.InternalHaveTwo ∧
    linkedPrimaryHist.binning.primaryVolumeNumbers = [0, 1] ∧
    removedVolumes linkedPrimaryHist = [1, 2] ∧
    oldToNewVolumeNum (oldToNewTable linkedPrimaryHist.binning.getNumHyperVolumes
      (removedVolumes linkedPrimaryHist)) 1 = -1 ∧
    (mergePass halfOpen linkedPrimaryHist).1.binning.primaryVolumeNumbers = [0, -1] := by
  refine ⟨by decide, by decide, by decide, by decide, by decide!, by decide!, by decide!⟩

/-- C28 (amended): for a bin graph whose node numbers name nodes, in which each node is
linked from at most one node, every internal node has at least two linked
volumes and no primary node is linked from a node: each node kept by the rebuild
loop of `mergeBinsWithSameContent` keeps none of its links or all of them, so
`nLinked` is never 1 and `This should never be one` is not logged (the log of
the pass is empty); and no primary node is mapped to -1. -/
theorem rebuild_keeps_all_links_or_none (rt : RangeTest) (h : HyperHistogram)
    (hR : h.binning.IndicesInRange) (hP : h.binning.SingleParent)
    (hI : h.binning.InternalHaveTwo) (hroot : h.binning.PrimariesAreRoots) :
    (∀ u : Nat, u < h.binning.getNumHyperVolumes →
      (newLinkedVols h.binning
          (oldToNewTable h.binning.getNumHyperVolumes (removedVolumes h)) u = [] ∨
        newLinkedVols h.binning
            (oldToNewTable h.binning.getNumHyperVolumes (removedVolumes h)) u
          = (h.binning.getLinkedHyperVolumes u).map
              (oldToNewVolumeNum
                (oldToNewTable h.binning.getNumHyperVolumes (removedVolumes h)))) ∧
      (newLinkedVols h.binning
        (oldToNewTable h.binning.getNumHyperVolumes (removedVolumes h)) u).length ≠ 1) ∧
    "This should never be one" ∉ (mergePass rt h).2 ∧
    (mergePass rt h).2 = [] ∧
    (∀ p ∈ h.binning.primaryVolumeNumbers,
      oldToNewVolumeNum (oldToNewTable h.binning.getNumHyperVolumes (removedVolumes h)) p
        ≠ -1) := by
  have hlinks : ∀ u : Nat, u < h.binning.getNumHyperVolumes →
      (newLinkedVols h.binning
          (oldToNewTable h.binning.getNumHyperVolumes (removedVolumes h)) u = [] ∨
        newLinkedVols h.binning
            (oldToNewTable h.binning.getNumHyperVolumes (removedVolumes h)) u
          = (h.binning.getLinkedHyperVolumes u).map
              (oldToNewVolumeNum
                (oldToNewTable h.binning.getNumHyperVolumes (removedVolumes h)))) ∧
      (newLinkedVols h.binning
        (oldToNewTable h.binning.getNumHyperVolumes (removedVolumes h)) u).length ≠ 1 := by
    intro u hu
    rcases newLinkedVols_all_or_none h u hR hP hu with h0 | ⟨hall, _⟩
    · exact ⟨Or.inl h0, by rw [h0]; decide⟩
    · refine ⟨Or.inr hall, ?_⟩
      rw [hall, List.length_map]
      by_cases he : h.binning.getLinkedHyperVolumes u = []
      · rw [he]; decide
      · have := hI u (List.mem_range.mpr hu) he
        omega
  have hlog : (mergePass rt h).2 = [] := by
    have e : (mergePass rt h).2
        = (rebuildBinning h.binning
            (oldToNewTable h.binning.getNumHyperVolumes (removedVolumes h))).2 := rfl
    rw [e, (rebuildBinning_spec h.binning (removedVolumes h)).2.2, List.map_eq_nil_iff,
      List.filter_eq_nil_iff]
    intro u hmem
    have hu : u < h.binning.getNumHyperVolumes :=
      List.mem_range.mp (List.mem_filter.mp hmem).1
    simpa using (hlinks u hu).2
  refine ⟨hlinks, by rw [hlog]; exact List.not_mem_nil _, hlog, ?_⟩
  intro p hp hneg
  have hin := hR.2 p hp
  have hrem : p ∈ removedVolumes h :=
    (oldToNewVolumeNum_eq_neg_one_iff _ _ p hin.1 hin.2).mp hneg
  obtain ⟨u, hu, _, hpu⟩ := (mem_removedVolumes h p).mp hrem
  exact hroot p hp u hu hpu

/-- Witness for C28 (amended): the two-level histogram, a tree with the single primary
node 0.  Node 1 loses both links, node 0 keeps both; the log of the pass is
empty and the primary node keeps the number 0. -/
theorem rebuild_keeps_all_links_or_none_witness :
    twoLevelHist.binning.IndicesInRange ∧ twoLevelHist.binning.SingleParent ∧
    twoLevelHist.binning.InternalHaveTwo ∧ twoLevelHist.binning.PrimariesAreRoots ∧
    newLinkedVols twoLevelHist.binning
      (oldToNewTable twoLevelHist.binning.getNumHyperVolumes (removedVolumes twoLevelHist)) 0
      = [1, 2] ∧
    newLinkedVols twoLevelHist.binning
      (oldToNewTable twoLevelHist.binning.getNumHyperVolumes (removedVolumes twoLevelHist)) 1
      = [] ∧
    (mergePass halfOpen twoLevelHist).2 = [] :=
  ⟨by decide, by decide, by decide, by decide, by decide!, by decide!,
   (rebuild_keeps_all_links_or_none halfOpen twoLevelHist
      (by decide) (by decide) (by decide) (by decide)).2.2.1⟩


/-! ## The value of the histogram across a merge -/

theorem HyperBinning.followBinLinks_fuel (rt : RangeTest) (b : HyperBinning)
    (hR : b.IndicesInRange) (hInc : b.LinksIncrease) (p : List ℚ) :
    ∀ (m : Nat) (v : Nat), v < b.nodes.length → b.nodes.length - v ≤ m →
      ∀ f1 f2, b.nodes.length - v ≤ f1 → b.nodes.length - v ≤ f2 →
        b.followBinLinks rt p f1 v = b.followBinLinks rt p f2 v := by
  intro m
  induction m with
  | zero => intro v hv hm; omega
  | succ m ih =>
    intro v hv hm f1 f2 h1 h2
    obtain ⟨g1, rfl⟩ : ∃ g, f1 = g + 1 := ⟨f1 - 1, by omega⟩
    obtain ⟨g2, rfl⟩ : ∃ g, f2 = g + 1 := ⟨f2 - 1, by omega⟩
    simp only [HyperBinning.followBinLinks]
    split
    · rfl
    · cases hf : (b.getLinkedHyperVolumes v).find?
          fun c => (b.getHyperVolume c).inVolume rt p with
      | none => rfl
      | some c =>
        have hc := List.mem_of_find?_eq_some hf
        have hlt := hInc v (List.mem_range.mpr hv) c hc
        have hin := b.links_inRange hR v ⟨by omega, by exact_mod_cast hv⟩ c hc
        have hcn : c = ((c.toNat : Nat) : Int) := (Int.toNat_of_nonneg hin.1).symm
        have hcl : c.toNat < b.nodes.length := by have := hin.2; omega
        have hcv : v < c.toNat := by omega
        show b.followBinLinks rt p g1 c = b.followBinLinks rt p g2 c
        rw [hcn]
        exact ih c.toNat hcl (by omega) g1 g2 (by omega) (by omega)

theorem HyperBinning.followBinLinks_step (rt : RangeTest) (b : HyperBinning)
    (hR : b.IndicesInRange) (hInc : b.LinksIncrease) (p : List ℚ) (v : Nat)
    (hv : v < b.nodes.length) :
    b.followBinLinks rt p b.nodes.length v
      = if (b.getLinkedHyperVolumes v).isEmpty then HyperBinning.Descent.leaf v
        else
          match (b.getLinkedHyperVolumes v).find?
              fun c => (b.getHyperVolume c).inVolume rt p with
          | some c => b.followBinLinks rt p b.nodes.length c
          | none => HyperBinning.Descent.miss := by
  obtain ⟨g, hg⟩ : ∃ g, b.nodes.length = g + 1 := ⟨b.nodes.length - 1, by omega⟩
  conv_lhs => rw [hg, HyperBinning.followBinLinks]
  split
  · rfl
  · cases hf : (b.getLinkedHyperVolumes v).find?
        fun c => (b.getHyperVolume c).inVolume rt p with
    | none => rfl
    | some c =>
      have hc := List.mem_of_find?_eq_some hf
      have hlt := hInc v (List.mem_range.mpr hv) c hc
      have hin := b.links_inRange hR v ⟨by omega, by exact_mod_cast hv⟩ c hc
      have hcn : c = ((c.toNat : Nat) : Int) := (Int.toNat_of_nonneg hin.1).symm
      have hcl : c.toNat < b.nodes.length := by have := hin.2; omega
      show b.followBinLinks rt p g c = b.followBinLinks rt p b.nodes.length c
      rw [hcn]
      exact HyperBinning.followBinLinks_fuel rt b hR hInc p b.nodes.length c.toNat hcl
        (by omega) g b.nodes.length (by omega) (by omega)

theorem mergePass_numNodes (rt : RangeTest) (h : HyperHistogram) :
    (mergePass rt h).1.binning.nodes.length
      = (List.range h.binning.getNumHyperVolumes).countP (volumeKept (removedVolumes h)) := by
  rw [mergePass_binning, (rebuildBinning_spec h.binning (removedVolumes h)).1, List.length_map,
    List.countP_eq_length_filter]

theorem new_of_kept (h : HyperHistogram) (v : Nat) (hv : v < h.binning.getNumHyperVolumes)
    (hk : (v : Int) ∉ removedVolumes h) :
    oldToNewVolumeNum (oldToNewTable h.binning.getNumHyperVolumes (removedVolumes h)) v
      = (((List.range v).countP (volumeKept (removedVolumes h)) : Nat) : Int) ∧
    (List.range v).countP (volumeKept (removedVolumes h))
      < (List.range h.binning.getNumHyperVolumes).countP (volumeKept (removedVolumes h)) := by
  refine ⟨?_, countP_range_lt _ _ v hv ((volumeKept_iff _ v).mpr hk)⟩
  rw [oldToNewVolumeNum_table _ _ v hv, if_pos ((volumeKept_iff _ v).mpr hk)]

theorem new_strictMono (h : HyperHistogram) (v w : Nat) (hvw : v < w)
    (hw : w < h.binning.getNumHyperVolumes)
    (hkv : (v : Int) ∉ removedVolumes h) (hkw : (w : Int) ∉ removedVolumes h) :
    oldToNewVolumeNum (oldToNewTable h.binning.getNumHyperVolumes (removedVolumes h)) v
      < oldToNewVolumeNum (oldToNewTable h.binning.getNumHyperVolumes (removedVolumes h)) w := by
  rw [(new_of_kept h v (by omega) hkv).1, (new_of_kept h w hw hkw).1]
  exact_mod_cast countP_range_lt _ _ v hvw ((volumeKept_iff _ v).mpr hkv)

theorem new_injective (h : HyperHistogram) (v w : Nat)
    (hv : v < h.binning.getNumHyperVolumes) (hw : w < h.binning.getNumHyperVolumes)
    (hkv : (v : Int) ∉ removedVolumes h) (hkw : (w : Int) ∉ removedVolumes h)
    (he : oldToNewVolumeNum (oldToNewTable h.binning.getNumHyperVolumes (removedVolumes h)) v
      = oldToNewVolumeNum (oldToNewTable h.binning.getNumHyperVolumes (removedVolumes h)) w) :
    v = w := by
  rcases Nat.lt_trichotomy v w with hlt | heq | hgt
  · have := new_strictMono h v w hlt hw hkv hkw
    omega
  · exact heq
  · have := new_strictMono h w v hgt hv hkw hkv
    omega

/-- Every node of the rebuilt graph is the image of a kept node of the old graph. -/
theorem rebuilt_node_origin (rt : RangeTest) (h : HyperHistogram) (u : Nat)
    (hu : u < (mergePass rt h).1.binning.nodes.length) :
    ∃ v, v < h.binning.getNumHyperVolumes ∧ (v : Int) ∉ removedVolumes h ∧
      oldToNewVolumeNum (oldToNewTable h.binning.getNumHyperVolumes (removedVolumes h)) v
        = (u : Int) ∧
      (mergePass rt h).1.binning.getLinkedHyperVolumes u
        = newLinkedVols h.binning
            (oldToNewTable h.binning.getNumHyperVolumes (removedVolumes h)) v ∧
      (mergePass rt h).1.binning.getHyperVolume u = h.binning.getHyperVolume v := by
  rw [mergePass_numNodes] at hu
  obtain ⟨v, hv, hp, he⟩ := countP_range_surj _ _ u hu
  have hk := (volumeKept_iff _ v).mp hp
  have hnew : oldToNewVolumeNum
      (oldToNewTable h.binning.getNumHyperVolumes (removedVolumes h)) v = (u : Int) := by
    rw [(new_of_kept h v hv hk).1, he]
  have hn := mergePass_node rt h v hv hk
  rw [hnew] at hn
  exact ⟨v, hv, hk, hnew, HyperBinning.getLinked_of_getNode _ _ _ hn,
    HyperBinning.getHyperVolume_of_getNode _ _ _ hn⟩

/-- The links that the rebuild keeps for a node: new numbers of kept linked volumes. -/
theorem newLinkedVols_mem (h : HyperHistogram) (v : Nat) (hR : h.binning.IndicesInRange)
    (hv : v < h.binning.getNumHyperVolumes) (c' : Int)
    (hc : c' ∈ newLinkedVols h.binning
      (oldToNewTable h.binning.getNumHyperVolumes (removedVolumes h)) v) :
    ∃ c : Nat, (c : Int) ∈ h.binning.getLinkedHyperVolumes v ∧
      c < h.binning.getNumHyperVolumes ∧ (c : Int) ∉ removedVolumes h ∧
      c' = oldToNewVolumeNum
        (oldToNewTable h.binning.getNumHyperVolumes (removedVolumes h)) c := by
  rw [newLinkedVols_of_inRange h.binning (removedVolumes h) v hR hv] at hc
  obtain ⟨c, hcf, rfl⟩ := List.mem_map.mp hc
  obtain ⟨hcl, hck⟩ := List.mem_filter.mp hcf
  have hin := h.binning.links_inRange hR v
    ⟨by omega, by unfold HyperBinning.getNumHyperVolumes at hv; exact_mod_cast hv⟩ c hcl
  have hcn : c = ((c.toNat : Nat) : Int) := (Int.toNat_of_nonneg hin.1).symm
  refine ⟨c.toNat, by rw [← hcn]; exact hcl, ?_, by rw [← hcn]; simpa using hck,
    by rw [← hcn]⟩
  have := hin.2
  unfold HyperBinning.getNumHyperVolumes
  omega

theorem primaries_kept (h : HyperHistogram) (hroot : h.binning.PrimariesAreRoots)
    (p : Int) (hp : p ∈ h.binning.primaryVolumeNumbers) : p ∉ removedVolumes h := by
  intro hrem
  obtain ⟨u, hu, _, hpu⟩ := (mem_removedVolumes h p).mp hrem
  exact hroot p hp u hu hpu

theorem mergePass_indicesInRange (rt : RangeTest) (h : HyperHistogram)
    (hR : h.binning.IndicesInRange) (hroot : h.binning.PrimariesAreRoots) :
    (mergePass rt h).1.binning.IndicesInRange := by
  have hlen := mergePass_numNodes rt h
  constructor
  · intro n' hn' l hl
    rw [mergePass_binning, (rebuildBinning_spec h.binning (removedVolumes h)).1] at hn'
    obtain ⟨v, hvf, rfl⟩ := List.mem_map.mp hn'
    have hv : v < h.binning.getNumHyperVolumes := List.mem_range.mp (List.mem_filter.mp hvf).1
    obtain ⟨c, _, hc, hck, rfl⟩ := newLinkedVols_mem h v hR hv l hl
    obtain ⟨e1, e2⟩ := new_of_kept h c hc hck
    rw [e1, hlen]
    exact ⟨by omega, by exact_mod_cast e2⟩
  · intro v' hv'
    rw [mergePass_binning, (rebuildBinning_spec h.binning (removedVolumes h)).2.1] at hv'
    obtain ⟨p, hp, rfl⟩ := List.mem_map.mp hv'
    have hin := hR.2 p hp
    have hpn : p = ((p.toNat : Nat) : Int) := (Int.toNat_of_nonneg hin.1).symm
    have hpl : p.toNat < h.binning.getNumHyperVolumes := by
      have := hin.2
      unfold HyperBinning.getNumHyperVolumes
      omega
    have hk : ((p.toNat : Nat) : Int) ∉ removedVolumes h := by
      rw [← hpn]; exact primaries_kept h hroot p hp
    obtain ⟨e1, e2⟩ := new_of_kept h p.toNat hpl hk
    rw [hpn, e1, hlen]
    exact ⟨by omega, by exact_mod_cast e2⟩

theorem mergePass_linksIncrease (rt : RangeTest) (h : HyperHistogram)
    (hR : h.binning.IndicesInRange) (hInc : h.binning.LinksIncrease) :
    (mergePass rt h).1.binning.LinksIncrease := by
  intro u hu c' hc'
  obtain ⟨v, hv, hk, hnew, hlinks, _⟩ := rebuilt_node_origin rt h u (List.mem_range.mp hu)
  rw [hlinks] at hc'
  obtain ⟨c, hcl, hc, hck, rfl⟩ := newLinkedVols_mem h v hR hv c' hc'
  have hvc : v < c := by
    have := hInc v (List.mem_range.mpr hv) c hcl
    exact_mod_cast this
  rw [← hnew]
  exact new_strictMono h v c hvc hc hk hck

theorem HyperHistogram.valueAt_leaf (h : HyperHistogram) (c : Nat)
    (hc : c < h.binning.nodes.length) (hleaf : h.binning.getLinkedHyperVolumes c = []) :
    h.valueAt (HyperBinning.Descent.leaf c)
      = h.base.getBinContentInt (h.binning.getBinNumOfVolume c) := by
  obtain ⟨nd, hnode, _⟩ := h.binning.getNode_of_inRange c ⟨by omega, by exact_mod_cast hc⟩
  have hl : nd.links = [] := by
    rw [← HyperBinning.getLinked_of_getNode _ _ _ hnode]; exact hleaf
  unfold HyperHistogram.valueAt HyperBinning.getBinNumOfVolume HistogramBase.getBinContentInt
  rw [hnode]
  simp only [BinNode.isLeaf, hl, List.isEmpty_nil, if_true, Int.toNat_ofNat]
  rw [if_neg (by omega)]
  simp only [hnode]

theorem newLinkedVols_of_qualifies (h : HyperHistogram) (u : Nat)
    (hR : h.binning.IndicesInRange) (hu : u < h.binning.getNumHyperVolumes)
    (hq : (h.binning.getLinkedHyperVolumes u).length ≠ 0 ∧
      linksLeadToBins h.binning (h.binning.getLinkedHyperVolumes u) = true ∧
      binsHaveSameContent h (h.binning.getLinkedHyperVolumes u) = true) :
    newLinkedVols h.binning
      (oldToNewTable h.binning.getNumHyperVolumes (removedVolumes h)) u = [] := by
  rw [newLinkedVols_of_inRange h.binning (removedVolumes h) u hR hu, List.map_eq_nil_iff,
    List.filter_eq_nil_iff]
  intro c hc
  have : c ∈ removedVolumes h :=
    (mem_removedVolumes h c).mpr ⟨u, List.mem_range.mpr hu, hq, hc⟩
  simpa using this

theorem newLinkedVols_of_not_qualifies (h : HyperHistogram) (u : Nat)
    (hR : h.binning.IndicesInRange) (hP : h.binning.SingleParent)
    (hu : u < h.binning.getNumHyperVolumes)
    (hq : ¬ ((h.binning.getLinkedHyperVolumes u).length ≠ 0 ∧
      linksLeadToBins h.binning (h.binning.getLinkedHyperVolumes u) = true ∧
      binsHaveSameContent h (h.binning.getLinkedHyperVolumes u) = true)) :
    newLinkedVols h.binning
        (oldToNewTable h.binning.getNumHyperVolumes (removedVolumes h)) u
      = (h.binning.getLinkedHyperVolumes u).map
          (oldToNewVolumeNum (oldToNewTable h.binning.getNumHyperVolumes (removedVolumes h))) ∧
    ∀ c ∈ h.binning.getLinkedHyperVolumes u, c ∉ removedVolumes h := by
  have hnone : ∀ c ∈ h.binning.getLinkedHyperVolumes u, c ∉ removedVolumes h := by
    intro c hc hrem
    obtain ⟨u2, hu2, hq2, hc2⟩ := (mem_removedVolumes h c).mp hrem
    have e := hP u (List.mem_range.mpr hu) u2 hu2 c hc hc2
    rw [← e] at hq2
    exact hq hq2
  refine ⟨?_, hnone⟩
  rw [newLinkedVols_of_inRange h.binning (removedVolumes h) u hR hu]
  congr 1
  rw [List.filter_eq_self]
  intro c hc
  simpa using hnone c hc

theorem find?_rebuilt (rt : RangeTest) (h : HyperHistogram) (p : List ℚ) (l : List Int)
    (hl : ∀ c ∈ l, (0 ≤ c ∧ c < (h.binning.nodes.length : Int)) ∧ c ∉ removedVolumes h) :
    (l.map (oldToNewVolumeNum
        (oldToNewTable h.binning.getNumHyperVolumes (removedVolumes h)))).find?
        (fun c => ((mergePass rt h).1.binning.getHyperVolume c).inVolume rt p)
      = (l.find? fun c => (h.binning.getHyperVolume c).inVolume rt p).map
          (oldToNewVolumeNum
            (oldToNewTable h.binning.getNumHyperVolumes (removedVolumes h))) := by
  rw [List.find?_map]
  congr 1
  apply find?_congr_mem
  intro c hc
  obtain ⟨hin, hk⟩ := hl c hc
  have hcn : c = ((c.toNat : Nat) : Int) := (Int.toNat_of_nonneg hin.1).symm
  have hcl : c.toNat < h.binning.getNumHyperVolumes := by
    have := hin.2
    unfold HyperBinning.getNumHyperVolumes
    omega
  have hn := mergePass_node rt h c.toNat hcl (by rw [← hcn]; exact hk)
  rw [← hcn] at hn
  show ((mergePass rt h).1.binning.getHyperVolume _).inVolume rt p = _
  rw [HyperBinning.getHyperVolume_of_getNode _ _ _ hn]

theorem descent_of_leaf (rt : RangeTest) (h : HyperHistogram)
    (hR : h.binning.IndicesInRange) (hInc : h.binning.LinksIncrease) (q : List ℚ) (v : Nat)
    (hv : v < h.binning.nodes.length) (hl : h.binning.getLinkedHyperVolumes v = []) :
    h.binning.followBinLinks rt q h.binning.nodes.length v = HyperBinning.Descent.leaf v := by
  rw [HyperBinning.followBinLinks_step rt h.binning hR hInc q v hv, hl]
  rfl

theorem descent_into_child (rt : RangeTest) (h : HyperHistogram)
    (hR : h.binning.IndicesInRange) (hInc : h.binning.LinksIncrease)
    (hU : ∀ p, h.binning.UnionAt rt p) (q : List ℚ) (v : Nat)
    (hv : v < h.binning.nodes.length) (hl : h.binning.getLinkedHyperVolumes v ≠ [])
    (hin : (h.binning.getHyperVolume v).inVolume rt q = true) :
    ∃ c : Nat, (c : Int) ∈ h.binning.getLinkedHyperVolumes v ∧ c < h.binning.nodes.length ∧
      v < c ∧ (h.binning.getHyperVolume c).inVolume rt q = true ∧
      (h.binning.getLinkedHyperVolumes v).find?
        (fun c => (h.binning.getHyperVolume c).inVolume rt q) = some (c : Int) ∧
      h.binning.followBinLinks rt q h.binning.nodes.length v
        = h.binning.followBinLinks rt q h.binning.nodes.length c := by
  cases hf : (h.binning.getLinkedHyperVolumes v).find?
      (fun c => (h.binning.getHyperVolume c).inVolume rt q) with
  | none =>
    obtain ⟨c, hc, hcin⟩ := (hU q).1 v (List.mem_range.mpr hv) hl hin
    rw [List.find?_eq_none] at hf
    exact absurd hcin (hf c hc)
  | some c =>
    have hc := List.mem_of_find?_eq_some hf
    have hcin : (h.binning.getHyperVolume c).inVolume rt q = true := by
      have := List.find?_some hf
      simpa using this
    have hrange := h.binning.links_inRange hR v ⟨by omega, by exact_mod_cast hv⟩ c hc
    have hcn : c = ((c.toNat : Nat) : Int) := (Int.toNat_of_nonneg hrange.1).symm
    have hlt := hInc v (List.mem_range.mpr hv) c hc
    refine ⟨c.toNat, by rw [← hcn]; exact hc, by have := hrange.2; omega, by omega,
      by rw [← hcn]; exact hcin, by rw [← hcn], ?_⟩
    rw [HyperBinning.followBinLinks_step rt h.binning hR hInc q v hv]
    have hne : (h.binning.getLinkedHyperVolumes v).isEmpty = false := by
      cases hq : h.binning.getLinkedHyperVolumes v with
      | nil => exact absurd hq hl
      | cons _ _ => rfl
    rw [hne, hf, ← hcn]
    rfl

theorem value_of_qualifying (rt : RangeTest) (h : HyperHistogram)
    (hR : h.binning.IndicesInRange) (hInc : h.binning.LinksIncrease)
    (hU : ∀ p, h.binning.UnionAt rt p) (q : List ℚ) (v : Nat)
    (hv : v < h.binning.nodes.length)
    (hq : (h.binning.getLinkedHyperVolumes v).length ≠ 0 ∧
      linksLeadToBins h.binning (h.binning.getLinkedHyperVolumes v) = true ∧
      binsHaveSameContent h (h.binning.getLinkedHyperVolumes v) = true)
    (hin : (h.binning.getHyperVolume v).inVolume rt q = true) :
    ∃ c ∈ h.binning.getLinkedHyperVolumes v,
      h.valueAt (h.binning.followBinLinks rt q h.binning.nodes.length v)
        = h.base.getBinContentInt (h.binning.getBinNumOfVolume c) := by
  have hl : h.binning.getLinkedHyperVolumes v ≠ [] := fun e => hq.1 (by rw [e]; rfl)
  obtain ⟨c, hc, hcl, _, _, _, hstep⟩ := descent_into_child rt h hR hInc hU q v hv hl hin
  have hleaf := (linksLeadToBins_iff _ _).mp hq.2.1 c hc
  refine ⟨c, hc, ?_⟩
  rw [hstep, descent_of_leaf rt h hR hInc q c hcl hleaf]
  exact h.valueAt_leaf c hcl hleaf

theorem rebuilt_descent_leaf (rt : RangeTest) (h : HyperHistogram)
    (hR : h.binning.IndicesInRange) (hroot : h.binning.PrimariesAreRoots)
    (hInc : h.binning.LinksIncrease) (p : List ℚ) (v : Nat)
    (hv : v < h.binning.getNumHyperVolumes) (hk : (v : Int) ∉ removedVolumes h)
    (hl : newLinkedVols h.binning
      (oldToNewTable h.binning.getNumHyperVolumes (removedVolumes h)) v = []) :
    (mergePass rt h).1.binning.followBinLinks rt p (mergePass rt h).1.binning.nodes.length
        (oldToNewVolumeNum (oldToNewTable h.binning.getNumHyperVolumes (removedVolumes h)) v)
      = HyperBinning.Descent.leaf
          (oldToNewVolumeNum
            (oldToNewTable h.binning.getNumHyperVolumes (removedVolumes h)) v) := by
  obtain ⟨e1, e2⟩ := new_of_kept h v hv hk
  have hl' := HyperBinning.getLinked_of_getNode _ _ _ (mergePass_node rt h v hv hk)
  rw [e1] at hl' ⊢
  rw [HyperBinning.followBinLinks_step rt _ (mergePass_indicesInRange rt h hR hroot)
    (mergePass_linksIncrease rt h hR hInc) p _ (by rw [mergePass_numNodes]; exact e2),
    hl', hl]
  rfl

theorem rebuilt_descent_step (rt : RangeTest) (h : HyperHistogram)
    (hR : h.binning.IndicesInRange) (hP : h.binning.SingleParent)
    (hroot : h.binning.PrimariesAreRoots)
    (hInc : h.binning.LinksIncrease) (p : List ℚ) (v c : Nat)
    (hv : v < h.binning.getNumHyperVolumes) (hk : (v : Int) ∉ removedVolumes h)
    (hq : ¬ ((h.binning.getLinkedHyperVolumes v).length ≠ 0 ∧
      linksLeadToBins h.binning (h.binning.getLinkedHyperVolumes v) = true ∧
      binsHaveSameContent h (h.binning.getLinkedHyperVolumes v) = true))
    (hf : (h.binning.getLinkedHyperVolumes v).find?
        (fun c => (h.binning.getHyperVolume c).inVolume rt p) = some (c : Int)) :
    (mergePass rt h).1.binning.followBinLinks rt p (mergePass rt h).1.binning.nodes.length
        (oldToNewVolumeNum (oldToNewTable h.binning.getNumHyperVolumes (removedVolumes h)) v)
      = (mergePass rt h).1.binning.followBinLinks rt p
          (mergePass rt h).1.binning.nodes.length
          (oldToNewVolumeNum
            (oldToNewTable h.binning.getNumHyperVolumes (removedVolumes h)) c) := by
  obtain ⟨e1, e2⟩ := new_of_kept h v hv hk
  obtain ⟨hmap, hkept⟩ := newLinkedVols_of_not_qualifies h v hR hP hv hq
  have hl' := HyperBinning.getLinked_of_getNode _ _ _ (mergePass_node rt h v hv hk)
  rw [e1] at hl'
  have hfind := find?_rebuilt rt h p (h.binning.getLinkedHyperVolumes v) (fun c0 hc0 =>
    ⟨h.binning.links_inRange hR v
      ⟨by omega, by unfold HyperBinning.getNumHyperVolumes at hv; exact_mod_cast hv⟩ c0 hc0,
      hkept c0 hc0⟩)
  rw [hf] at hfind
  have hne : ((h.binning.getLinkedHyperVolumes v).map
      (oldToNewVolumeNum
        (oldToNewTable h.binning.getNumHyperVolumes (removedVolumes h)))).isEmpty = false := by
    cases hq2 : h.binning.getLinkedHyperVolumes v with
    | nil => rw [hq2] at hf; exact absurd hf (by simp)
    | cons _ _ => rfl
  conv_lhs => rw [e1]
  rw [HyperBinning.followBinLinks_step rt _ (mergePass_indicesInRange rt h hR hroot)
    (mergePass_linksIncrease rt h hR hInc) p _ (by rw [mergePass_numNodes]; exact e2),
    hl', hmap, hne, hfind]
  rfl

theorem mergePass_descent (rt : RangeTest) (h : HyperHistogram)
    (hR : h.binning.IndicesInRange) (hT : h.binning.TreeShaped)
    (hU : ∀ p, h.binning.UnionAt rt p) (hD : ∀ p, h.binning.DisjointAt rt p) :
    ∀ (m v : Nat), v < h.binning.nodes.length → h.binning.nodes.length - v ≤ m →
      (v : Int) ∉ removedVolumes h →
      ∀ p, (h.binning.getHyperVolume v).inVolume rt p = true →
      ∃ w : Nat, w < h.binning.nodes.length ∧ (w : Int) ∉ removedVolumes h ∧
        (mergePass rt h).1.binning.followBinLinks rt p
            (mergePass rt h).1.binning.nodes.length
            (oldToNewVolumeNum
              (oldToNewTable h.binning.getNumHyperVolumes (removedVolumes h)) v)
          = HyperBinning.Descent.leaf
              (oldToNewVolumeNum
                (oldToNewTable h.binning.getNumHyperVolumes (removedVolumes h)) w) ∧
        (∀ q, (h.binning.getHyperVolume w).inVolume rt q = true →
          (h.binning.getHyperVolume v).inVolume rt q = true) ∧
        (h.binning.getHyperVolume w).inVolume rt p = true ∧
        (∀ q, (h.binning.getHyperVolume w).inVolume rt q = true →
          h.valueAt (h.binning.followBinLinks rt q h.binning.nodes.length v)
            = h.valueAt (h.binning.followBinLinks rt p h.binning.nodes.length v)) := by
  obtain ⟨hP, hroot, hInc⟩ := hT
  intro m
  induction m with
  | zero => intro v hv hm; omega
  | succ m ih =>
    intro v hv hm hk p hp
    by_cases hq : (h.binning.getLinkedHyperVolumes v).length ≠ 0 ∧
        linksLeadToBins h.binning (h.binning.getLinkedHyperVolumes v) = true ∧
        binsHaveSameContent h (h.binning.getLinkedHyperVolumes v) = true
    · -- the linked volumes of `v` are merged into `v`
      refine ⟨v, hv, hk, rebuilt_descent_leaf rt h hR hroot hInc p v hv hk
        (newLinkedVols_of_qualifies h v hR hv hq), fun q hq' => hq', hp, ?_⟩
      intro q hqin
      have hne : h.binning.getLinkedHyperVolumes v ≠ [] := fun e => hq.1 (by rw [e]; rfl)
      obtain ⟨c1, hc1, e1⟩ := value_of_qualifying rt h hR hInc hU q v hv hq hqin
      obtain ⟨c2, hc2, e2⟩ := value_of_qualifying rt h hR hInc hU p v hv hq hp
      rw [e1, e2]
      exact (binsHaveSameContent_iff h _ hne).mp hq.2.2 c1 hc1 c2 hc2
    · by_cases hl : h.binning.getLinkedHyperVolumes v = []
      · -- `v` is a bin that stays
        have hnl : newLinkedVols h.binning
            (oldToNewTable h.binning.getNumHyperVolumes (removedVolumes h)) v = [] := by
          unfold newLinkedVols
          rw [hl]
          rfl
        refine ⟨v, hv, hk, rebuilt_descent_leaf rt h hR hroot hInc p v hv hk hnl,
          fun q hq' => hq', hp, ?_⟩
        intro q _
        rw [descent_of_leaf rt h hR hInc q v hv hl, descent_of_leaf rt h hR hInc p v hv hl]
      · -- `v` stays internal with all its linked volumes
        obtain ⟨c, hc, hcl, hvc, hcin, hf, hstep⟩ :=
          descent_into_child rt h hR hInc hU p v hv hl hp
        have hck : (c : Int) ∉ removedVolumes h :=
          (newLinkedVols_of_not_qualifies h v hR hP hv hq).2 c hc
        obtain ⟨w, hw, hwk, hdesc, hincl, hwp, hconst⟩ := ih c hcl (by omega) hck p hcin
        refine ⟨w, hw, hwk, ?_, ?_, hwp, ?_⟩
        · rw [rebuilt_descent_step rt h hR hP hroot hInc p v c hv hk hq hf]
          exact hdesc
        · intro q hq'
          exact (hU q).2 v (List.mem_range.mpr hv) c hc (hincl q hq')
        · intro q hq'
          have hcq := hincl q hq'
          have hvq := (hU q).2 v (List.mem_range.mpr hv) c hc hcq
          obtain ⟨c2, hc2, _, _, hc2in, _, hstep2⟩ :=
            descent_into_child rt h hR hInc hU q v hv hl hvq
          have hsame : (c2 : Int) = (c : Int) :=
            (hD q).1 v (List.mem_range.mpr hv) c2 hc2 c hc hc2in hcq
          rw [hstep2, hstep, hsame]
          exact hconst q hq'

theorem HyperHistogram.getVal_eq_valueAt (rt : RangeTest) (h : HyperHistogram) (p : HyperPoint) :
    h.getVal rt p = h.valueAt (h.binning.descend rt p.coords) := by
  cases hd : h.binning.descend rt p.coords with
  | leaf v =>
    cases hn : h.binning.getNode v with
    | none =>
      simp only [HyperHistogram.getVal, HyperBinning.getBinNum, HyperHistogram.valueAt, hd, hn]
    | some nd =>
      simp only [HyperHistogram.getVal, HyperBinning.getBinNum, HyperHistogram.valueAt, hd, hn]
  | miss =>
    simp only [HyperHistogram.getVal, HyperBinning.getBinNum, HyperHistogram.valueAt, hd]
  | cycle =>
    simp only [HyperHistogram.getVal, HyperBinning.getBinNum, HyperHistogram.valueAt, hd]

theorem getElem?_filter_take {α : Type} (p : α → Bool) :
    ∀ (l : List α) (j : Nat) (x : α), l.get? j = some x → p x = true →
      (l.filter p)[(l.take j).countP p]? = some x := by
  intro l
  induction l with
  | nil => intro j x hx; simp at hx
  | cons y ys ih =>
    intro j x hx hp
    cases j with
    | zero =>
      simp at hx
      subst hx
      simp [List.filter_cons, hp]
    | succ j =>
      have hx' : ys.get? j = some x := by simpa using hx
      have := ih j x hx' hp
      by_cases hy : p y = true
      · simp [List.filter_cons, hy, List.take_succ_cons, List.countP_cons, this]
      · simp [List.filter_cons, hy, List.take_succ_cons, List.countP_cons, this]

theorem HyperBinning.binVolume_of_leaf (b : HyperBinning) (v : Int) (nd : BinNode)
    (hnode : b.getNode v = some nd) (hleaf : nd.links = []) :
    b.getBinHyperVolume ((b.nodes.take v.toNat).countP BinNode.isLeaf) = nd.volume ∧
    (b.nodes.take v.toNat).countP BinNode.isLeaf < b.getNumBins := by
  have hget : b.nodes.get? v.toNat = some nd := by
    unfold HyperBinning.getNode at hnode
    split at hnode
    · exact absurd hnode (by simp)
    · exact hnode
  have hl : nd.isLeaf = true := by unfold BinNode.isLeaf; rw [hleaf]; rfl
  refine ⟨?_, countP_take_lt BinNode.isLeaf b.nodes v.toNat nd hget hl⟩
  unfold HyperBinning.getBinHyperVolume HyperBinning.binVolumes
  rw [List.getD_eq_getElem?_getD, List.getElem?_map,
    getElem?_filter_take BinNode.isLeaf b.nodes v.toNat nd hget hl]
  rfl

theorem find?_unique {α : Type} (p : α → Bool) (l : List α) (x : α) (hx : x ∈ l)
    (hp : p x = true) (huniq : ∀ y ∈ l, p y = true → y = x) : l.find? p = some x := by
  cases hf : l.find? p with
  | none =>
    rw [List.find?_eq_none] at hf
    exact absurd hp (hf x hx)
  | some y =>
    have hy := List.mem_of_find?_eq_some hf
    have hpy : p y = true := List.find?_some hf
    rw [huniq y hy hpy]

theorem mergePass_getVal (rt : RangeTest) (h : HyperHistogram) (hG : h.Partitioned rt)
    (p : HyperPoint) (hdom : h.binning.inDomain rt p.coords = true) :
    (mergePass rt h).1.getVal rt p = h.getVal rt p := by
  obtain ⟨hR, hT, hU, hD, hC⟩ := hG
  have hroot := hT.2.1
  have hR' := mergePass_indicesInRange rt h hR hroot
  -- the primary node that contains `p`
  obtain ⟨r, hrmem, hrin⟩ : ∃ r ∈ h.binning.primaryVolumeNumbers,
      (h.binning.getHyperVolume r).inVolume rt p.coords = true := by
    unfold HyperBinning.inDomain at hdom
    rw [List.any_eq_true] at hdom
    exact hdom
  have hfind : ∀ q, (h.binning.getHyperVolume r).inVolume rt q = true →
      h.binning.primaryVolumeNumbers.find?
        (fun v => (h.binning.getHyperVolume v).inVolume rt q) = some r := fun q hq =>
    find?_unique _ _ r hrmem hq (fun y hy hpy => (hD q).2 y hy r hrmem hpy hq)
  have hrange := hR.2 r hrmem
  have hrn : r = ((r.toNat : Nat) : Int) := (Int.toNat_of_nonneg hrange.1).symm
  have hrl : r.toNat < h.binning.nodes.length := by have := hrange.2; omega
  have hrk : ((r.toNat : Nat) : Int) ∉ removedVolumes h := by
    rw [← hrn]; exact primaries_kept h hroot r hrmem
  have hdesc : ∀ q, (h.binning.getHyperVolume r).inVolume rt q = true →
      h.binning.descend rt q
        = h.binning.followBinLinks rt q h.binning.nodes.length (r.toNat : Nat) := by
    intro q hq
    unfold HyperBinning.descend
    rw [hfind q hq, ← hrn]
  -- the descent in the rebuilt graph
  obtain ⟨w, hw, hwk, hdesc', hincl, hwp, hconst⟩ :=
    mergePass_descent rt h hR hT hU hD _ r.toNat hrl (Nat.le_refl _) hrk p.coords
      (by rw [← hrn]; exact hrin)
  have hfind' : (mergePass rt h).1.binning.primaryVolumeNumbers.find?
      (fun v => ((mergePass rt h).1.binning.getHyperVolume v).inVolume rt p.coords)
      = some (oldToNewVolumeNum
          (oldToNewTable h.binning.getNumHyperVolumes (removedVolumes h)) r) := by
    have e : (mergePass rt h).1.binning.primaryVolumeNumbers
        = h.binning.primaryVolumeNumbers.map
            (oldToNewVolumeNum
              (oldToNewTable h.binning.getNumHyperVolumes (removedVolumes h))) := by
      rw [mergePass_binning]
      exact (rebuildBinning_spec h.binning (removedVolumes h)).2.1
    rw [e, find?_rebuilt rt h p.coords h.binning.primaryVolumeNumbers
      (fun c hc => ⟨hR.2 c hc, primaries_kept h hroot c hc⟩), hfind p.coords hrin]
    rfl
  have hdescP : (mergePass rt h).1.binning.descend rt p.coords
      = HyperBinning.Descent.leaf
          (oldToNewVolumeNum
            (oldToNewTable h.binning.getNumHyperVolumes (removedVolumes h)) w) := by
    unfold HyperBinning.descend
    rw [hfind', hrn]
    exact hdesc'
  -- the leaf reached in the rebuilt graph is the image of `w`
  have hwl : w < h.binning.getNumHyperVolumes := hw
  have hnode := mergePass_node rt h w hwl hwk
  obtain ⟨e1, e2⟩ := new_of_kept h w hwl hwk
  have hleaf' : newLinkedVols h.binning
      (oldToNewTable h.binning.getNumHyperVolumes (removedVolumes h)) w = [] := by
    have hinr : (mergePass rt h).1.binning.InRange
        (oldToNewVolumeNum
          (oldToNewTable h.binning.getNumHyperVolumes (removedVolumes h)) (r.toNat : Nat)) := by
      obtain ⟨a1, a2⟩ := new_of_kept h r.toNat hrl hrk
      rw [a1]
      exact ⟨by omega, by rw [mergePass_numNodes]; exact_mod_cast a2⟩
    have := (HyperBinning.followBinLinks_leaf rt _ hR' p.coords _ _ _ hinr hdesc').2
    rw [HyperBinning.getLinked_of_getNode _ _ _ hnode] at this
    exact List.isEmpty_iff.mp this
  obtain ⟨hvol, hlt⟩ := HyperBinning.binVolume_of_leaf _ _ _ hnode hleaf'
  obtain ⟨hWF', hcont⟩ := mergePass_spec rt h
  -- the content of that leaf is the old value at the centre of the region of `w`
  rw [HyperHistogram.getVal_eq_valueAt rt (mergePass rt h).1 p, hdescP]
  simp only [HyperHistogram.valueAt, hnode]
  rw [(hcont _ (by rw [hWF'.2]; exact hlt)).1, hvol]
  -- and the old value is the same at the centre and at `p`
  have hcin := hC w (List.mem_range.mpr hwl)
  have hcr : (h.binning.getHyperVolume r).inVolume rt
      (h.binning.getHyperVolume (w : Nat)).getAverageCenter.coords = true :=
    Eq.mpr (congrArg (fun x => (h.binning.getHyperVolume x).inVolume rt
      (h.binning.getHyperVolume (w : Nat)).getAverageCenter.coords = true) hrn) (hincl _ hcin)
  rw [HyperHistogram.getVal_eq_valueAt rt h, HyperHistogram.getVal_eq_valueAt rt h p,
    hdesc _ hcr, hdesc _ hrin]
  exact hconst _ hcin

theorem mergePass_region (rt : RangeTest) (h : HyperHistogram) (c : Int)
    (hin : 0 ≤ c ∧ c < (h.binning.nodes.length : Int)) (hk : c ∉ removedVolumes h) :
    (mergePass rt h).1.binning.getHyperVolume
        (oldToNewVolumeNum (oldToNewTable h.binning.getNumHyperVolumes (removedVolumes h)) c)
      = h.binning.getHyperVolume c := by
  have hcn : c = ((c.toNat : Nat) : Int) := (Int.toNat_of_nonneg hin.1).symm
  have hcl : c.toNat < h.binning.getNumHyperVolumes := by
    have := hin.2
    unfold HyperBinning.getNumHyperVolumes
    omega
  have hn := mergePass_node rt h c.toNat hcl (by rw [← hcn]; exact hk)
  rw [← hcn] at hn
  rw [HyperBinning.getHyperVolume_of_getNode _ _ _ hn]

theorem mergePass_region_nat (rt : RangeTest) (h : HyperHistogram) (c : Nat)
    (hc : c < h.binning.getNumHyperVolumes) (hk : (c : Int) ∉ removedVolumes h) :
    (mergePass rt h).1.binning.getHyperVolume
        (oldToNewVolumeNum (oldToNewTable h.binning.getNumHyperVolumes (removedVolumes h)) c)
      = h.binning.getHyperVolume c :=
  mergePass_region rt h c
    ⟨by omega, by unfold HyperBinning.getNumHyperVolumes at hc; exact_mod_cast hc⟩ hk

theorem mergePass_singleParent (rt : RangeTest) (h : HyperHistogram)
    (hR : h.binning.IndicesInRange) (hP : h.binning.SingleParent) :
    (mergePass rt h).1.binning.SingleParent := by
  intro u1 hu1 u2 hu2 c' hc1 hc2
  obtain ⟨v1, hv1, hk1, hnew1, hlinks1, _⟩ := rebuilt_node_origin rt h u1 (List.mem_range.mp hu1)
  obtain ⟨v2, hv2, hk2, hnew2, hlinks2, _⟩ := rebuilt_node_origin rt h u2 (List.mem_range.mp hu2)
  rw [hlinks1] at hc1
  rw [hlinks2] at hc2
  obtain ⟨c1, hcl1, hc1r, hck1, e1⟩ := newLinkedVols_mem h v1 hR hv1 c' hc1
  obtain ⟨c2, hcl2, hc2r, hck2, e2⟩ := newLinkedVols_mem h v2 hR hv2 c' hc2
  have hcc : c1 = c2 := new_injective h c1 c2 hc1r hc2r hck1 hck2 (e1.symm.trans e2)
  subst hcc
  have hvv : v1 = v2 := hP v1 (List.mem_range.mpr hv1) v2 (List.mem_range.mpr hv2) _ hcl1 hcl2
  subst hvv
  have : (u1 : Int) = (u2 : Int) := hnew1.symm.trans hnew2
  exact_mod_cast this

theorem mergePass_primariesAreRoots (rt : RangeTest) (h : HyperHistogram)
    (hR : h.binning.IndicesInRange) (hroot : h.binning.PrimariesAreRoots) :
    (mergePass rt h).1.binning.PrimariesAreRoots := by
  intro p' hp' u hu hmem
  rw [mergePass_binning, (rebuildBinning_spec h.binning (removedVolumes h)).2.1] at hp'
  obtain ⟨p, hp, rfl⟩ := List.mem_map.mp hp'
  obtain ⟨v, hv, hk, hnew, hlinks, _⟩ := rebuilt_node_origin rt h u (List.mem_range.mp hu)
  rw [hlinks] at hmem
  obtain ⟨c, hcl, hcr, hck, e⟩ := newLinkedVols_mem h v hR hv _ hmem
  have hin := hR.2 p hp
  have hpn : p = ((p.toNat : Nat) : Int) := (Int.toNat_of_nonneg hin.1).symm
  have hpl : p.toNat < h.binning.getNumHyperVolumes := by
    have := hin.2
    unfold HyperBinning.getNumHyperVolumes
    omega
  have hpk : ((p.toNat : Nat) : Int) ∉ removedVolumes h := by
    rw [← hpn]; exact primaries_kept h hroot p hp
  rw [hpn] at e
  have hpc : p.toNat = c := new_injective h p.toNat c hpl hcr hpk hck e
  rw [← hpc, ← hpn] at hcl
  exact hroot p hp v (List.mem_range.mpr hv) hcl

theorem mergePass_unionAt (rt : RangeTest) (h : HyperHistogram)
    (hR : h.binning.IndicesInRange) (hP : h.binning.SingleParent) (p : List ℚ)
    (hU : h.binning.UnionAt rt p) :
    (mergePass rt h).1.binning.UnionAt rt p := by
  constructor
  · intro u hu hne hin
    obtain ⟨v, hv, hk, hnew, hlinks, hvol⟩ := rebuilt_node_origin rt h u (List.mem_range.mp hu)
    rw [hlinks] at hne
    rw [hvol] at hin
    have hq : ¬ ((h.binning.getLinkedHyperVolumes v).length ≠ 0 ∧
        linksLeadToBins h.binning (h.binning.getLinkedHyperVolumes v) = true ∧
        binsHaveSameContent h (h.binning.getLinkedHyperVolumes v) = true) :=
      fun hq => hne (newLinkedVols_of_qualifies h v hR hv hq)
    obtain ⟨hmap, hkept⟩ := newLinkedVols_of_not_qualifies h v hR hP hv hq
    have hne2 : h.binning.getLinkedHyperVolumes v ≠ [] := by
      intro he
      rw [hmap, he] at hne
      exact hne rfl
    obtain ⟨c, hc, hcin⟩ := hU.1 v (List.mem_range.mpr hv) hne2 hin
    have hcr := h.binning.links_inRange hR v
      ⟨by omega, by unfold HyperBinning.getNumHyperVolumes at hv; exact_mod_cast hv⟩ c hc
    refine ⟨oldToNewVolumeNum
      (oldToNewTable h.binning.getNumHyperVolumes (removedVolumes h)) c, ?_, ?_⟩
    · rw [hlinks, hmap]
      exact List.mem_map_of_mem _ hc
    · rw [mergePass_region rt h c hcr (hkept c hc)]
      exact hcin
  · intro u hu c' hc' hin
    obtain ⟨v, hv, hk, hnew, hlinks, hvol⟩ := rebuilt_node_origin rt h u (List.mem_range.mp hu)
    rw [hlinks] at hc'
    obtain ⟨c, hcl, hcr, hck, rfl⟩ := newLinkedVols_mem h v hR hv c' hc'
    rw [mergePass_region_nat rt h c hcr hck] at hin
    rw [hvol]
    exact hU.2 v (List.mem_range.mpr hv) c hcl hin

theorem mergePass_disjointAt (rt : RangeTest) (h : HyperHistogram)
    (hR : h.binning.IndicesInRange) (hroot : h.binning.PrimariesAreRoots) (p : List ℚ)
    (hD : h.binning.DisjointAt rt p) :
    (mergePass rt h).1.binning.DisjointAt rt p := by
  constructor
  · intro u hu c1' hc1' c2' hc2' hin1 hin2
    obtain ⟨v, hv, hk, hnew, hlinks, hvol⟩ := rebuilt_node_origin rt h u (List.mem_range.mp hu)
    rw [hlinks] at hc1' hc2'
    obtain ⟨c1, hcl1, hcr1, hck1, rfl⟩ := newLinkedVols_mem h v hR hv c1' hc1'
    obtain ⟨c2, hcl2, hcr2, hck2, rfl⟩ := newLinkedVols_mem h v hR hv c2' hc2'
    rw [mergePass_region_nat rt h c1 hcr1 hck1] at hin1
    rw [mergePass_region_nat rt h c2 hcr2 hck2] at hin2
    rw [hD.1 v (List.mem_range.mpr hv) c1 hcl1 c2 hcl2 hin1 hin2]
  · intro c1' hc1' c2' hc2' hin1 hin2
    rw [mergePass_binning, (rebuildBinning_spec h.binning (removedVolumes h)).2.1] at hc1' hc2'
    obtain ⟨p1, hp1, rfl⟩ := List.mem_map.mp hc1'
    obtain ⟨p2, hp2, rfl⟩ := List.mem_map.mp hc2'
    rw [mergePass_region rt h p1 (hR.2 p1 hp1) (primaries_kept h hroot p1 hp1)] at hin1
    rw [mergePass_region rt h p2 (hR.2 p2 hp2) (primaries_kept h hroot p2 hp2)] at hin2
    rw [hD.2 p1 hp1 p2 hp2 hin1 hin2]

theorem mergePass_centresInside (rt : RangeTest) (h : HyperHistogram)
    (hC : h.binning.CentresInside rt) :
    (mergePass rt h).1.binning.CentresInside rt := by
  intro u hu
  obtain ⟨v, hv, hk, hnew, hlinks, hvol⟩ := rebuilt_node_origin rt h u (List.mem_range.mp hu)
  rw [hvol]
  exact hC v (List.mem_range.mpr hv)

theorem mergePass_partitioned (rt : RangeTest) (h : HyperHistogram) (hG : h.Partitioned rt) :
    (mergePass rt h).1.Partitioned rt := by
  obtain ⟨hR, hT, hU, hD, hC⟩ := hG
  exact ⟨mergePass_indicesInRange rt h hR hT.2.1,
    ⟨mergePass_singleParent rt h hR hT.1, mergePass_primariesAreRoots rt h hR hT.2.1,
      mergePass_linksIncrease rt h hR hT.2.2⟩,
    fun p => mergePass_unionAt rt h hR hT.1 p (hU p),
    fun p => mergePass_disjointAt rt h hR hT.2.1 p (hD p),
    mergePass_centresInside rt h hC⟩

theorem mergePass_inDomain (rt : RangeTest) (h : HyperHistogram)
    (hR : h.binning.IndicesInRange) (hroot : h.binning.PrimariesAreRoots) (p : List ℚ) :
    (mergePass rt h).1.binning.inDomain rt p = h.binning.inDomain rt p := by
  unfold HyperBinning.inDomain
  rw [mergePass_binning, (rebuildBinning_spec h.binning (removedVolumes h)).2.1, List.any_map]
  rw [Bool.eq_iff_iff, List.any_eq_true, List.any_eq_true]
  constructor
  · rintro ⟨c, hc, hin⟩
    refine ⟨c, hc, ?_⟩
    have := mergePass_region rt h c (hR.2 c hc) (primaries_kept h hroot c hc)
    rw [mergePass_binning] at this
    simp only [Function.comp] at hin
    rw [this] at hin
    exact hin
  · rintro ⟨c, hc, hin⟩
    refine ⟨c, hc, ?_⟩
    have := mergePass_region rt h c (hR.2 c hc) (primaries_kept h hroot c hc)
    rw [mergePass_binning] at this
    simp only [Function.comp]
    rw [this]
    exact hin

theorem mergePasses_getVal (rt : RangeTest) :
    ∀ (k : Nat) (h : HyperHistogram), h.Partitioned rt →
      ∀ p : HyperPoint, h.binning.inDomain rt p.coords = true →
        (mergePasses rt k h).getVal rt p = h.getVal rt p := by
  intro k
  induction k with
  | zero => intro h _ p _; rfl
  | succ k ih =>
    intro h hG p hdom
    rw [mergePasses_succ rt k h, ih (mergePass rt h).1 (mergePass_partitioned rt h hG) p
      (by rw [mergePass_inDomain rt h hG.1 hG.2.1.2.1]; exact hdom)]
    exact mergePass_getVal rt h hG p hdom

theorem segment_inVolume (a b : ℚ) (p : List ℚ) :
    (segment a b).inVolume halfOpen p = true ↔ a ≤ p.getD 0 0 ∧ p.getD 0 0 < b := by
  simp [segment, HyperVolume.inVolume, HyperCuboid.inVolume, HyperCuboid.getDimension, halfOpen]

theorem overlapHist_unionAt (p : List ℚ) : overlapHist.binning.UnionAt halfOpen p := by
  have L0 : overlapHist.binning.getLinkedHyperVolumes 0 = [1, 2] := rfl
  have L1 : overlapHist.binning.getLinkedHyperVolumes 1 = [] := rfl
  have L2 : overlapHist.binning.getLinkedHyperVolumes 2 = [3, 4] := rfl
  have L3 : overlapHist.binning.getLinkedHyperVolumes 3 = [] := rfl
  have L4 : overlapHist.binning.getLinkedHyperVolumes 4 = [] := rfl
  have V0 : overlapHist.binning.getHyperVolume 0 = segment 0 10 := rfl
  have V1 : overlapHist.binning.getHyperVolume 1 = segment 4 6 := rfl
  have V2 : overlapHist.binning.getHyperVolume 2 = segment 0 10 := rfl
  have V3 : overlapHist.binning.getHyperVolume 3 = segment 0 5 := rfl
  have V4 : overlapHist.binning.getHyperVolume 4 = segment 5 10 := rfl
  constructor
  · intro u hu hne hin
    have hu5 : u < 5 := List.mem_range.mp hu
    interval_cases u
    · exact ⟨2, by rw [Nat.cast_zero, L0]; simp, by
        rw [Nat.cast_zero, V0] at hin; rw [V2]; exact hin⟩
    · exact absurd L1 hne
    · rw [Nat.cast_ofNat, V2, segment_inVolume] at hin
      rcases lt_or_le (p.getD 0 0) 5 with h5 | h5
      · exact ⟨3, by rw [Nat.cast_ofNat, L2]; simp, by
          rw [V3, segment_inVolume]; exact ⟨hin.1, h5⟩⟩
      · exact ⟨4, by rw [Nat.cast_ofNat, L2]; simp, by
          rw [V4, segment_inVolume]; exact ⟨h5, hin.2⟩⟩
    · exact absurd L3 hne
    · exact absurd L4 hne
  · intro u hu c hc hin
    have hu5 : u < 5 := List.mem_range.mp hu
    interval_cases u
    · rw [Nat.cast_zero, L0] at hc
      rw [Nat.cast_zero, V0, segment_inVolume]
      simp only [List.mem_cons, List.mem_singleton, List.not_mem_nil, or_false] at hc
      rcases hc with rfl | rfl
      · rw [V1, segment_inVolume] at hin
        constructor <;> linarith [hin.1, hin.2]
      · rw [V2, segment_inVolume] at hin
        exact hin
    · rw [Nat.cast_one, L1] at hc
      exact absurd hc (List.not_mem_nil _)
    · rw [Nat.cast_ofNat, L2] at hc
      rw [Nat.cast_ofNat, V2, segment_inVolume]
      simp only [List.mem_cons, List.mem_singleton, List.not_mem_nil, or_false] at hc
      rcases hc with rfl | rfl
      · rw [V3, segment_inVolume] at hin
        constructor <;> linarith [hin.1, hin.2]
      · rw [V4, segment_inVolume] at hin
        constructor <;> linarith [hin.1, hin.2]
    · rw [Nat.cast_ofNat, L3] at hc
      exact absurd hc (List.not_mem_nil _)
    · rw [Nat.cast_ofNat, L4] at hc
      exact absurd hc (List.not_mem_nil _)

theorem twoLevelHist_unionAt (p : List ℚ) : twoLevelHist.binning.UnionAt halfOpen p := by
  have L0 : twoLevelHist.binning.getLinkedHyperVolumes 0 = [1, 2] := rfl
  have L1 : twoLevelHist.binning.getLinkedHyperVolumes 1 = [3, 4] := rfl
  have L2 : twoLevelHist.binning.getLinkedHyperVolumes 2 = [] := rfl
  have L3 : twoLevelHist.binning.getLinkedHyperVolumes 3 = [] := rfl
  have L4 : twoLevelHist.binning.getLinkedHyperVolumes 4 = [] := rfl
  have V0 : twoLevelHist.binning.getHyperVolume 0 = segment 0 10 := rfl
  have V1 : twoLevelHist.binning.getHyperVolume 1 = segment 0 5 := rfl
  have V2 : twoLevelHist.binning.getHyperVolume 2 = segment 5 10 := rfl
  have V3 : twoLevelHist.binning.getHyperVolume 3 = segment 0 (5 / 2) := rfl
  have V4 : twoLevelHist.binning.getHyperVolume 4 = segment (5 / 2) 5 := rfl
  constructor
  · intro u hu hne hin
    have hu5 : u < 5 := List.mem_range.mp hu
    interval_cases u
    · rw [Nat.cast_zero, V0, segment_inVolume] at hin
      rcases lt_or_le (p.getD 0 0) 5 with h5 | h5
      · exact ⟨1, by rw [Nat.cast_zero, L0]; simp, by
          rw [V1, segment_inVolume]; exact ⟨hin.1, h5⟩⟩
      · exact ⟨2, by rw [Nat.cast_zero, L0]; simp, by
          rw [V2, segment_inVolume]; exact ⟨h5, hin.2⟩⟩
    · rw [Nat.cast_one, V1, segment_inVolume] at hin
      rcases lt_or_le (p.getD 0 0) (5 / 2) with h5 | h5
      · exact ⟨3, by rw [Nat.cast_one, L1]; simp, by
          rw [V3, segment_inVolume]; exact ⟨hin.1, h5⟩⟩
      · exact ⟨4, by rw [Nat.cast_one, L1]; simp, by
          rw [V4, segment_inVolume]; exact ⟨h5, hin.2⟩⟩
    · exact absurd L2 hne
    · exact absurd L3 hne
    · exact absurd L4 hne
  · intro u hu c hc hin
    have hu5 : u < 5 := List.mem_range.mp hu
    interval_cases u
    · rw [Nat.cast_zero, L0] at hc
      rw [Nat.cast_zero, V0, segment_inVolume]
      simp only [List.mem_cons, List.mem_singleton, List.not_mem_nil, or_false] at hc
      rcases hc with rfl | rfl
      · rw [V1, segment_inVolume] at hin
        constructor <;> linarith [hin.1, hin.2]
      · rw [V2, segment_inVolume] at hin
        constructor <;> linarith [hin.1, hin.2]
    · rw [Nat.cast_one, L1] at hc
      rw [Nat.cast_one, V1, segment_inVolume]
      simp only [List.mem_cons, List.mem_singleton, List.not_mem_nil, or_false] at hc
      rcases hc with rfl | rfl
      · rw [V3, segment_inVolume] at hin
        constructor <;> linarith [hin.1, hin.2]
      · rw [V4, segment_inVolume] at hin
        constructor <;> linarith [hin.1, hin.2]
    · rw [Nat.cast_ofNat, L2] at hc
      exact absurd hc (List.not_mem_nil _)
    · rw [Nat.cast_ofNat, L3] at hc
      exact absurd hc (List.not_mem_nil _)
    · rw [Nat.cast_ofNat, L4] at hc
      exact absurd hc (List.not_mem_nil _)

theorem twoLevelHist_disjointAt (p : List ℚ) : twoLevelHist.binning.DisjointAt halfOpen p := by
  have L0 : twoLevelHist.binning.getLinkedHyperVolumes 0 = [1, 2] := rfl
  have L1 : twoLevelHist.binning.getLinkedHyperVolumes 1 = [3, 4] := rfl
  have L2 : twoLevelHist.binning.getLinkedHyperVolumes 2 = [] := rfl
  have L3 : twoLevelHist.binning.getLinkedHyperVolumes 3 = [] := rfl
  have L4 : twoLevelHist.binning.getLinkedHyperVolumes 4 = [] := rfl
  have V1 : twoLevelHist.binning.getHyperVolume 1 = segment 0 5 := rfl
  have V2 : twoLevelHist.binning.getHyperVolume 2 = segment 5 10 := rfl
  have V3 : twoLevelHist.binning.getHyperVolume 3 = segment 0 (5 / 2) := rfl
  have V4 : twoLevelHist.binning.getHyperVolume 4 = segment (5 / 2) 5 := rfl
  constructor
  · intro u hu c1 hc1 c2 hc2 hin1 hin2
    have hu5 : u < 5 := List.mem_range.mp hu
    interval_cases u
    · rw [Nat.cast_zero, L0] at hc1 hc2
      simp only [List.mem_cons, List.mem_singleton, List.not_mem_nil, or_false] at hc1 hc2
      rcases hc1 with rfl | rfl <;> rcases hc2 with rfl | rfl
      · rfl
      · rw [V1, segment_inVolume] at hin1
        rw [V2, segment_inVolume] at hin2
        exfalso; linarith [hin1.2, hin2.1]
      · rw [V2, segment_inVolume] at hin1
        rw [V1, segment_inVolume] at hin2
        exfalso; linarith [hin1.1, hin2.2]
      · rfl
    · rw [Nat.cast_one, L1] at hc1 hc2
      simp only [List.mem_cons, List.mem_singleton, List.not_mem_nil, or_false] at hc1 hc2
      rcases hc1 with rfl | rfl <;> rcases hc2 with rfl | rfl
      · rfl
      · rw [V3, segment_inVolume] at hin1
        rw [V4, segment_inVolume] at hin2
        exfalso; linarith [hin1.2, hin2.1]
      · rw [V4, segment_inVolume] at hin1
        rw [V3, segment_inVolume] at hin2
        exfalso; linarith [hin1.1, hin2.2]
      · rfl
    · rw [Nat.cast_ofNat, L2] at hc1
      exact absurd hc1 (List.not_mem_nil _)
    · rw [Nat.cast_ofNat, L3] at hc1
      exact absurd hc1 (List.not_mem_nil _)
    · rw [Nat.cast_ofNat, L4] at hc1
      exact absurd hc1 (List.not_mem_nil _)
  · intro c1 hc1 c2 hc2 _ _
    have P : twoLevelHist.binning.primaryVolumeNumbers = [0] := rfl
    rw [P, List.mem_singleton] at hc1 hc2
    rw [hc1, hc2]

/-- Counterexample for C27 as stated: the histogram `overlapHist` has tree-shaped links,
the region of each of its internal nodes is the union of the regions of its
linked volumes, and every average centre lies in its region; the point 8 is in
the domain `[0,10]`.  `getVal` at 8 is 7 before `mergeBinsWithSameContent` and 9
after it: the pass collapses the leaves `[0,5]` and `[5,10]` into node 2
(`[0,10]`), whose new content is the old value at its centre 5, which the old
descent finds in the overlapping sibling `[4,6]` with content 9. -/
theorem merge_of_overlapping_siblings_changes_getVal :
    overlapHist.WellFormed ∧ overlapHist.binning.IndicesInRange ∧
    overlapHist.binning.TreeShaped ∧
    (∀ p, overlapHist.binning.UnionAt halfOpen p) ∧
    overlapHist.binning.CentresInside halfOpen ∧
    overlapHist.binning.inDomain halfOpen [8] = true ∧
    overlapHist.getVal halfOpen { coords := [8], weights := [] } = 7 ∧
    (overlapHist.mergeBinsWithSameContent halfOpen "HyperBinning").1.getVal halfOpen
        { coords := [8], weights := [] } = 9 :=
  ⟨by decide, by decide, by decide, overlapHist_unionAt, by decide!, by decide!,
    by decide!, by decide!⟩

/-- C27 (amended): for every memory-resident hierarchical histogram whose node numbers
name nodes of the graph, whose links are tree-shaped (each node is linked from
at most one node, no primary node is linked, links lead to higher node
numbers), in which the region of every internal node is the union of the
regions of its linked volumes, the regions of the linked volumes of one node
are pairwise disjoint and so are the primary regions, and the average centre of
every node's region lies in that region, and for every point `p` inside the
domain, `getVal(p)` after `mergeBinsWithSameContent` equals `getVal(p)` before
it. -/
theorem mergeBins_keeps_getVal_on_partitioned (rt : RangeTest) (h : HyperHistogram)
    (hR : h.binning.IndicesInRange) (hT : h.binning.TreeShaped)
    (hU : ∀ q, h.binning.UnionAt rt q) (hD : ∀ q, h.binning.DisjointAt rt q)
    (hC : h.binning.CentresInside rt)
    (p : HyperPoint) (hdom : h.binning.inDomain rt p.coords = true) :
    (h.mergeBinsWithSameContent rt "HyperBinning").1.getVal rt p = h.getVal rt p := by
  obtain ⟨k, _, _, _, hres⟩ :=
    mergeBinsLoop_passes rt (h.binning.getNumBins + 1) h (Nat.lt_succ_self _)
  rw [mergeBins_eq_loop rt h (h.binning.getNumBins + 1) (Nat.lt_succ_self _)] at hres
  have e : (h.mergeBinsWithSameContent rt "HyperBinning").1 = mergePasses rt (k + 1) h := by
    simpa using hres
  rw [e]
  exact mergePasses_getVal rt (k + 1) h ⟨hR, hT, hU, hD, hC⟩ p hdom

theorem mergeBins_keeps_getVal_on_partitioned_witness :
    twoLevelHist.binning.IndicesInRange ∧ twoLevelHist.binning.TreeShaped ∧
    (∀ q, twoLevelHist.binning.UnionAt halfOpen q) ∧
    (∀ q, twoLevelHist.binning.DisjointAt halfOpen q) ∧
    twoLevelHist.binning.CentresInside halfOpen ∧
    twoLevelHist.binning.inDomain halfOpen [1] = true ∧
    (twoLevelHist.mergeBinsWithSameContent halfOpen "HyperBinning").1.binning.getNumBins = 2 ∧
    (twoLevelHist.mergeBinsWithSameContent halfOpen "HyperBinning").1.getVal halfOpen
        { coords := [1], weights := [] }
      = twoLevelHist.getVal halfOpen { coords := [1], weights := [] } :=
  ⟨by decide, by decide, twoLevelHist_unionAt, twoLevelHist_disjointAt, by decide!,
    by decide!, by decide!,
    mergeBins_keeps_getVal_on_partitioned halfOpen twoLevelHist (by decide) (by decide)
      twoLevelHist_unionAt twoLevelHist_disjointAt (by decide!)
      { coords := [1], weights := [] } (by decide!)⟩

end HyperPlot
